import Mathlib

/-!
# The Lark Project: maze generator and line rasterizer

A shallow embedding of `CLI_GUI_Test_images/Other/maze/src/maze_generator.cpp`
(class `Maze`: constructor, `generate`, `saveToPgm`; namespace `MazeGen`) and of
the line rasterizer of
`CLI_GUI_Test_images/Other/solar_flux_data/src/solar_flux_plot.cpp`
(`DrawBrush`, `DrawDottedLine`, `DrawLine`; namespace `SolarFluxPlot`), together
with the properties of their natural-language specification.

Conventions of the embedding

* `int` is the 32-bit type with range `[INT_MIN, INT_MAX]`. Values are
  mathematical integers, and in `saveToPgm` an `int` result outside that range
  (the element count `image_width * image_height` of line 105 above all) is a
  signed overflow, undefined behaviour, and yields `Fault.intOverflow`; under the
  hypotheses of the theorems on `saveToPgm` the other `int` values (cell sizes,
  pixel coordinates, buffer indices) are bounded by the canvas dimensions and
  the pixel count. Grid dimensions and cell coordinates, which the program keeps
  non-negative, are natural numbers, pixel geometry is in `Int` because it goes
  negative on small canvases. In `DrawDottedLine` integers are unbounded.
* `std::vector` accesses are bounds-checked: an access outside the container is
  undefined behaviour in C++ and yields a `Fault` here. Memory allocation is
  assumed to succeed.
* The random engine is an arbitrary stream `rand : Nat → Nat`; the `k`-th call
  `distrib(gen)` of a distribution over `[a, b]` returns `a + rand k % (b - a + 1)`,
  so every outcome of the random choices is the run on some stream.
* The `while` loop of `generate` is run with fuel `2 * width_ * height_`; the
  theorems show that this fuel is never exhausted.
* The file written by `saveToPgm` is the list of its bytes; whether the file
  could be opened is an argument. The drawing loops are the list of their
  stores, in program order, run on the buffer one by one.
* `iterate` runs a given number of iterations of the loop of `generate` (fewer
  if the stack empties first) and `loopTrace` is the same loop keeping a log of
  the cells it pushes and a count of its pops; `loop_eq_iterate` and
  `loopTrace_spec` tie both to `loop`.
* The `while (true)` loop of `DrawDottedLine` is run with fuel
  `|x2 - x1| + |y2 - y1| + 1` and keeps a record of the points at which its body
  is entered; `DrawDottedLineTrace_spec` shows that this fuel is never exhausted.
* White regions of the rendered canvas are described with paths of edge
  neighbours (`pixelJoined`), over the whole canvas or inside the maze rectangle.
-/

namespace MazeGen

/-! ## Data model -/

/-- Ways in which a run leaves the defined behaviour of the C++ program
(the source raises no error of its own), and the fuel artefact of the loop model. -/
inductive Fault where
  /-- Construction of `std::uniform_int_distribution<>(a, b)` with `b < a`. -/
  | emptyRange
  /-- Access `maze_[y][x]` with `y` or `x` outside the grid. -/
  | cellIndex
  /-- Access `neighbors[k]` outside the vector. -/
  | vectorIndex
  /-- Access `pixel_data[i]` with `i` outside the buffer. -/
  | pixelIndex
  /-- Construction of `std::vector<unsigned char>` with a negative element count. -/
  | badLength
  /-- Integer division by zero (`width_` or `height_` is 0 in `saveToPgm`). -/
  | divisionByZero
  /-- An `int` expression whose value is outside the range of `int` (signed overflow). -/
  | intOverflow
  /-- The bounded loop model ran out of fuel (never happens, see `loop_spec`). -/
  | outOfFuel
  deriving DecidableEq, Repr

deriving instance DecidableEq for Except

/-- The `struct Cell`: `visited` and `walls[4]` (Top, Right, Bottom, Left), `true` = closed. -/
structure Cell where
  visited : Bool := false
  walls0 : Bool := true
  walls1 : Bool := true
  walls2 : Bool := true
  walls3 : Bool := true
  deriving DecidableEq, Repr

/-- The flag `c.walls[i]` for `i` in `0..3`. -/
def Cell.walls (c : Cell) (i : Nat) : Bool :=
  match i with
  | 0 => c.walls0
  | 1 => c.walls1
  | 2 => c.walls2
  | _ => c.walls3

/-- The assignment `c.walls[i] = b` for `i` in `0..3`. -/
def Cell.setWall (c : Cell) (i : Nat) (b : Bool) : Cell :=
  match i with
  | 0 => { c with walls0 := b }
  | 1 => { c with walls1 := b }
  | 2 => { c with walls2 := b }
  | _ => { c with walls3 := b }

/-- The assignment `c.visited = true`. -/
def Cell.markVisited (c : Cell) : Cell := { c with visited := true }

/-- The `class Maze`: `width_`, `height_` and the grid `maze_[y][x]` (row `y`, column `x`).
Only the entries with `y < height_` and `x < width_` exist. -/
structure Maze where
  width_ : Nat
  height_ : Nat
  maze_ : Nat → Nat → Cell

/-- The constructor `Maze::Maze(width, height)`: a `height x width` grid of default cells. -/
def Maze.new (width height : Nat) : Maze :=
  { width_ := width, height_ := height, maze_ := fun _ _ => {} }

/-- Read access `maze_[y][x]`. -/
def Maze.read (m : Maze) (y x : Nat) : Except Fault Cell :=
  if y < m.height_ ∧ x < m.width_ then .ok (m.maze_ y x) else .error .cellIndex

/-- The grid with entry `[y][x]` replaced by `c`. -/
def Maze.store (m : Maze) (y x : Nat) (c : Cell) : Maze :=
  { m with maze_ := fun y1 x1 => if y1 = y ∧ x1 = x then c else m.maze_ y1 x1 }

/-- Write access `maze_[y][x].field = value`, as an update `f` of the cell. -/
def Maze.modify (m : Maze) (y x : Nat) (f : Cell → Cell) : Except Fault Maze :=
  if y < m.height_ ∧ x < m.width_ then .ok (m.store y x (f (m.maze_ y x))) else .error .cellIndex

/-! ## Random source -/

/-- A `std::uniform_int_distribution<>` over the closed range `[a, b]`. -/
structure Distrib where
  a : Int
  b : Int
  deriving DecidableEq, Repr

/-- Construction `std::uniform_int_distribution<> d(a, b)`; requires `a ≤ b`. -/
def uniform_int_distribution (a b : Int) : Except Fault Distrib :=
  if a ≤ b then .ok { a := a, b := b } else .error .emptyRange

/-- One call `d(gen)` when the engine delivers the raw value `raw`. -/
def Distrib.draw (d : Distrib) (raw : Nat) : Int :=
  d.a + (raw : Int) % (d.b - d.a + 1)

/-! ## `Maze::generate` -/

/-- Local state of `generate`: the grid, the stack (top first, entries `{x, y}`)
and the number of values drawn from the engine so far. -/
structure GenState where
  maze : Maze
  stack : List (Nat × Nat)
  gen : Nat

/-- One of the four guarded `neighbors.push_back(dir)` lines: the cell `[y][x]`
is read only when `cond` holds. -/
def probe (m : Maze) (cond : Bool) (y x dir : Nat) (neighbors : List Nat) :
    Except Fault (List Nat) :=
  if cond then
    (m.read y x).map (fun c => if !c.visited then neighbors ++ [dir] else neighbors)
  else .ok neighbors

/-- Lines 46-50: the directions of the in-bounds unvisited neighbours of `(x, y)`. -/
def neighbors (m : Maze) (x y : Nat) : Except Fault (List Nat) := do
  let n0 ← probe m (decide (y > 0)) (y - 1) x 0 []
  let n1 ← probe m (decide (x < m.width_ - 1)) y (x + 1) 1 n0
  let n2 ← probe m (decide (y < m.height_ - 1)) (y + 1) x 2 n1
  probe m (decide (x > 0)) y (x - 1) 3 n2

/-- The decrements `next_y--`, `next_x--` on a non-negative coordinate: the
result `-1` is no index of the grid. -/
def decr (n : Nat) : Except Fault Nat :=
  if n = 0 then .error .cellIndex else .ok (n - 1)

/-- Lines 56-80: the `switch (next_dir)`; returns the grid and `(next_x, next_y)`. -/
def carve (m : Maze) (x y next_dir : Nat) : Except Fault (Maze × Nat × Nat) :=
  match next_dir with
  | 0 => do
    let next_y ← decr y
    let m1 ← m.modify y x (fun c => c.setWall 0 false)
    let m2 ← m1.modify next_y x (fun c => c.setWall 2 false)
    pure (m2, x, next_y)
  | 1 => do
    let next_x := x + 1
    let m1 ← m.modify y x (fun c => c.setWall 1 false)
    let m2 ← m1.modify y next_x (fun c => c.setWall 3 false)
    pure (m2, next_x, y)
  | 2 => do
    let next_y := y + 1
    let m1 ← m.modify y x (fun c => c.setWall 2 false)
    let m2 ← m1.modify next_y x (fun c => c.setWall 0 false)
    pure (m2, x, next_y)
  | 3 => do
    let next_x ← decr x
    let m1 ← m.modify y x (fun c => c.setWall 3 false)
    let m2 ← m1.modify y next_x (fun c => c.setWall 1 false)
    pure (m2, next_x, y)
  | _ => pure (m, x, y)

/-- Lines 42-86: one iteration of the `while` loop with `stack.top() = {x, y}`
and `rest` below it. -/
def iteration (rand : Nat → Nat) (s : GenState) (x y : Nat) (rest : List (Nat × Nat)) :
    Except Fault GenState := do
  let nbs ← neighbors s.maze x y
  if nbs ≠ [] then
    let distrib_n ← uniform_int_distribution 0 ((nbs.length : Int) - 1)
    let k := (distrib_n.draw (rand s.gen)).toNat
    match nbs[k]? with
    | none => .error .vectorIndex
    | some next_dir =>
      let (m2, next_x, next_y) ← carve s.maze x y next_dir
      let m3 ← m2.modify next_y next_x Cell.markVisited
      pure { maze := m3, stack := (next_x, next_y) :: (x, y) :: rest, gen := s.gen + 1 }
  else
    pure { maze := s.maze, stack := rest, gen := s.gen }

/-- Lines 41-87: `while (!stack.empty())`, at most `fuel` iterations. -/
def loop (rand : Nat → Nat) : Nat → GenState → Except Fault GenState
  | fuel, s =>
    match s.stack with
    | [] => .ok s
    | (x, y) :: rest =>
      match fuel with
      | 0 => .error .outOfFuel
      | fuel + 1 => (iteration rand s x y rest).bind (loop rand fuel)

/-- Lines 32-39: the start cell is drawn, marked visited and pushed. -/
def genInit (m : Maze) (rand : Nat → Nat) : Except Fault GenState := do
  let distrib_w ← uniform_int_distribution 0 ((m.width_ : Int) - 1)
  let distrib_h ← uniform_int_distribution 0 ((m.height_ : Int) - 1)
  let start_x := (distrib_w.draw (rand 0)).toNat
  let start_y := (distrib_h.draw (rand 1)).toNat
  let m1 ← m.modify start_y start_x Cell.markVisited
  pure { maze := m1, stack := [(start_x, start_y)], gen := 2 }

/-- Lines 89-91: the entry and the exit. -/
def openEntryExit (m : Maze) : Except Fault Maze := do
  let m1 ← m.modify 0 0 (fun c => c.setWall 3 false)
  m1.modify (m.height_ - 1) (m.width_ - 1) (fun c => c.setWall 1 false)

/-- The method `Maze::generate()` on the grid `m` with the random stream `rand`. -/
def generate (m : Maze) (rand : Nat → Nat) : Except Fault Maze := do
  let s0 ← genInit m rand
  let s ← loop rand (2 * m.width_ * m.height_) s0
  openEntryExit s.maze

/-! ## `Maze::saveToPgm` -/

/-- One store `pixel_data[row * image_width + col] = 0` of the wall drawing. -/
structure PixelWrite where
  row : Int
  col : Int
  deriving DecidableEq, Repr

/-- The constant `shrink_pixels` (line 107). -/
def shrink_pixels : Int := 50

/-- The constant `x_offset = shrink_pixels / 2` (line 108). -/
def x_offset : Int := Int.tdiv shrink_pixels 2

/-- The constant `y_offset = shrink_pixels / 2` (line 109). -/
def y_offset : Int := Int.tdiv shrink_pixels 2

/-- Line 115: `cell_width_px = (image_width - shrink_pixels) / width_`, the `int`
division of C++ (truncation towards zero). -/
def cell_width_px (m : Maze) (image_width : Int) : Int :=
  Int.tdiv (image_width - shrink_pixels) (m.width_ : Int)

/-- Line 116: `cell_height_px = (image_height - shrink_pixels) / height_`. -/
def cell_height_px (m : Maze) (image_height : Int) : Int :=
  Int.tdiv (image_height - shrink_pixels) (m.height_ : Int)

/-- Line 118: `wall_thickness = std::max(1, std::min(cell_width_px, cell_height_px) / 5)`. -/
def wall_thickness (m : Maze) (image_width image_height : Int) : Int :=
  max 1 (Int.tdiv (min (cell_width_px m image_width) (cell_height_px m image_height)) 5)

/-- A pair of nested loops `for (i = 0; i < len; ++i) for (t = 0; t < th; ++t)`
whose body stores at `(row i t, col i t)` when
`row i t < image_height && col i t < image_width`: the stores in program order. -/
def barWrites (len th image_width image_height : Int) (row col : Int → Int → Int) :
    List PixelWrite :=
  (List.range len.toNat).flatMap fun i =>
    (List.range th.toNat).flatMap fun t =>
      if row i t < image_height ∧ col i t < image_width then
        [{ row := row i t, col := col i t }]
      else []

/-- Lines 123-157: the stores made for cell `(x, y)`, wall by wall. -/
def cellWrites (m : Maze) (image_width image_height : Int) (x y : Nat) : List PixelWrite :=
  let cw := cell_width_px m image_width
  let ch := cell_height_px m image_height
  let th := wall_thickness m image_width image_height
  let start_x : Int := x * cw + x_offset
  let start_y : Int := y * ch + y_offset
  (if (m.maze_ y x).walls 0 then
      barWrites cw th image_width image_height (fun _ t => start_y + t) (fun i _ => start_x + i)
    else [])
  ++ (if (m.maze_ y x).walls 1 then
      barWrites ch th image_width image_height (fun i _ => start_y + i)
        (fun _ t => start_x + cw - t - 1)
    else [])
  ++ (if (m.maze_ y x).walls 2 then
      barWrites cw th image_width image_height (fun _ t => start_y + ch - t - 1)
        (fun i _ => start_x + i)
    else [])
  ++ (if (m.maze_ y x).walls 3 then
      barWrites ch th image_width image_height (fun i _ => start_y + i) (fun _ t => start_x + t)
    else [])

/-- Lines 120-159: all stores of the drawing loops, in program order. -/
def wallWrites (m : Maze) (image_width image_height : Int) : List PixelWrite :=
  (List.range m.height_).flatMap fun y =>
    (List.range m.width_).flatMap fun x => cellWrites m image_width image_height x y

/-- The store `pixel_data[row * image_width + col] = 0` on the buffer. -/
def storePixel (image_width : Int) (pixel_data : List Nat) (w : PixelWrite) :
    Except Fault (List Nat) :=
  let i := w.row * image_width + w.col
  if 0 ≤ i ∧ i < pixel_data.length then .ok (pixel_data.set i.toNat 0) else .error .pixelIndex

/-- The largest value of the 32-bit type `int`. -/
def INT_MAX : Int := 2147483647

/-- The smallest value of the 32-bit type `int`. -/
def INT_MIN : Int := -2147483648

/-- The value `v` is representable in `int`. -/
def inIntRange (v : Int) : Prop := INT_MIN ≤ v ∧ v ≤ INT_MAX

instance (v : Int) : Decidable (inIntRange v) := by
  unfold inIntRange; infer_instance

/-- Lines 105-159: the buffer `pixel_data` when the drawing loops have ended.
The parameters are `int`s, and the element count `image_width * image_height`
of line 105 and the differences of lines 111-112 are computed in `int`: a value
outside the range of `int` is a signed overflow, which is undefined behaviour. -/
def renderPixels (m : Maze) (image_width image_height : Int) : Except Fault (List Nat) :=
  if ¬ (inIntRange image_width ∧ inIntRange image_height ∧
      inIntRange (image_width * image_height)) then .error .intOverflow
  else if image_width * image_height < 0 then .error .badLength
  else if ¬ (inIntRange (image_width - shrink_pixels) ∧
      inIntRange (image_height - shrink_pixels)) then .error .intOverflow
  else if m.width_ = 0 ∨ m.height_ = 0 then .error .divisionByZero
  else
    (wallWrites m image_width image_height).foldlM (storePixel image_width)
      (List.replicate (image_width * image_height).toNat 255)

/-- Line 102: the bytes of `"P5\n" << image_width << " " << image_height << "\n255\n"`. -/
def pgmHeader (image_width image_height : Int) : List Nat :=
  ("P5\n" ++ toString image_width ++ " " ++ toString image_height ++ "\n255\n").toList.map
    Char.toNat

/-- The method `Maze::saveToPgm(filename, image_width, image_height)`: the bytes
written to the file; `fileOpens` tells whether `outfile` could be opened. -/
def saveToPgm (m : Maze) (fileOpens : Bool) (image_width image_height : Int) :
    Except Fault (List Nat) :=
  if !fileOpens then .ok []
  else
    (renderPixels m image_width image_height).map
      (fun pixel_data => pgmHeader image_width image_height ++ pixel_data)

/-! ## Vocabulary of the specification -/

/-- Column of the cell reached from column `x` by one step in direction `d`
(0 = top, 1 = right, 2 = bottom, 3 = left). -/
def stepX (d x : Nat) : Nat :=
  match d with
  | 1 => x + 1
  | 3 => x - 1
  | _ => x

/-- Row of the cell reached from row `y` by one step in direction `d`. -/
def stepY (d y : Nat) : Nat :=
  match d with
  | 0 => y - 1
  | 2 => y + 1
  | _ => y

/-- The direction facing back: top/bottom and right/left are exchanged. -/
def opposite (d : Nat) : Nat := (d + 2) % 4

/-- The cell `(x, y)` has an in-bounds neighbour in direction `d`. -/
def Maze.hasNeighbor (m : Maze) (d x y : Nat) : Prop :=
  match d with
  | 0 => 0 < y
  | 1 => x + 1 < m.width_
  | 2 => y + 1 < m.height_
  | 3 => 0 < x
  | _ => False

instance (m : Maze) (d x y : Nat) : Decidable (m.hasNeighbor d x y) := by
  unfold Maze.hasNeighbor; split <;> infer_instance

/-- Cell `(x, y)` is inside the grid. -/
def Maze.inGrid (m : Maze) (p : Nat × Nat) : Prop := p.1 < m.width_ ∧ p.2 < m.height_

instance (m : Maze) (p : Nat × Nat) : Decidable (m.inGrid p) := by
  unfold Maze.inGrid; infer_instance

/-- An open interior passage from `p` to `q` (cells as `(x, y)`): both are in
bounds, `q` is the neighbour of `p` in some direction `d`, and the two facing
wall flags, `walls[d]` of `p` and `walls[opposite d]` of `q`, are `false`. -/
def Maze.passage (m : Maze) (p q : Nat × Nat) : Prop :=
  m.inGrid p ∧ m.inGrid q ∧ ∃ d, d < 4 ∧ m.hasNeighbor d p.1 p.2 ∧
    q = (stepX d p.1, stepY d p.2) ∧
    (m.maze_ p.2 p.1).walls d = false ∧ (m.maze_ q.2 q.1).walls (opposite d) = false

/-- Cell `q` can be reached from `p` by moving through open interior passages. -/
def Maze.reachable (m : Maze) (p q : Nat × Nat) : Prop :=
  Relation.ReflTransGen m.passage p q

/-- The open interior passages, each unordered pair of adjacent cells once: the
pair is named by its left cell with direction 1 or by its upper cell with direction 2. -/
def Maze.passages (m : Maze) : Finset ((Nat × Nat) × Nat) :=
  (((Finset.range m.width_ ×ˢ Finset.range m.height_) ×ˢ ({1, 2} : Finset Nat))).filter
    (fun e => m.hasNeighbor e.2 e.1.1 e.1.2 ∧
      (m.maze_ e.1.2 e.1.1).walls e.2 = false ∧
      (m.maze_ (stepY e.2 e.1.2) (stepX e.2 e.1.1)).walls (opposite e.2) = false)

/-- Number of open interior passages. -/
def Maze.passageCount (m : Maze) : Nat := m.passages.card

/-- The in-bounds cells not yet visited. -/
def Maze.unvisited (m : Maze) : Finset (Nat × Nat) :=
  (Finset.range m.width_ ×ˢ Finset.range m.height_).filter
    (fun p => (m.maze_ p.2 p.1).visited = false)

/-- A simple cycle of the passage graph: at least three pairwise distinct cells,
each joined to the next one, and the last one to the first, by an open passage. -/
def Maze.IsCycle (m : Maze) (c : List (Nat × Nat)) : Prop :=
  3 ≤ c.length ∧ c.Nodup ∧
    ∀ i, i < c.length → m.passage (c.getD i (0, 0)) (c.getD ((i + 1) % c.length) (0, 0))

/-- Number of open walls of cell `(x, y)`. -/
def Maze.openWalls (m : Maze) (x y : Nat) : Nat :=
  ((List.range 4).filter (fun d => (m.maze_ y x).walls d = false)).length

/-- Number of in-bounds neighbours of cell `(x, y)`. -/
def Maze.neighborCount (m : Maze) (x y : Nat) : Nat :=
  ((List.range 4).filter (fun d => decide (m.hasNeighbor d x y))).length

/-- Number of open walls of cell `(x, y)` that face outside the grid. -/
def Maze.openBoundaryWalls (m : Maze) (x y : Nat) : Nat :=
  ((List.range 4).filter
    (fun d => decide (¬ m.hasNeighbor d x y) && !(m.maze_ y x).walls d)).length

/-- The directions of the in-bounds unvisited neighbours, in the order of the four tests. -/
def unvisitedDirs (m : Maze) (x y : Nat) : List Nat :=
  (List.range 4).filter (fun d => decide (m.hasNeighbor d x y) &&
    !(m.maze_ (stepY d y) (stepX d x)).visited)

/-- The grid after carving from `(x, y)` in direction `d` and marking the neighbour visited. -/
def pushMaze (m : Maze) (d x y : Nat) : Maze :=
  (m.store y x ((m.maze_ y x).setWall d false)).store (stepY d y) (stepX d x)
    (((m.maze_ (stepY d y) (stepX d x)).setWall (opposite d) false).markVisited)

/-- Every non-empty set of cells has a cell with at most one passage neighbour
inside the set; a cycle would be a set without such a cell. -/
def Maze.NoCore (m : Maze) : Prop :=
  ∀ S : Finset (Nat × Nat), S.Nonempty →
    ∃ a ∈ S, ∀ b ∈ S, ∀ c ∈ S, m.passage a b → m.passage a c → b = c

/-- Wall invariants of the carving loop. -/
structure WallInv (m : Maze) : Prop where
  /-- walls facing outside the grid are closed -/
  border : ∀ x y d, x < m.width_ → y < m.height_ → d < 4 → ¬ m.hasNeighbor d x y →
    (m.maze_ y x).walls d = true
  /-- the two flags of a shared wall agree -/
  recip : ∀ x y d, x < m.width_ → y < m.height_ → d < 4 → m.hasNeighbor d x y →
    (m.maze_ y x).walls d = (m.maze_ (stepY d y) (stepX d x)).walls (opposite d)
  /-- an unvisited cell has all four walls closed -/
  fresh : ∀ x y d, x < m.width_ → y < m.height_ → d < 4 → (m.maze_ y x).visited = false →
    (m.maze_ y x).walls d = true

/-- The name of the passage carved from `(x, y)` in direction `d` in `Maze.passages`. -/
def carvedEdge (d x y : Nat) : (Nat × Nat) × Nat :=
  if d = 1 ∨ d = 2 then ((x, y), d) else ((stepX d x, stepY d y), opposite d)

/-- Invariant of the `while` loop of `generate`. -/
structure Inv (s : GenState) : Prop where
  walls : WallInv s.maze
  /-- the stack holds in-bounds visited cells -/
  stack_ok : ∀ p ∈ s.stack, s.maze.inGrid p ∧ (s.maze.maze_ p.2 p.1).visited = true
  /-- some cell is visited -/
  root : ∃ p, s.maze.inGrid p ∧ (s.maze.maze_ p.2 p.1).visited = true
  /-- the visited cells are connected by passages -/
  conn : ∀ p q, s.maze.inGrid p → s.maze.inGrid q → (s.maze.maze_ p.2 p.1).visited = true →
    (s.maze.maze_ q.2 q.1).visited = true → s.maze.reachable p q
  /-- one passage per visited cell other than the first -/
  count : s.maze.passageCount + s.maze.unvisited.card + 1 = s.maze.width_ * s.maze.height_
  /-- no set of cells could carry a cycle -/
  nocore : s.maze.NoCore
  /-- a visited cell that left the stack has no unvisited neighbour -/
  done : ∀ x y, x < s.maze.width_ → y < s.maze.height_ → (s.maze.maze_ y x).visited = true →
    (x, y) ∉ s.stack → ∀ d, d < 4 → s.maze.hasNeighbor d x y →
      (s.maze.maze_ (stepY d y) (stepX d x)).visited = true

/-- Termination measure of the loop. -/
def measure (s : GenState) : Nat := 2 * s.maze.unvisited.card + s.stack.length

/-- The grid after the start cell `(sx, sy)` has been marked visited. -/
def startMaze (w h sx sy : Nat) : Maze :=
  (Maze.new w h).store sy sx ((Maze.new w h).maze_ sy sx).markVisited

/-- The assignment `maze_[y][x].walls[d] = false` on an existing cell. -/
def openWall (m : Maze) (y x d : Nat) : Maze :=
  m.store y x ((m.maze_ y x).setWall d false)

/-- The grid after lines 89-91: entry at the left of `maze_[0][0]`, exit at the
right of `maze_[height_ - 1][width_ - 1]`. -/
def entryExit (m : Maze) : Maze :=
  openWall (openWall m 0 0 3) (m.height_ - 1) (m.width_ - 1) 1

/-- The grid when the carving loop has ended: the passages form a spanning tree. -/
structure Carved (m : Maze) : Prop where
  walls : WallInv m
  visited : ∀ x y, x < m.width_ → y < m.height_ → (m.maze_ y x).visited = true
  conn : ∀ p q, m.inGrid p → m.inGrid q → m.reachable p q
  count : m.passageCount + 1 = m.width_ * m.height_
  nocore : m.NoCore

/-- Cell width of the drawing rule as the specification words it:
`cw = (image_width - 50) / w`. -/
def specCellWidth (m : Maze) (image_width : Int) : Int := (image_width - 50) / (m.width_ : Int)

/-- Cell height of the drawing rule as the specification words it:
`ch = (image_height - 50) / h`. -/
def specCellHeight (m : Maze) (image_height : Int) : Int :=
  (image_height - 50) / (m.height_ : Int)

/-- Wall thickness of the drawing rule as the specification words it:
`th = max(1, min(cw, ch) / 5)`. -/
def specThickness (m : Maze) (image_width image_height : Int) : Int :=
  max 1 (min (specCellWidth m image_width) (specCellHeight m image_height) / 5)

/-- The pixel `(px, py)` lies in the rectangle `[x0, x0 + wd) x [y0, y0 + ht)`. -/
def inRect (px py x0 y0 wd ht : Int) : Prop :=
  x0 ≤ px ∧ px < x0 + wd ∧ y0 ≤ py ∧ py < y0 + ht

/-- The drawing rule of the specification: `(px, py)` lies in the rectangle of a
closed wall of some cell `(x, y)`, where with `sx = x*cw + 25`, `sy = y*ch + 25`
the rectangles are top `[sx, sx+cw) x [sy, sy+th)`, right
`[sx+cw-th, sx+cw) x [sy, sy+ch)`, bottom `[sx, sx+cw) x [sy+ch-th, sy+ch)` and
left `[sx, sx+th) x [sy, sy+ch)`. -/
def Maze.inClosedWall (m : Maze) (image_width image_height px py : Int) : Prop :=
  ∃ x y : Nat, x < m.width_ ∧ y < m.height_ ∧
    (((m.maze_ y x).walls 0 = true ∧
        inRect px py (x * specCellWidth m image_width + 25)
          (y * specCellHeight m image_height + 25)
          (specCellWidth m image_width) (specThickness m image_width image_height)) ∨
      ((m.maze_ y x).walls 1 = true ∧
        inRect px py
          (x * specCellWidth m image_width + 25 + specCellWidth m image_width
            - specThickness m image_width image_height)
          (y * specCellHeight m image_height + 25)
          (specThickness m image_width image_height) (specCellHeight m image_height)) ∨
      ((m.maze_ y x).walls 2 = true ∧
        inRect px py (x * specCellWidth m image_width + 25)
          (y * specCellHeight m image_height + 25 + specCellHeight m image_height
            - specThickness m image_width image_height)
          (specCellWidth m image_width) (specThickness m image_width image_height)) ∨
      ((m.maze_ y x).walls 3 = true ∧
        inRect px py (x * specCellWidth m image_width + 25)
          (y * specCellHeight m image_height + 25)
          (specThickness m image_width image_height) (specCellHeight m image_height)))

/-! ## Instrumented runs of the loop of `generate` -/

/-- The state after `n` iterations of the `while` loop started in `s`; once the
stack is empty the loop has ended and the state stays. -/
def iterate (rand : Nat → Nat) : Nat → GenState → Except Fault GenState
  | 0, s => .ok s
  | n + 1, s =>
    match s.stack with
    | [] => .ok s
    | (x, y) :: rest => (iteration rand s x y rest).bind (iterate rand n)

/-- The loop of `generate` with a record of its iterations: the final state, the
cells pushed by line 82 in order (the new top of the stack after an iteration
that found a neighbour), and the number of `stack.pop()` calls of line 85. -/
def loopTrace (rand : Nat → Nat) : Nat → GenState → Except Fault (GenState × List (Nat × Nat) × Nat)
  | fuel, s =>
    match s.stack with
    | [] => .ok (s, [], 0)
    | (x, y) :: rest =>
      match fuel with
      | 0 => .error .outOfFuel
      | fuel + 1 =>
        (neighbors s.maze x y).bind fun nbs =>
          (iteration rand s x y rest).bind fun s1 =>
            (loopTrace rand fuel s1).map fun r =>
              if nbs ≠ [] then (r.1, s1.stack.take 1 ++ r.2.1, r.2.2)
              else (r.1, r.2.1, r.2.2 + 1)

/-- Wall reciprocity: the right flag of a cell equals the left flag of its right
neighbour, and the bottom flag of a cell equals the top flag of the cell below. -/
def Maze.reciprocal (m : Maze) : Prop :=
  (∀ x y, x + 1 < m.width_ → y < m.height_ →
    (m.maze_ y x).walls 1 = (m.maze_ y (x + 1)).walls 3) ∧
  (∀ x y, x < m.width_ → y + 1 < m.height_ →
    (m.maze_ y x).walls 2 = (m.maze_ (y + 1) x).walls 0)

/-- Stack invariant of the carving loop: the stack holds pairwise distinct cells
and consecutive entries are joined by an open passage. -/
structure StackInv (s : GenState) : Prop where
  nodup : s.stack.Nodup
  chain : List.Chain' s.maze.passage s.stack

/-! ## Geometry and bars of the rasterizer -/

/-- Line 111: `maze_render_width = image_width - shrink_pixels`. -/
def maze_render_width (image_width : Int) : Int := image_width - shrink_pixels

/-- Line 112: `maze_render_height = image_height - shrink_pixels`. -/
def maze_render_height (image_height : Int) : Int := image_height - shrink_pixels

/-- The cell size of lines 111-116 with the margin as a parameter in place of
the constant `shrink_pixels`: `(canvas - margin) / cells` in `int` division. -/
def cellSizeWith (margin canvas : Int) (cells : Nat) : Int :=
  Int.tdiv (canvas - margin) (cells : Int)

/-- The wall thickness of line 118 from the two cell sizes. -/
def thicknessWith (cw ch : Int) : Int := max 1 (Int.tdiv (min cw ch) 5)

/-- The stores of the two loops that draw wall `d` of cell `(x, y)`: the body
of the `if` at line 126 (top), 134 (right), 142 (bottom) or 150 (left). -/
def wallStores (m : Maze) (image_width image_height : Int) (x y d : Nat) : List PixelWrite :=
  match d with
  | 0 =>
    barWrites (cell_width_px m image_width) (wall_thickness m image_width image_height)
      image_width image_height
      (fun _ t => y * cell_height_px m image_height + y_offset + t)
      (fun i _ => x * cell_width_px m image_width + x_offset + i)
  | 1 =>
    barWrites (cell_height_px m image_height) (wall_thickness m image_width image_height)
      image_width image_height
      (fun i _ => y * cell_height_px m image_height + y_offset + i)
      (fun _ t => x * cell_width_px m image_width + x_offset + cell_width_px m image_width - t - 1)
  | 2 =>
    barWrites (cell_width_px m image_width) (wall_thickness m image_width image_height)
      image_width image_height
      (fun _ t =>
        y * cell_height_px m image_height + y_offset + cell_height_px m image_height - t - 1)
      (fun i _ => x * cell_width_px m image_width + x_offset + i)
  | _ =>
    barWrites (cell_height_px m image_height) (wall_thickness m image_width image_height)
      image_width image_height
      (fun i _ => y * cell_height_px m image_height + y_offset + i)
      (fun _ t => x * cell_width_px m image_width + x_offset + t)

/-- The band of wall `d` of cell `(x, y)` as the specification words it: the
rectangle of breadth `th` flush against that edge of the cell's pixel rectangle
(0 top, 1 right, 2 bottom, 3 left), spanning the full edge length. -/
def wallBand (m : Maze) (image_width image_height : Int) (x y d : Nat) (px py : Int) : Prop :=
  match d with
  | 0 =>
    inRect px py (x * specCellWidth m image_width + 25) (y * specCellHeight m image_height + 25)
      (specCellWidth m image_width) (specThickness m image_width image_height)
  | 1 =>
    inRect px py
      (x * specCellWidth m image_width + 25 + specCellWidth m image_width
        - specThickness m image_width image_height)
      (y * specCellHeight m image_height + 25)
      (specThickness m image_width image_height) (specCellHeight m image_height)
  | 2 =>
    inRect px py (x * specCellWidth m image_width + 25)
      (y * specCellHeight m image_height + 25 + specCellHeight m image_height
        - specThickness m image_width image_height)
      (specCellWidth m image_width) (specThickness m image_width image_height)
  | _ =>
    inRect px py (x * specCellWidth m image_width + 25) (y * specCellHeight m image_height + 25)
      (specThickness m image_width image_height) (specCellHeight m image_height)

/-! ## White regions of the rendered canvas -/

/-- The pixel `p = (px, py)` lies on the canvas and its sample in the buffer is 255. -/
def whiteAt (pixel_data : List Nat) (image_width image_height : Int) (p : Int × Int) : Prop :=
  0 ≤ p.1 ∧ p.1 < image_width ∧ 0 ≤ p.2 ∧ p.2 < image_height ∧
    pixel_data[(p.2 * image_width + p.1).toNat]? = some 255

/-- Two pixels are edge neighbours: they differ by one in one coordinate. -/
def pixelAdj (p q : Int × Int) : Prop :=
  (p.2 = q.2 ∧ (q.1 = p.1 + 1 ∨ p.1 = q.1 + 1)) ∨
    (p.1 = q.1 ∧ (q.2 = p.2 + 1 ∨ p.2 = q.2 + 1))

/-- The pixels `p` and `q` are joined by a path of edge neighbours, every pixel of
which satisfies `good`. -/
def pixelJoined (good : Int × Int → Prop) (p q : Int × Int) : Prop :=
  Relation.ReflTransGen (fun a b => pixelAdj a b ∧ good a ∧ good b) p q

/-- The maze rectangle `[25, 25 + w*cw) x [25, 25 + h*ch)`: the union of the
pixel rectangles of all cells; the rest of the canvas is margin. -/
def inMazeRect (m : Maze) (image_width image_height : Int) (p : Int × Int) : Prop :=
  inRect p.1 p.2 25 25 (m.width_ * specCellWidth m image_width)
    (m.height_ * specCellHeight m image_height)

/-- The pixel rectangle `[sx, sx+cw) x [sy, sy+ch)` of cell `(x, y)`. -/
def inCell (m : Maze) (image_width image_height : Int) (x y : Nat) (p : Int × Int) : Prop :=
  inRect p.1 p.2 (x * specCellWidth m image_width + 25) (y * specCellHeight m image_height + 25)
    (specCellWidth m image_width) (specCellHeight m image_height)

/-- The interior `[sx+th, sx+cw-th) x [sy+th, sy+ch-th)` of cell `(x, y)`. -/
def cellInterior (m : Maze) (image_width image_height : Int) (x y : Nat) (p : Int × Int) :
    Prop :=
  inRect p.1 p.2
    (x * specCellWidth m image_width + 25 + specThickness m image_width image_height)
    (y * specCellHeight m image_height + 25 + specThickness m image_width image_height)
    (specCellWidth m image_width - 2 * specThickness m image_width image_height)
    (specCellHeight m image_height - 2 * specThickness m image_width image_height)

/-- The white pixels of the maze rectangle: the white region without the margin. -/
def whiteInside (m : Maze) (pixel_data : List Nat) (image_width image_height : Int)
    (p : Int × Int) : Prop :=
  whiteAt pixel_data image_width image_height p ∧ inMazeRect m image_width image_height p

end MazeGen

namespace SolarFluxPlot

/-! ## Line rasterizer of `solar_flux_plot.cpp` -/

/-- The store `buffer[cY * width + cX] = color` of `DrawBrush` (line 29) for the
pixel `p = (cX, cY)`; an index outside the vector is undefined behaviour. -/
def storeColor (width : Int) (color : Nat) (buffer : List Nat) (p : Int × Int) :
    Except MazeGen.Fault (List Nat) :=
  let i := p.2 * width + p.1
  if 0 ≤ i ∧ i < buffer.length then .ok (buffer.set i.toNat color) else .error .pixelIndex

/-- The values of a loop variable `for (int d = -halfSize; d <= halfSize; ++d)`. -/
def brushOffsets (halfSize : Int) : List Int :=
  (List.range (2 * halfSize + 1).toNat).map fun k => -halfSize + (k : Int)

/-- Lines 24-32: the pixels `(cX, cY)` that the two loops of `DrawBrush` store
to, in program order (those that pass the clipping test of line 28). -/
def brushWrites (width height x y size : Int) : List (Int × Int) :=
  let halfSize := Int.tdiv size 2
  (brushOffsets halfSize).flatMap fun dy =>
    (brushOffsets halfSize).flatMap fun dx =>
      let cX := x + dx
      let cY := y + dy
      if 0 ≤ cX ∧ cX < width ∧ 0 ≤ cY ∧ cY < height then [(cX, cY)] else []

/-- The function `DrawBrush(buffer, width, height, x, y, size, color)` (lines 23-33). -/
def DrawBrush (buffer : List Nat) (width height x y size : Int) (color : Nat) :
    Except MazeGen.Fault (List Nat) :=
  (brushWrites width height x y size).foldlM (storeColor width color) buffer

/-- The variables of `DrawDottedLine` that change in its loop: the current point
`(x1, y1)`, `err`, `len`, and the buffer. -/
structure LineState where
  x1 : Int
  y1 : Int
  err : Int
  len : Int
  buffer : List Nat

/-- Lines 62-64: the brush is stamped at the current point if `gap == 0` or
`len % total < dash`, with `total = dash + gap`; `len % 0` is undefined behaviour. -/
def stamp (width height thickness : Int) (color : Nat) (dash gap : Int) (s : LineState) :
    Except MazeGen.Fault LineState :=
  if gap = 0 then
    (DrawBrush s.buffer width height s.x1 s.y1 thickness color).map fun b =>
      { s with buffer := b }
  else if dash + gap = 0 then .error .divisionByZero
  else if Int.tmod s.len (dash + gap) < dash then
    (DrawBrush s.buffer width height s.x1 s.y1 thickness color).map fun b =>
      { s with buffer := b }
  else .ok s

/-- Lines 68-77: one error step of the loop, `e2 = 2 * err`, then the two
conditional moves and `len++`. -/
def lineAdvance (dx dy sx sy : Int) (s : LineState) : LineState :=
  let e2 := 2 * s.err
  let s1 := if e2 ≥ dy then { s with err := s.err + dy, x1 := s.x1 + sx } else s
  let s2 := if e2 ≤ dx then { s1 with err := s1.err + dx, y1 := s1.y1 + sy } else s1
  { s2 with len := s2.len + 1 }

/-- The `while (true)` loop of lines 61-78 with fuel, returning the state at the
`break` and, as a record of the run, the points `(x1, y1)` at which the loop
body was entered, in order. -/
def lineLoop (x2 y2 dx dy sx sy width height thickness : Int) (color : Nat) (dash gap : Int) :
    Nat → LineState → Except MazeGen.Fault (LineState × List (Int × Int))
  | 0, _ => .error .outOfFuel
  | fuel + 1, s =>
    (stamp width height thickness color dash gap s).bind fun s1 =>
      if s1.x1 = x2 ∧ s1.y1 = y2 then .ok (s1, [(s1.x1, s1.y1)])
      else
        (lineLoop x2 y2 dx dy sx sy width height thickness color dash gap fuel
            (lineAdvance dx dy sx sy s1)).map fun r => (r.1, (s1.x1, s1.y1) :: r.2)

/-- The state at line 60: `dx = abs(x2 - x1)`, `sx`, `dy = -abs(y2 - y1)`, `sy`,
`err = dx + dy`, `len = 0`. -/
def lineInit (x1 y1 x2 y2 : Int) (buffer : List Nat) : LineState :=
  { x1 := x1, y1 := y1, err := |x2 - x1| + -|y2 - y1|, len := 0, buffer := buffer }

/-- The run of `DrawDottedLine(x1, y1, x2, y2, buffer, width, height, thickness,
color, dash, gap)` (lines 59-79) with its record of visited points; the fuel
`|x2 - x1| + |y2 - y1| + 1` bounds the number of times the body is entered. -/
def DrawDottedLineTrace (x1 y1 x2 y2 : Int) (buffer : List Nat) (width height thickness : Int)
    (color : Nat) (dash gap : Int) : Except MazeGen.Fault (LineState × List (Int × Int)) :=
  lineLoop x2 y2 |x2 - x1| (-|y2 - y1|) (if x1 < x2 then 1 else -1) (if y1 < y2 then 1 else -1)
    width height thickness color dash gap ((|x2 - x1| + |y2 - y1|).toNat + 1)
    (lineInit x1 y1 x2 y2 buffer)

/-- The function `DrawDottedLine`: the buffer when the loop has ended. -/
def DrawDottedLine (x1 y1 x2 y2 : Int) (buffer : List Nat) (width height thickness : Int)
    (color : Nat) (dash gap : Int) : Except MazeGen.Fault (List Nat) :=
  (DrawDottedLineTrace x1 y1 x2 y2 buffer width height thickness color dash gap).map
    fun r => r.1.buffer

/-- The function `DrawLine` (lines 81-83): `DrawDottedLine` with `dash = 1`, `gap = 0`. -/
def DrawLine (x1 y1 x2 y2 : Int) (buffer : List Nat) (width height thickness : Int)
    (color : Nat) : Except MazeGen.Fault (List Nat) :=
  DrawDottedLine x1 y1 x2 y2 buffer width height thickness color 1 0

end SolarFluxPlot

namespace MazeGen

/-! ## Basic lemmas on cells, grid accesses and one loop iteration -/

theorem Cell.walls_setWall (c : Cell) (i j : Nat) (b : Bool) (hi : i < 4) (hj : j < 4) :
    (c.setWall i b).walls j = if j = i then b else c.walls j := by
  interval_cases i <;> interval_cases j <;> rfl

@[simp] theorem Cell.visited_setWall (c : Cell) (i : Nat) (b : Bool) :
    (c.setWall i b).visited = c.visited := by
  unfold Cell.setWall; split <;> rfl

@[simp] theorem Cell.walls_markVisited (c : Cell) (j : Nat) :
    c.markVisited.walls j = c.walls j := by
  unfold Cell.markVisited Cell.walls; split <;> rfl

@[simp] theorem Cell.visited_markVisited (c : Cell) : c.markVisited.visited = true := rfl

@[simp] theorem Maze.store_width (m : Maze) (y x : Nat) (c : Cell) :
    (m.store y x c).width_ = m.width_ := rfl

@[simp] theorem Maze.store_height (m : Maze) (y x : Nat) (c : Cell) :
    (m.store y x c).height_ = m.height_ := rfl

theorem Maze.store_maze (m : Maze) (y x : Nat) (c : Cell) (y1 x1 : Nat) :
    (m.store y x c).maze_ y1 x1 = if y1 = y ∧ x1 = x then c else m.maze_ y1 x1 := rfl

theorem Maze.modify_ok (m : Maze) (y x : Nat) (f : Cell → Cell) (hy : y < m.height_)
    (hx : x < m.width_) : m.modify y x f = .ok (m.store y x (f (m.maze_ y x))) := by
  simp [Maze.modify, hy, hx]

theorem Maze.read_ok (m : Maze) (y x : Nat) (hy : y < m.height_) (hx : x < m.width_) :
    m.read y x = .ok (m.maze_ y x) := by
  simp [Maze.read, hy, hx]

theorem opposite_lt (d : Nat) : opposite d < 4 := by
  unfold opposite; omega

theorem opposite_opposite (d : Nat) (hd : d < 4) : opposite (opposite d) = d := by
  unfold opposite; omega

theorem probe_eq (m : Maze) (cond : Bool) (y x dir : Nat) (acc : List Nat)
    (h : cond = true → y < m.height_ ∧ x < m.width_) :
    probe m cond y x dir acc
      = .ok (acc ++ (if (cond && !(m.maze_ y x).visited) = true then [dir] else [])) := by
  unfold probe
  cases cond with
  | false => simp
  | true =>
    have := h rfl
    simp only [Maze.read, this, and_self, if_true, Except.map]
    cases (m.maze_ y x).visited <;> simp

theorem filter_range4 (p : Nat → Bool) :
    (List.range 4).filter p
      = ((([] ++ (if p 0 = true then [0] else [])) ++ (if p 1 = true then [1] else []))
          ++ (if p 2 = true then [2] else [])) ++ (if p 3 = true then [3] else []) := by
  have e4 : List.range 4 = [0, 1, 2, 3] := rfl
  rw [e4]
  cases h0 : p 0 <;> cases h1 : p 1 <;> cases h2 : p 2 <;> cases h3 : p 3 <;>
    simp [List.filter, h0, h1, h2, h3]

theorem neighbors_eq (m : Maze) (x y : Nat) (hx : x < m.width_) (hy : y < m.height_) :
    neighbors m x y = .ok (unvisitedDirs m x y) := by
  unfold neighbors
  rw [probe_eq m _ _ _ _ _ (by simp; omega)]
  simp only [bind, Except.bind]
  rw [probe_eq m _ _ _ _ _ (by simp; omega)]
  simp only [bind, Except.bind]
  rw [probe_eq m _ _ _ _ _ (by simp; omega)]
  simp only [bind, Except.bind]
  rw [probe_eq m _ _ _ _ _ (by simp; omega)]
  rw [unvisitedDirs, filter_range4]
  have a1 : (x < m.width_ - 1) ↔ (x + 1 < m.width_) := by omega
  have a2 : (y < m.height_ - 1) ↔ (y + 1 < m.height_) := by omega
  simp [Maze.hasNeighbor, stepX, stepY, a1, a2]

theorem mem_unvisitedDirs (m : Maze) (x y d : Nat) :
    d ∈ unvisitedDirs m x y ↔
      d < 4 ∧ m.hasNeighbor d x y ∧ (m.maze_ (stepY d y) (stepX d x)).visited = false := by
  simp [unvisitedDirs]

theorem draw_lt (n raw : Nat) (hn : 0 < n) :
    ∃ k, k < n ∧ uniform_int_distribution 0 ((n : Int) - 1) = .ok ⟨0, (n : Int) - 1⟩ ∧
      ((⟨0, (n : Int) - 1⟩ : Distrib).draw raw).toNat = k := by
  refine ⟨raw % n, Nat.mod_lt _ hn, ?_, ?_⟩
  · unfold uniform_int_distribution
    rw [if_pos (by omega)]
  · simp only [Distrib.draw]
    have : ((n : Int) - 1 - 0 + 1) = (n : Int) := by ring
    rw [this, zero_add, ← Int.natCast_mod, Int.toNat_natCast]

theorem carve_mark (m : Maze) (d x y : Nat) (hx : x < m.width_) (hy : y < m.height_)
    (hd : d < 4) (hn : m.hasNeighbor d x y) :
    (carve m x y d).bind (fun r => (r.1.modify r.2.2 r.2.1 Cell.markVisited).map
        (fun m3 => (m3, r.2.1, r.2.2)))
      = .ok (pushMaze m d x y, stepX d x, stepY d y) := by
  interval_cases d <;> simp only [Maze.hasNeighbor] at hn
  · have hy0 : ¬ y = 0 := by omega
    simp only [carve, decr, hy0, Maze.modify, hx, hy, bind, Except.bind, pure, Except.pure,
      show y - 1 < m.height_ by omega, Except.map, pushMaze, stepX, stepY, opposite,
      Maze.store, if_false, and_self, if_true, Except.ok.injEq, Prod.mk.injEq, and_true]
    congr 1
    funext y1 x1
    split_ifs <;> first | rfl | omega
  · simp only [carve, decr, Maze.modify, hx, hy, hn, bind, Except.bind, pure, Except.pure,
      Except.map, pushMaze, stepX, stepY, opposite,
      Maze.store, if_false, and_self, if_true, Except.ok.injEq, Prod.mk.injEq, and_true]
    congr 1
    funext y1 x1
    split_ifs <;> first | rfl | omega
  · simp only [carve, decr, Maze.modify, hx, hy, hn, bind, Except.bind, pure, Except.pure,
      Except.map, pushMaze, stepX, stepY, opposite,
      Maze.store, if_false, and_self, if_true, Except.ok.injEq, Prod.mk.injEq, and_true]
    congr 1
    funext y1 x1
    split_ifs <;> first | rfl | omega
  · have hx0 : ¬ x = 0 := by omega
    simp only [carve, decr, hx0, Maze.modify, hx, hy, bind, Except.bind, pure, Except.pure,
      show x - 1 < m.width_ by omega, Except.map, pushMaze, stepX, stepY, opposite,
      Maze.store, if_false, and_self, if_true, Except.ok.injEq, Prod.mk.injEq, and_true]
    congr 1
    funext y1 x1
    split_ifs <;> first | rfl | omega

theorem iteration_pop (rand : Nat → Nat) (s : GenState) (x y : Nat) (rest : List (Nat × Nat))
    (hx : x < s.maze.width_) (hy : y < s.maze.height_) (hnil : unvisitedDirs s.maze x y = []) :
    iteration rand s x y rest = .ok { maze := s.maze, stack := rest, gen := s.gen } := by
  unfold iteration
  rw [neighbors_eq _ _ _ hx hy]
  simp [bind, Except.bind, hnil, pure, Except.pure]

theorem iteration_push (rand : Nat → Nat) (s : GenState) (x y : Nat) (rest : List (Nat × Nat))
    (hx : x < s.maze.width_) (hy : y < s.maze.height_) (hne : unvisitedDirs s.maze x y ≠ []) :
    ∃ d, d ∈ unvisitedDirs s.maze x y ∧ iteration rand s x y rest
      = .ok { maze := pushMaze s.maze d x y,
              stack := (stepX d x, stepY d y) :: (x, y) :: rest, gen := s.gen + 1 } := by
  have hlen : 0 < (unvisitedDirs s.maze x y).length := List.length_pos.mpr hne
  obtain ⟨k, hk, hdist, hdraw⟩ := draw_lt _ (rand s.gen) hlen
  refine ⟨(unvisitedDirs s.maze x y)[k], List.getElem_mem _, ?_⟩
  have hmem := (mem_unvisitedDirs s.maze x y _).1 (List.getElem_mem hk)
  have hcm := carve_mark s.maze _ x y hx hy hmem.1 hmem.2.1
  unfold iteration
  rw [neighbors_eq _ _ _ hx hy]
  simp only [bind, Except.bind, if_pos hne, hdist, hdraw, List.getElem?_eq_getElem hk]
  revert hcm
  cases carve s.maze x y (unvisitedDirs s.maze x y)[k] with
  | error e => simp [Except.bind]
  | ok r =>
    obtain ⟨m2, nx, ny⟩ := r
    simp only [Except.bind]
    cases m2.modify ny nx Cell.markVisited with
    | error e => simp [Except.map]
    | ok m3 =>
      simp only [Except.map, Except.ok.injEq, Prod.mk.injEq, pure, Except.pure]
      rintro ⟨rfl, rfl, rfl⟩
      rfl

@[simp] theorem pushMaze_width (m : Maze) (d x y : Nat) : (pushMaze m d x y).width_ = m.width_ := rfl
@[simp] theorem pushMaze_height (m : Maze) (d x y : Nat) : (pushMaze m d x y).height_ = m.height_ := rfl

theorem Maze.hasNeighbor_congr (m m2 : Maze) (hw : m2.width_ = m.width_)
    (hh : m2.height_ = m.height_) (d x y : Nat) :
    m2.hasNeighbor d x y ↔ m.hasNeighbor d x y := by
  unfold Maze.hasNeighbor; rw [hw, hh]

/-- Arithmetic of one step towards an in-bounds neighbour. -/
theorem step_facts (m : Maze) (d x y : Nat) (hd : d < 4) (hx : x < m.width_)
    (hy : y < m.height_) (hn : m.hasNeighbor d x y) :
    stepX d x < m.width_ ∧ stepY d y < m.height_ ∧ ¬ (stepY d y = y ∧ stepX d x = x) ∧
      m.hasNeighbor (opposite d) (stepX d x) (stepY d y) ∧
      stepX (opposite d) (stepX d x) = x ∧ stepY (opposite d) (stepY d y) = y := by
  interval_cases d <;> simp [Maze.hasNeighbor, opposite, stepX, stepY] at hn ⊢ <;> omega

theorem pushMaze_hasNeighbor (m : Maze) (d x y e x1 y1 : Nat) :
    (pushMaze m d x y).hasNeighbor e x1 y1 ↔ m.hasNeighbor e x1 y1 := Iff.rfl

theorem pushMaze_visited (m : Maze) (d x y y1 x1 : Nat) :
    ((pushMaze m d x y).maze_ y1 x1).visited
      = if y1 = stepY d y ∧ x1 = stepX d x then true else (m.maze_ y1 x1).visited := by
  simp only [pushMaze, Maze.store]
  by_cases h1 : y1 = stepY d y ∧ x1 = stepX d x
  · rw [if_pos h1, if_pos h1]; rfl
  · rw [if_neg h1, if_neg h1]
    by_cases h2 : y1 = y ∧ x1 = x
    · rw [if_pos h2, Cell.visited_setWall, h2.1, h2.2]
    · rw [if_neg h2]

theorem pushMaze_walls (m : Maze) (d x y y1 x1 e : Nat) (hd : d < 4) (he : e < 4)
    (hne : ¬ (stepY d y = y ∧ stepX d x = x)) :
    ((pushMaze m d x y).maze_ y1 x1).walls e
      = if (y1 = stepY d y ∧ x1 = stepX d x ∧ e = opposite d) ∨ (y1 = y ∧ x1 = x ∧ e = d)
        then false else (m.maze_ y1 x1).walls e := by
  simp only [pushMaze, Maze.store]
  by_cases h1 : y1 = stepY d y ∧ x1 = stepX d x
  · have h2 : ¬ (y1 = y ∧ x1 = x) := by
      rintro ⟨rfl, rfl⟩; exact hne ⟨h1.1.symm, h1.2.symm⟩
    rw [if_pos h1, Cell.walls_markVisited, Cell.walls_setWall _ _ _ _ (opposite_lt d) he]
    by_cases h3 : e = opposite d
    · rw [if_pos h3, if_pos (Or.inl ⟨h1.1, h1.2, h3⟩)]
    · rw [if_neg h3, if_neg (by tauto), h1.1, h1.2]
  · rw [if_neg h1]
    by_cases h2 : y1 = y ∧ x1 = x
    · rw [if_pos h2, Cell.walls_setWall _ _ _ _ hd he]
      by_cases h3 : e = d
      · rw [if_pos h3, if_pos (Or.inr ⟨h2.1, h2.2, h3⟩)]
      · rw [if_neg h3, if_neg (by tauto), h2.1, h2.2]
    · rw [if_neg h2, if_neg (by tauto)]

theorem step_inj (m : Maze) (d x y x1 y1 : Nat) (hd : d < 4)
    (hn : m.hasNeighbor d x y) (hn1 : m.hasNeighbor d x1 y1) :
    (stepY d y1 = stepY d y ∧ stepX d x1 = stepX d x) ↔ (y1 = y ∧ x1 = x) := by
  interval_cases d <;> simp only [Maze.hasNeighbor, stepX, stepY] at hn hn1 ⊢ <;> omega

theorem opposite_inj (d e : Nat) (hd : d < 4) (he : e < 4) : opposite e = opposite d ↔ e = d := by
  unfold opposite; omega

theorem wallInv_push (m : Maze) (d x y : Nat) (hw : WallInv m) (hx : x < m.width_)
    (hy : y < m.height_) (hv : (m.maze_ y x).visited = true) (hd : d ∈ unvisitedDirs m x y) :
    WallInv (pushMaze m d x y) := by
  obtain ⟨hd4, hn, hq⟩ := (mem_unvisitedDirs m x y d).1 hd
  obtain ⟨hqx, hqy, hne, hnq, hbx, hby⟩ := step_facts m d x y hd4 hx hy hn
  refine ⟨?_, ?_, ?_⟩
  · intro x1 y1 e hx1 hy1 he hno
    rw [pushMaze_walls m d x y y1 x1 e hd4 he hne]
    rw [pushMaze_hasNeighbor] at hno
    rw [if_neg]
    · exact hw.border x1 y1 e hx1 hy1 he hno
    · rintro (⟨rfl, rfl, rfl⟩ | ⟨rfl, rfl, rfl⟩)
      · exact hno hnq
      · exact hno hn
  · intro x1 y1 e hx1 hy1 he hne1
    rw [pushMaze_hasNeighbor] at hne1
    rw [pushMaze_walls m d x y y1 x1 e hd4 he hne,
      pushMaze_walls m d x y _ _ _ hd4 (opposite_lt e) hne]
    obtain ⟨hqx1, hqy1, hne1b, hnq1, hbx1, hby1⟩ := step_facts m e x1 y1 he hx1 hy1 hne1
    have c1 : (y1 = stepY d y ∧ x1 = stepX d x ∧ e = opposite d) ↔
        (stepY e y1 = y ∧ stepX e x1 = x ∧ opposite e = d) := by
      constructor
      · rintro ⟨rfl, rfl, rfl⟩
        exact ⟨hby, hbx, opposite_opposite d hd4⟩
      · rintro ⟨rfl, rfl, rfl⟩
        exact ⟨hby1.symm, hbx1.symm, (opposite_opposite e he).symm⟩
    have c2 : (y1 = y ∧ x1 = x ∧ e = d) ↔
        (stepY e y1 = stepY d y ∧ stepX e x1 = stepX d x ∧ opposite e = opposite d) := by
      constructor
      · rintro ⟨rfl, rfl, rfl⟩
        exact ⟨rfl, rfl, rfl⟩
      · rintro ⟨h1, h2, h3⟩
        have := (opposite_inj d e hd4 he).1 h3
        subst this
        have := (step_inj m e x y x1 y1 he hn hne1).1 ⟨h1, h2⟩
        exact ⟨this.1, this.2, rfl⟩
    by_cases k1 : (y1 = stepY d y ∧ x1 = stepX d x ∧ e = opposite d)
    · rw [if_pos (Or.inl k1), if_pos (Or.inr (c1.1 k1))]
    · by_cases k2 : (y1 = y ∧ x1 = x ∧ e = d)
      · rw [if_pos (Or.inr k2), if_pos (Or.inl (c2.1 k2))]
      · have n1 : ¬ ((y1 = stepY d y ∧ x1 = stepX d x ∧ e = opposite d) ∨
            (y1 = y ∧ x1 = x ∧ e = d)) := fun h => h.elim k1 k2
        have n2 : ¬ ((stepY e y1 = stepY d y ∧ stepX e x1 = stepX d x ∧
            opposite e = opposite d) ∨
            (stepY e y1 = y ∧ stepX e x1 = x ∧ opposite e = d)) :=
          fun h => h.elim (fun h => k2 (c2.2 h)) (fun h => k1 (c1.2 h))
        rw [if_neg n1, if_neg n2]
        exact hw.recip x1 y1 e hx1 hy1 he hne1
  · intro x1 y1 e hx1 hy1 he hv1
    rw [pushMaze_visited] at hv1
    split_ifs at hv1 with k
    rw [pushMaze_walls m d x y y1 x1 e hd4 he hne, if_neg]
    · exact hw.fresh x1 y1 e hx1 hy1 he hv1
    · rintro (⟨rfl, rfl, rfl⟩ | ⟨rfl, rfl, rfl⟩)
      · exact k ⟨rfl, rfl⟩
      · rw [hv] at hv1; exact Bool.noConfusion hv1

theorem mem_passages_iff (m : Maze) (hw : WallInv m) (x1 y1 e : Nat) :
    ((x1, y1), e) ∈ m.passages ↔
      (x1 < m.width_ ∧ y1 < m.height_) ∧ (e = 1 ∨ e = 2) ∧ m.hasNeighbor e x1 y1 ∧
        (m.maze_ y1 x1).walls e = false := by
  simp only [Maze.passages, Finset.mem_filter, Finset.mem_product, Finset.mem_range,
    Finset.mem_insert, Finset.mem_singleton]
  constructor
  · rintro ⟨⟨hr, he⟩, hn, h1, -⟩
    exact ⟨hr, he, hn, h1⟩
  · rintro ⟨hr, he, hn, h1⟩
    have he4 : e < 4 := by omega
    refine ⟨⟨hr, he⟩, hn, h1, ?_⟩
    rw [← hw.recip x1 y1 e hr.1 hr.2 he4 hn]
    exact h1

theorem passages_push (m : Maze) (d x y : Nat) (hw : WallInv m) (hx : x < m.width_)
    (hy : y < m.height_) (hv : (m.maze_ y x).visited = true) (hd : d ∈ unvisitedDirs m x y) :
    carvedEdge d x y ∉ m.passages ∧
      (pushMaze m d x y).passages = insert (carvedEdge d x y) m.passages := by
  have hw2 := wallInv_push m d x y hw hx hy hv hd
  obtain ⟨hd4, hn, hq⟩ := (mem_unvisitedDirs m x y d).1 hd
  obtain ⟨hqx, hqy, hne, hnq, hbx, hby⟩ := step_facts m d x y hd4 hx hy hn
  have hclosed : (m.maze_ y x).walls d = true := by
    rw [hw.recip x y d hx hy hd4 hn]
    exact hw.fresh _ _ _ hqx hqy (opposite_lt d) hq
  have hclosed2 : (m.maze_ (stepY d y) (stepX d x)).walls (opposite d) = true :=
    hw.fresh _ _ _ hqx hqy (opposite_lt d) hq
  have hopp : (d = 1 ∨ d = 2) ∨ (opposite d = 1 ∨ opposite d = 2) := by
    unfold opposite; omega
  have hopp2 : ¬ ((d = 1 ∨ d = 2) ∧ (opposite d = 1 ∨ opposite d = 2)) := by
    unfold opposite; omega
  constructor
  · unfold carvedEdge
    split_ifs with h
    · rw [mem_passages_iff m hw]
      rintro ⟨-, -, -, h1⟩
      rw [hclosed] at h1; exact Bool.noConfusion h1
    · rw [mem_passages_iff m hw]
      rintro ⟨-, -, -, h1⟩
      rw [hclosed2] at h1; exact Bool.noConfusion h1
  · ext ⟨⟨x1, y1⟩, e⟩
    rw [Finset.mem_insert, mem_passages_iff _ hw2, mem_passages_iff m hw]
    simp only [pushMaze_width, pushMaze_height, pushMaze_hasNeighbor]
    constructor
    · rintro ⟨hr, he, hn1, h1⟩
      have he4 : e < 4 := by omega
      rw [pushMaze_walls m d x y y1 x1 e hd4 he4 hne] at h1
      split_ifs at h1 with k
      · left
        unfold carvedEdge
        rcases k with ⟨rfl, rfl, rfl⟩ | ⟨rfl, rfl, rfl⟩
        · rw [if_neg (fun h => hopp2 ⟨h, he⟩)]
        · rw [if_pos he]
      · exact Or.inr ⟨hr, he, hn1, h1⟩
    · rintro (h | ⟨hr, he, hn1, h1⟩)
      · unfold carvedEdge at h
        split_ifs at h with k
        · simp only [Prod.mk.injEq] at h
          obtain ⟨⟨rfl, rfl⟩, rfl⟩ := h
          refine ⟨⟨hx, hy⟩, k, hn, ?_⟩
          rw [pushMaze_walls m e x1 y1 y1 x1 e hd4 hd4 hne, if_pos (Or.inr ⟨rfl, rfl, rfl⟩)]
        · simp only [Prod.mk.injEq] at h
          obtain ⟨⟨rfl, rfl⟩, rfl⟩ := h
          refine ⟨⟨hqx, hqy⟩, hopp.resolve_left k, hnq, ?_⟩
          rw [pushMaze_walls m d x y _ _ _ hd4 (opposite_lt d) hne,
            if_pos (Or.inl ⟨rfl, rfl, rfl⟩)]
      · have he4 : e < 4 := by omega
        refine ⟨hr, he, hn1, ?_⟩
        rw [pushMaze_walls m d x y y1 x1 e hd4 he4 hne]
        split_ifs
        · rfl
        · exact h1

theorem passageCount_push (m : Maze) (d x y : Nat) (hw : WallInv m) (hx : x < m.width_)
    (hy : y < m.height_) (hv : (m.maze_ y x).visited = true) (hd : d ∈ unvisitedDirs m x y) :
    (pushMaze m d x y).passageCount = m.passageCount + 1 := by
  obtain ⟨h1, h2⟩ := passages_push m d x y hw hx hy hv hd
  unfold Maze.passageCount
  rw [h2, Finset.card_insert_of_not_mem h1]

theorem unvisited_push (m : Maze) (d x y : Nat) (hx : x < m.width_)
    (hy : y < m.height_) (hd : d ∈ unvisitedDirs m x y) :
    (pushMaze m d x y).unvisited.card + 1 = m.unvisited.card := by
  obtain ⟨hd4, hn, hq⟩ := (mem_unvisitedDirs m x y d).1 hd
  obtain ⟨hqx, hqy, hne, hnq, hbx, hby⟩ := step_facts m d x y hd4 hx hy hn
  have hmem : (stepX d x, stepY d y) ∈ m.unvisited := by
    simp only [Maze.unvisited, Finset.mem_filter, Finset.mem_product, Finset.mem_range]
    exact ⟨⟨hqx, hqy⟩, hq⟩
  have heq : (pushMaze m d x y).unvisited = m.unvisited.erase (stepX d x, stepY d y) := by
    ext ⟨x1, y1⟩
    simp only [Maze.unvisited, Finset.mem_filter, Finset.mem_product, Finset.mem_range,
      Finset.mem_erase, pushMaze_width, pushMaze_height, pushMaze_visited, Prod.mk.injEq, ne_eq]
    constructor
    · rintro ⟨hr, h1⟩
      split_ifs at h1 with k
      exact ⟨fun h => k ⟨h.2, h.1⟩, hr, h1⟩
    · rintro ⟨k, hr, h1⟩
      refine ⟨hr, ?_⟩
      rw [if_neg (fun h => k ⟨h.2, h.1⟩)]
      exact h1
  rw [heq, Finset.card_erase_of_mem hmem]
  have : 0 < m.unvisited.card := Finset.card_pos.mpr ⟨_, hmem⟩
  omega

theorem Maze.passage_symm (m : Maze) (p q : Nat × Nat) (h : m.passage p q) : m.passage q p := by
  obtain ⟨hp, hq, d, hd, hn, rfl, h1, h2⟩ := h
  obtain ⟨hqx, hqy, hne, hnq, hbx, hby⟩ := step_facts m d p.1 p.2 hd hp.1 hp.2 hn
  refine ⟨hq, hp, opposite d, opposite_lt d, hnq, ?_, h2, ?_⟩
  · simp only [hbx, hby]
  · rw [opposite_opposite d hd]; exact h1

theorem Maze.reachable_symm (m : Maze) (p q : Nat × Nat) (h : m.reachable p q) :
    m.reachable q p := by
  unfold Maze.reachable at h ⊢
  induction h with
  | refl => exact Relation.ReflTransGen.refl
  | tail _ hbc ih => exact Relation.ReflTransGen.head (m.passage_symm _ _ hbc) ih

/-- Passages survive when walls are only opened. -/
theorem Maze.passage_mono (m m2 : Maze) (hw : m2.width_ = m.width_) (hh : m2.height_ = m.height_)
    (hle : ∀ x y d, d < 4 → (m.maze_ y x).walls d = false → (m2.maze_ y x).walls d = false)
    (p q : Nat × Nat) (h : m.passage p q) : m2.passage p q := by
  obtain ⟨hp, hq, d, hd, hn, rfl, h1, h2⟩ := h
  refine ⟨?_, ?_, d, hd, ?_, rfl, hle _ _ _ hd h1, hle _ _ _ (opposite_lt d) h2⟩
  · unfold Maze.inGrid at hp ⊢; rw [hw, hh]; exact hp
  · unfold Maze.inGrid at hq ⊢; rw [hw, hh]; exact hq
  · exact (Maze.hasNeighbor_congr m m2 hw hh d p.1 p.2).2 hn

theorem Maze.reachable_mono (m m2 : Maze) (hw : m2.width_ = m.width_)
    (hh : m2.height_ = m.height_)
    (hle : ∀ x y d, d < 4 → (m.maze_ y x).walls d = false → (m2.maze_ y x).walls d = false)
    (p q : Nat × Nat) (h : m.reachable p q) : m2.reachable p q :=
  Relation.ReflTransGen.mono (Maze.passage_mono m m2 hw hh hle) h

theorem pushMaze_walls_le (m : Maze) (d x y : Nat) (hd : d < 4)
    (hne : ¬ (stepY d y = y ∧ stepX d x = x)) (x1 y1 e : Nat) (he : e < 4)
    (h : (m.maze_ y1 x1).walls e = false) : ((pushMaze m d x y).maze_ y1 x1).walls e = false := by
  rw [pushMaze_walls m d x y y1 x1 e hd he hne]
  split_ifs
  · rfl
  · exact h

theorem noCore_push (m : Maze) (d x y : Nat) (hw : WallInv m) (hx : x < m.width_)
    (hy : y < m.height_) (hd : d ∈ unvisitedDirs m x y) (hc : m.NoCore) :
    (pushMaze m d x y).NoCore := by
  obtain ⟨hd4, hn, hq⟩ := (mem_unvisitedDirs m x y d).1 hd
  obtain ⟨hqx, hqy, hne, hnq, hbx, hby⟩ := step_facts m d x y hd4 hx hy hn
  have only_p : ∀ r, (pushMaze m d x y).passage (stepX d x, stepY d y) r → r = (x, y) := by
    rintro r ⟨_, _, e, he, _, rfl, h1, _⟩
    simp only at h1 ⊢
    rw [pushMaze_walls m d x y _ _ e hd4 he hne] at h1
    split_ifs at h1 with k
    · rcases k with ⟨_, _, rfl⟩ | ⟨k1, k2, _⟩
      · rw [hbx, hby]
      · exact absurd ⟨k1, k2⟩ hne
    · rw [hw.fresh _ _ e hqx hqy he hq] at h1
      exact Bool.noConfusion h1
  have back : ∀ a b, (pushMaze m d x y).passage a b → a ≠ (stepX d x, stepY d y) →
      b ≠ (stepX d x, stepY d y) → m.passage a b := by
    rintro ⟨ax, ay⟩ b ⟨ha, hb, e, he, hna, rfl, h1, h2⟩ haq hbq
    simp only at h1 h2 hna haq hbq
    have hna2 : m.hasNeighbor e ax ay := hna
    obtain ⟨_, _, _, _, hbx1, hby1⟩ := step_facts m e ax ay he ha.1 ha.2 hna2
    refine ⟨ha, hb, e, he, hna2, rfl, ?_, ?_⟩
    · simp only
      rw [pushMaze_walls m d x y _ _ e hd4 he hne] at h1
      split_ifs at h1 with k
      · rcases k with ⟨k1, k2, _⟩ | ⟨k1, k2, k3⟩
        · exact absurd (Prod.ext k2 k1) haq
        · subst k1 k2 k3
          exact absurd rfl hbq
      · exact h1
    · simp only
      rw [pushMaze_walls m d x y _ _ _ hd4 (opposite_lt e) hne] at h2
      split_ifs at h2 with k
      · rcases k with ⟨k1, k2, _⟩ | ⟨k1, k2, k3⟩
        · exact absurd (Prod.ext k2 k1) hbq
        · exfalso
          apply haq
          rw [← hbx1, ← hby1, k1, k2, k3]
      · exact h2
  intro S hS
  by_cases hqS : (stepX d x, stepY d y) ∈ S
  · refine ⟨_, hqS, fun b _ c _ hb hcq => ?_⟩
    rw [only_p b hb, only_p c hcq]
  · obtain ⟨a, haS, ha⟩ := hc S hS
    have haq : a ≠ (stepX d x, stepY d y) := fun h => hqS (h ▸ haS)
    refine ⟨a, haS, fun b hb c hc2 hab hac => ?_⟩
    have hbq : b ≠ (stepX d x, stepY d y) := fun h => hqS (h ▸ hb)
    have hcq : c ≠ (stepX d x, stepY d y) := fun h => hqS (h ▸ hc2)
    exact ha b hb c hc2 (back a b hab haq hbq) (back a c hac haq hcq)

/-- A grid without a core has no simple cycle of passages. -/
theorem noCore_no_cycle (m : Maze) (hc : m.NoCore) (c : List (Nat × Nat)) :
    ¬ m.IsCycle c := by
  rintro ⟨h3, hnd, hp⟩
  have hpos : 0 < c.length := by omega
  have hne : c.toFinset.Nonempty := by
    refine ⟨c.get ⟨0, hpos⟩, ?_⟩
    rw [List.mem_toFinset]
    exact List.get_mem _ _ _
  obtain ⟨a, haS, ha⟩ := hc c.toFinset hne
  rw [List.mem_toFinset, List.mem_iff_getElem] at haS
  obtain ⟨i, hi, rfl⟩ := haS
  have hj : (i + 1) % c.length < c.length := Nat.mod_lt _ (by omega)
  have hk : (i + c.length - 1) % c.length < c.length := Nat.mod_lt _ (by omega)
  have hkv : (i + c.length - 1) % c.length = if i = 0 then c.length - 1 else i - 1 := by
    split_ifs with h0
    · subst h0
      rw [Nat.zero_add]
      exact Nat.mod_eq_of_lt (by omega)
    · rw [show i + c.length - 1 = (i - 1) + c.length by omega, Nat.add_mod_right]
      exact Nat.mod_eq_of_lt (by omega)
  have hjv : (i + 1) % c.length = if i + 1 < c.length then i + 1 else 0 := by
    split_ifs with h1
    · exact Nat.mod_eq_of_lt h1
    · rw [show i + 1 = c.length by omega, Nat.mod_self]
  have hki : ((i + c.length - 1) % c.length + 1) % c.length = i := by
    rw [hkv]
    split_ifs with h0
    · rw [show c.length - 1 + 1 = c.length by omega, Nat.mod_self, h0]
    · rw [show i - 1 + 1 = i by omega]
      exact Nat.mod_eq_of_lt hi
  have hjk : (i + 1) % c.length ≠ (i + c.length - 1) % c.length := by
    rw [hkv, hjv]
    split_ifs <;> omega
  have p1 := hp i hi
  have p2 := hp _ hk
  rw [hki] at p2
  rw [List.getD_eq_getElem _ _ hi, List.getD_eq_getElem _ _ hj] at p1
  rw [List.getD_eq_getElem _ _ hi, List.getD_eq_getElem _ _ hk] at p2
  have := ha _ (List.mem_toFinset.2 (List.getElem_mem hj)) _
    (List.mem_toFinset.2 (List.getElem_mem hk)) p1 (m.passage_symm _ _ p2)
  exact hjk ((hnd.getElem_inj_iff).1 this)

theorem inv_pop (s : GenState) (x y : Nat) (rest : List (Nat × Nat)) (hs : s.stack = (x, y) :: rest)
    (hi : Inv s) (hnil : unvisitedDirs s.maze x y = []) :
    Inv { maze := s.maze, stack := rest, gen := s.gen } := by
  refine ⟨hi.walls, ?_, hi.root, hi.conn, hi.count, hi.nocore, ?_⟩
  · intro p hp
    exact hi.stack_ok p (by rw [hs]; exact List.mem_cons_of_mem _ hp)
  · intro x1 y1 hx1 hy1 hv1 hnot d hd hn
    by_cases hxy : (x1, y1) = (x, y)
    · simp only [Prod.mk.injEq] at hxy
      obtain ⟨rfl, rfl⟩ := hxy
      have := (mem_unvisitedDirs s.maze x1 y1 d).not.1 (by rw [hnil]; exact List.not_mem_nil d)
      by_contra hc
      exact this ⟨hd, hn, by simpa using hc⟩
    · refine hi.done x1 y1 hx1 hy1 hv1 ?_ d hd hn
      rw [hs]
      simp only [List.mem_cons, not_or]
      exact ⟨hxy, hnot⟩

theorem inv_push (s : GenState) (x y d g : Nat) (rest : List (Nat × Nat))
    (hs : s.stack = (x, y) :: rest) (hi : Inv s) (hd : d ∈ unvisitedDirs s.maze x y) :
    Inv { maze := pushMaze s.maze d x y, stack := (stepX d x, stepY d y) :: (x, y) :: rest,
          gen := g } := by
  obtain ⟨⟨hx, hy⟩, hv⟩ := hi.stack_ok (x, y) (by rw [hs]; exact List.mem_cons_self _ _)
  simp only at hx hy hv
  obtain ⟨hd4, hn, hq⟩ := (mem_unvisitedDirs s.maze x y d).1 hd
  obtain ⟨hqx, hqy, hne, hnq, hbx, hby⟩ := step_facts s.maze d x y hd4 hx hy hn
  have hvis : ∀ x1 y1, (s.maze.maze_ y1 x1).visited = true →
      ((pushMaze s.maze d x y).maze_ y1 x1).visited = true := by
    intro x1 y1 h
    rw [pushMaze_visited]; split_ifs
    · rfl
    · exact h
  have hqv : ((pushMaze s.maze d x y).maze_ (stepY d y) (stepX d x)).visited = true := by
    rw [pushMaze_visited, if_pos ⟨rfl, rfl⟩]
  have hnew : (pushMaze s.maze d x y).passage (x, y) (stepX d x, stepY d y) := by
    refine ⟨⟨hx, hy⟩, ⟨hqx, hqy⟩, d, hd4, hn, rfl, ?_, ?_⟩
    · rw [pushMaze_walls s.maze d x y _ _ _ hd4 hd4 hne, if_pos (Or.inr ⟨rfl, rfl, rfl⟩)]
    · rw [pushMaze_walls s.maze d x y _ _ _ hd4 (opposite_lt d) hne,
        if_pos (Or.inl ⟨rfl, rfl, rfl⟩)]
  have hreach : ∀ p, s.maze.inGrid p → ((pushMaze s.maze d x y).maze_ p.2 p.1).visited = true →
      (pushMaze s.maze d x y).reachable (x, y) p := by
    intro p hp hpv
    rw [pushMaze_visited] at hpv
    by_cases k : p.2 = stepY d y ∧ p.1 = stepX d x
    · have : p = (stepX d x, stepY d y) := Prod.ext k.2 k.1
      rw [this]
      exact Relation.ReflTransGen.single hnew
    · rw [if_neg k] at hpv
      exact Maze.reachable_mono s.maze (pushMaze s.maze d x y) rfl rfl
        (pushMaze_walls_le s.maze d x y hd4 hne) _ _ (hi.conn (x, y) p ⟨hx, hy⟩ hp hv hpv)
  refine ⟨wallInv_push s.maze d x y hi.walls hx hy hv hd, ?_, ?_, ?_, ?_,
    noCore_push s.maze d x y hi.walls hx hy hd hi.nocore, ?_⟩
  · intro p hp
    simp only [List.mem_cons] at hp
    rcases hp with rfl | hp
    · exact ⟨⟨hqx, hqy⟩, hqv⟩
    · have := hi.stack_ok p (by rw [hs]; simpa using hp)
      exact ⟨this.1, hvis _ _ this.2⟩
  · exact ⟨(stepX d x, stepY d y), ⟨hqx, hqy⟩, hqv⟩
  · intro p q hp hq2 hpv hqv2
    exact Relation.ReflTransGen.trans
      (Maze.reachable_symm _ _ _ (hreach p hp hpv)) (hreach q hq2 hqv2)
  · have h1 := passageCount_push s.maze d x y hi.walls hx hy hv hd
    have h2 := unvisited_push s.maze d x y hx hy hd
    have h3 := hi.count
    simp only [pushMaze_width, pushMaze_height]
    omega
  · intro x1 y1 hx1 hy1 hv1 hnot e he hne1
    simp only [List.mem_cons, not_or, Prod.mk.injEq] at hnot
    rw [pushMaze_visited, if_neg (fun h => hnot.1 ⟨h.2, h.1⟩)] at hv1
    apply hvis
    refine hi.done x1 y1 hx1 hy1 hv1 ?_ e he hne1
    rw [hs]
    simp only [List.mem_cons, not_or, Prod.mk.injEq]
    exact ⟨hnot.2.1, hnot.2.2⟩

theorem iteration_spec (rand : Nat → Nat) (s : GenState) (x y : Nat) (rest : List (Nat × Nat))
    (hs : s.stack = (x, y) :: rest) (hi : Inv s) :
    ∃ s2, iteration rand s x y rest = .ok s2 ∧ Inv s2 ∧ measure s2 + 1 = measure s ∧
      s2.maze.width_ = s.maze.width_ ∧ s2.maze.height_ = s.maze.height_ := by
  obtain ⟨⟨hx, hy⟩, hv⟩ := hi.stack_ok (x, y) (by rw [hs]; exact List.mem_cons_self _ _)
  simp only at hx hy hv
  by_cases hnil : unvisitedDirs s.maze x y = []
  · refine ⟨_, iteration_pop rand s x y rest hx hy hnil, inv_pop s x y rest hs hi hnil, ?_, rfl, rfl⟩
    simp [measure, hs]
    omega
  · obtain ⟨d, hd, heq⟩ := iteration_push rand s x y rest hx hy hnil
    refine ⟨_, heq, inv_push s x y d _ rest hs hi hd, ?_, rfl, rfl⟩
    have h2 := unvisited_push s.maze d x y hx hy hd
    simp only [measure, hs, List.length_cons]
    omega

theorem loop_spec (rand : Nat → Nat) (fuel : Nat) : ∀ s : GenState, Inv s → measure s ≤ fuel →
    ∃ s2, loop rand fuel s = .ok s2 ∧ Inv s2 ∧ s2.stack = [] ∧
      s2.maze.width_ = s.maze.width_ ∧ s2.maze.height_ = s.maze.height_ := by
  induction fuel with
  | zero =>
    intro s hi hm
    have : s.stack = [] := by
      have : s.stack.length = 0 := by unfold measure at hm; omega
      exact List.length_eq_zero.mp this
    refine ⟨s, ?_, hi, this, rfl, rfl⟩
    unfold loop; rw [this]
  | succ n ih =>
    intro s hi hm
    cases hs : s.stack with
    | nil =>
      refine ⟨s, ?_, hi, hs, rfl, rfl⟩
      unfold loop; rw [hs]
    | cons p rest =>
      obtain ⟨x, y⟩ := p
      obtain ⟨s1, h1, hi1, hm1, hw1, hh1⟩ := iteration_spec rand s x y rest hs hi
      obtain ⟨s2, h2, hi2, hst, hw2, hh2⟩ := ih s1 hi1 (by omega)
      refine ⟨s2, ?_, hi2, hst, by rw [hw2, hw1], by rw [hh2, hh1]⟩
      unfold loop; rw [hs]
      simp only [h1, Except.bind, h2]

theorem line_fill (P : Nat → Prop) (n a : Nat) (ha : a < n) (h0 : P a)
    (up : ∀ i, i + 1 < n → P i → P (i + 1)) (dn : ∀ i, i + 1 < n → P (i + 1) → P i) :
    ∀ i, i < n → P i := by
  have hdown : ∀ k, k ≤ a → P (a - k) := by
    intro k
    induction k with
    | zero => intro _; exact h0
    | succ k ih =>
      intro hk
      have := dn (a - (k + 1)) (by omega) (by
        have e : a - (k + 1) + 1 = a - k := by omega
        rw [e]; exact ih (by omega))
      exact this
  have hup : ∀ k, a + k < n → P (a + k) := by
    intro k
    induction k with
    | zero => intro _; exact h0
    | succ k ih =>
      intro hk
      exact up (a + k) (by omega) (ih (by omega))
  intro i hi
  by_cases h : i ≤ a
  · have := hdown (a - i) (by omega)
    rwa [show a - (a - i) = i by omega] at this
  · have := hup (i - a) (by omega)
    rwa [show a + (i - a) = i by omega] at this

/-- When the stack is empty every cell has been visited. -/
theorem inv_all_visited (s : GenState) (hi : Inv s) (hst : s.stack = []) :
    ∀ x y, x < s.maze.width_ → y < s.maze.height_ → (s.maze.maze_ y x).visited = true := by
  obtain ⟨⟨px, py⟩, ⟨hpx, hpy⟩, hpv⟩ := hi.root
  simp only at hpx hpy hpv
  have hdone : ∀ x y, x < s.maze.width_ → y < s.maze.height_ →
      (s.maze.maze_ y x).visited = true → ∀ d, d < 4 → s.maze.hasNeighbor d x y →
      (s.maze.maze_ (stepY d y) (stepX d x)).visited = true := by
    intro x y hx hy hv
    exact hi.done x y hx hy hv (by rw [hst]; exact List.not_mem_nil _)
  have hrow : ∀ x, x < s.maze.width_ → (s.maze.maze_ py x).visited = true := by
    refine line_fill (fun x => (s.maze.maze_ py x).visited = true) _ px hpx hpv ?_ ?_
    · intro i hi1 hv
      exact hdone i py (by omega) hpy hv 1 (by omega) hi1
    · intro i hi1 hv
      have := hdone (i + 1) py hi1 hpy hv 3 (by omega) (by simp [Maze.hasNeighbor])
      simpa [stepX, stepY] using this
  intro x y hx hy
  revert y
  refine line_fill (fun y => (s.maze.maze_ y x).visited = true) _ py hpy (hrow x hx) ?_ ?_
  · intro i hi1 hv
    exact hdone x i hx (by omega) hv 2 (by omega) hi1
  · intro i hi1 hv
    have := hdone x (i + 1) hx hi1 hv 0 (by omega) (by simp [Maze.hasNeighbor])
    simpa [stepX, stepY] using this

theorem startMaze_walls (w h sx sy x y d : Nat) :
    ((startMaze w h sx sy).maze_ y x).walls d = true := by
  simp only [startMaze, Maze.store, Maze.new]
  split_ifs
  · rw [Cell.walls_markVisited]; unfold Cell.walls; split <;> rfl
  · unfold Cell.walls; split <;> rfl

theorem startMaze_visited (w h sx sy x y : Nat) :
    ((startMaze w h sx sy).maze_ y x).visited = true ↔ (y = sy ∧ x = sx) := by
  simp only [startMaze, Maze.store, Maze.new]
  split_ifs with k
  · simp [k]
  · simp [k]

theorem startMaze_wallInv (w h sx sy : Nat) : WallInv (startMaze w h sx sy) :=
  ⟨fun _ _ _ _ _ _ _ => startMaze_walls .., fun _ _ _ _ _ _ _ => by
    rw [startMaze_walls, startMaze_walls], fun _ _ _ _ _ _ _ => startMaze_walls ..⟩

theorem startMaze_inv (w h sx sy g : Nat) (hx : sx < w) (hy : sy < h) :
    Inv { maze := startMaze w h sx sy, stack := [(sx, sy)], gen := g } := by
  have hwi := startMaze_wallInv w h sx sy
  refine ⟨hwi, ?_, ?_, ?_, ?_, ?_, ?_⟩
  · intro p hp
    simp only [List.mem_singleton] at hp
    subst hp
    exact ⟨⟨hx, hy⟩, (startMaze_visited ..).2 ⟨rfl, rfl⟩⟩
  · exact ⟨(sx, sy), ⟨hx, hy⟩, (startMaze_visited ..).2 ⟨rfl, rfl⟩⟩
  · intro p q _ _ hp hq
    have e1 := (startMaze_visited ..).1 hp
    have e2 := (startMaze_visited ..).1 hq
    have : p = q := Prod.ext (by rw [e1.2, e2.2]) (by rw [e1.1, e2.1])
    rw [this]
    exact Relation.ReflTransGen.refl
  · have hp : (startMaze w h sx sy).passageCount = 0 := by
      unfold Maze.passageCount
      rw [Finset.card_eq_zero, Finset.eq_empty_iff_forall_not_mem]
      rintro ⟨⟨x1, y1⟩, e⟩ hmem
      rw [mem_passages_iff _ hwi] at hmem
      have := hmem.2.2.2
      rw [startMaze_walls] at this
      exact Bool.noConfusion this
    have hu : (startMaze w h sx sy).unvisited
        = (Finset.range w ×ˢ Finset.range h).erase (sx, sy) := by
      ext ⟨x1, y1⟩
      simp only [Maze.unvisited, Finset.mem_filter, Finset.mem_product, Finset.mem_range,
        Finset.mem_erase, ne_eq, Prod.mk.injEq]
      have hv := startMaze_visited w h sx sy x1 y1
      constructor
      · rintro ⟨hr, h1⟩
        refine ⟨fun k => ?_, hr⟩
        rw [hv.2 ⟨k.2, k.1⟩] at h1
        exact Bool.noConfusion h1
      · rintro ⟨k, hr⟩
        refine ⟨hr, ?_⟩
        cases hc : ((startMaze w h sx sy).maze_ y1 x1).visited
        · rfl
        · exact absurd (hv.1 hc) (fun h => k ⟨h.2, h.1⟩)
    have hmem : (sx, sy) ∈ Finset.range w ×ˢ Finset.range h := by
      simp only [Finset.mem_product, Finset.mem_range]; exact ⟨hx, hy⟩
    rw [hp, hu, Finset.card_erase_of_mem hmem, Finset.card_product, Finset.card_range,
      Finset.card_range]
    have : 0 < w * h := Nat.mul_pos (by omega) (by omega)
    show 0 + (w * h - 1) + 1 = w * h
    omega
  · intro S hS
    obtain ⟨a, ha⟩ := hS
    refine ⟨a, ha, fun b _ c _ hab _ => ?_⟩
    obtain ⟨_, _, e, _, _, _, h1, _⟩ := hab
    rw [startMaze_walls] at h1
    exact Bool.noConfusion h1
  · intro x y _ _ hv hnot
    have := (startMaze_visited ..).1 hv
    exact absurd (by rw [this.1, this.2]; exact List.mem_singleton_self _) hnot

theorem startMaze_measure (w h sx sy g : Nat) (hx : sx < w) (hy : sy < h) :
    measure { maze := startMaze w h sx sy, stack := [(sx, sy)], gen := g } + 1 = 2 * w * h := by
  have hi := (startMaze_inv w h sx sy g hx hy).count
  have hp : (startMaze w h sx sy).passageCount = 0 := by
    unfold Maze.passageCount
    rw [Finset.card_eq_zero, Finset.eq_empty_iff_forall_not_mem]
    rintro ⟨⟨x1, y1⟩, e⟩ hmem
    rw [mem_passages_iff _ (startMaze_wallInv w h sx sy)] at hmem
    have := hmem.2.2.2
    rw [startMaze_walls] at this
    exact Bool.noConfusion this
  simp only [measure, List.length_singleton]
  rw [hp] at hi
  have e1 : (startMaze w h sx sy).width_ = w := rfl
  have e2 : (startMaze w h sx sy).height_ = h := rfl
  simp only [e1, e2] at hi
  have : 2 * w * h = 2 * (w * h) := by ring
  omega

theorem genInit_eq (w h : Nat) (rand : Nat → Nat) (hw : 0 < w) (hh : 0 < h) :
    ∃ sx sy, sx < w ∧ sy < h ∧ genInit (Maze.new w h) rand
      = .ok { maze := startMaze w h sx sy, stack := [(sx, sy)], gen := 2 } := by
  obtain ⟨kx, hkx, hdx, hrx⟩ := draw_lt w (rand 0) hw
  obtain ⟨ky, hky, hdy, hry⟩ := draw_lt h (rand 1) hh
  refine ⟨kx, ky, hkx, hky, ?_⟩
  have e1 : (Maze.new w h).width_ = w := rfl
  have e2 : (Maze.new w h).height_ = h := rfl
  unfold genInit
  simp only [e1, e2, hdx, hdy, bind, Except.bind, hrx, hry]
  rw [Maze.modify_ok _ _ _ _ (by rw [e2]; exact hky) (by rw [e1]; exact hkx)]
  rfl

/-! ## Entry, exit and the specification of `generate` -/

@[simp] theorem openWall_width (m : Maze) (y x d : Nat) : (openWall m y x d).width_ = m.width_ := rfl
@[simp] theorem openWall_height (m : Maze) (y x d : Nat) : (openWall m y x d).height_ = m.height_ := rfl

theorem openWall_visited (m : Maze) (y x d y1 x1 : Nat) :
    ((openWall m y x d).maze_ y1 x1).visited = (m.maze_ y1 x1).visited := by
  simp only [openWall, Maze.store]
  split_ifs with k
  · rw [Cell.visited_setWall, k.1, k.2]
  · rfl

theorem openWall_walls (m : Maze) (y x d y1 x1 e : Nat) (hd : d < 4) (he : e < 4) :
    ((openWall m y x d).maze_ y1 x1).walls e
      = if y1 = y ∧ x1 = x ∧ e = d then false else (m.maze_ y1 x1).walls e := by
  simp only [openWall, Maze.store]
  by_cases k : y1 = y ∧ x1 = x
  · rw [if_pos k, Cell.walls_setWall _ _ _ _ hd he, k.1, k.2]
    by_cases k2 : e = d
    · rw [if_pos k2, if_pos ⟨rfl, rfl, k2⟩]
    · rw [if_neg k2, if_neg (fun h => k2 h.2.2)]
  · rw [if_neg k, if_neg (fun h => k ⟨h.1, h.2.1⟩)]

@[simp] theorem entryExit_width (m : Maze) : (entryExit m).width_ = m.width_ := rfl
@[simp] theorem entryExit_height (m : Maze) : (entryExit m).height_ = m.height_ := rfl

theorem entryExit_hasNeighbor (m : Maze) (d x y : Nat) :
    (entryExit m).hasNeighbor d x y ↔ m.hasNeighbor d x y := Iff.rfl

theorem entryExit_visited (m : Maze) (y1 x1 : Nat) :
    ((entryExit m).maze_ y1 x1).visited = (m.maze_ y1 x1).visited := by
  unfold entryExit
  rw [openWall_visited, openWall_visited]

/-- Wall flags after the entry and the exit have been opened. -/
theorem entryExit_walls (m : Maze) (y1 x1 e : Nat) (he : e < 4) :
    ((entryExit m).maze_ y1 x1).walls e
      = if (y1 = 0 ∧ x1 = 0 ∧ e = 3) ∨ (y1 = m.height_ - 1 ∧ x1 = m.width_ - 1 ∧ e = 1)
        then false else (m.maze_ y1 x1).walls e := by
  unfold entryExit
  rw [openWall_walls _ _ _ _ _ _ _ (by omega) he, openWall_walls _ _ _ _ _ _ _ (by omega) he]
  by_cases k1 : y1 = m.height_ - 1 ∧ x1 = m.width_ - 1 ∧ e = 1
  · rw [if_pos k1, if_pos (Or.inr k1)]
  · rw [if_neg k1]
    by_cases k2 : y1 = 0 ∧ x1 = 0 ∧ e = 3
    · rw [if_pos k2, if_pos (Or.inl k2)]
    · rw [if_neg k2, if_neg (fun h => h.elim k2 k1)]

theorem openEntryExit_eq (m : Maze) (hw : 0 < m.width_) (hh : 0 < m.height_) :
    openEntryExit m = .ok (entryExit m) := by
  unfold openEntryExit
  rw [Maze.modify_ok _ _ _ _ hh hw]
  simp only [bind, Except.bind]
  rw [Maze.modify_ok _ _ _ _ (by simp only [Maze.store_height]; omega)
    (by simp only [Maze.store_width]; omega)]
  rfl

/-- An interior wall flag is not touched by the entry/exit assignments. -/
theorem entryExit_walls_interior (m : Maze) (x y d : Nat) (hd : d < 4) (hx : x < m.width_)
    (hy : y < m.height_) (hn : m.hasNeighbor d x y) :
    ((entryExit m).maze_ y x).walls d = (m.maze_ y x).walls d := by
  rw [entryExit_walls m y x d hd, if_neg]
  rintro (⟨rfl, rfl, rfl⟩ | ⟨rfl, rfl, rfl⟩)
  · simp [Maze.hasNeighbor] at hn
  · simp only [Maze.hasNeighbor] at hn; omega

theorem entryExit_passage (m : Maze) (p q : Nat × Nat) :
    (entryExit m).passage p q ↔ m.passage p q := by
  constructor
  · rintro ⟨hp, hq, d, hd, hn, rfl, h1, h2⟩
    have hn2 : m.hasNeighbor d p.1 p.2 := hn
    obtain ⟨_, _, _, hnq, _, _⟩ := step_facts m d p.1 p.2 hd hp.1 hp.2 hn2
    rw [entryExit_walls_interior m _ _ d hd hp.1 hp.2 hn2] at h1
    rw [entryExit_walls_interior m _ _ _ (opposite_lt d) hq.1 hq.2 hnq] at h2
    exact ⟨hp, hq, d, hd, hn2, rfl, h1, h2⟩
  · rintro ⟨hp, hq, d, hd, hn, rfl, h1, h2⟩
    obtain ⟨_, _, _, hnq, _, _⟩ := step_facts m d p.1 p.2 hd hp.1 hp.2 hn
    refine ⟨hp, hq, d, hd, hn, rfl, ?_, ?_⟩
    · rw [entryExit_walls_interior m _ _ d hd hp.1 hp.2 hn]; exact h1
    · rw [entryExit_walls_interior m _ _ _ (opposite_lt d) hq.1 hq.2 hnq]; exact h2

theorem entryExit_reachable (m : Maze) (p q : Nat × Nat) :
    (entryExit m).reachable p q ↔ m.reachable p q := by
  have : (entryExit m).passage = m.passage := by
    funext a b; exact propext (entryExit_passage m a b)
  unfold Maze.reachable; rw [this]

theorem entryExit_passages (m : Maze) : (entryExit m).passages = m.passages := by
  ext ⟨⟨x1, y1⟩, e⟩
  simp only [Maze.passages, Finset.mem_filter, Finset.mem_product, Finset.mem_range,
    Finset.mem_insert, Finset.mem_singleton, entryExit_width, entryExit_height,
    entryExit_hasNeighbor]
  constructor
  · rintro ⟨⟨hr, he⟩, hn, h1, h2⟩
    have he4 : e < 4 := by omega
    obtain ⟨hqx, hqy, _, hnq, _, _⟩ := step_facts m e x1 y1 he4 hr.1 hr.2 hn
    rw [entryExit_walls_interior m _ _ e he4 hr.1 hr.2 hn] at h1
    rw [entryExit_walls_interior m _ _ _ (opposite_lt e) hqx hqy hnq] at h2
    exact ⟨⟨hr, he⟩, hn, h1, h2⟩
  · rintro ⟨⟨hr, he⟩, hn, h1, h2⟩
    have he4 : e < 4 := by omega
    obtain ⟨hqx, hqy, _, hnq, _, _⟩ := step_facts m e x1 y1 he4 hr.1 hr.2 hn
    refine ⟨⟨hr, he⟩, hn, ?_, ?_⟩
    · rw [entryExit_walls_interior m _ _ e he4 hr.1 hr.2 hn]; exact h1
    · rw [entryExit_walls_interior m _ _ _ (opposite_lt e) hqx hqy hnq]; exact h2

/-- The carving loop ends on a spanning tree, and `generate` returns it with
the entry and the exit opened. -/
theorem generate_spec (w h : Nat) (rand : Nat → Nat) (hw : 1 ≤ w) (hh : 1 ≤ h) :
    ∃ m0, m0.width_ = w ∧ m0.height_ = h ∧ Carved m0 ∧
      generate (Maze.new w h) rand = .ok (entryExit m0) := by
  obtain ⟨sx, sy, hsx, hsy, hinit⟩ := genInit_eq w h rand hw hh
  have hinv := startMaze_inv w h sx sy 2 hsx hsy
  have hmeas := startMaze_measure w h sx sy 2 hsx hsy
  obtain ⟨s, hloop, hi, hst, hsw, hsh⟩ := loop_spec rand (2 * w * h) _ hinv (by omega)
  have hsw2 : s.maze.width_ = w := hsw
  have hsh2 : s.maze.height_ = h := hsh
  have hall := inv_all_visited s hi hst
  refine ⟨s.maze, hsw2, hsh2, ⟨hi.walls, hall, ?_, ?_, hi.nocore⟩, ?_⟩
  · intro p q hp hq
    exact hi.conn p q hp hq (hall _ _ hp.1 hp.2) (hall _ _ hq.1 hq.2)
  · have hu : s.maze.unvisited = ∅ := by
      rw [Finset.eq_empty_iff_forall_not_mem]
      rintro ⟨x1, y1⟩ hmem
      simp only [Maze.unvisited, Finset.mem_filter, Finset.mem_product, Finset.mem_range] at hmem
      rw [hall x1 y1 hmem.1.1 hmem.1.2] at hmem
      exact Bool.noConfusion hmem.2
    have := hi.count
    rw [hu, Finset.card_empty] at this
    exact this
  · unfold generate
    have e1 : (Maze.new w h).width_ = w := rfl
    have e2 : (Maze.new w h).height_ = h := rfl
    simp only [hinit, bind, Except.bind, e1, e2, hloop]
    exact openEntryExit_eq s.maze (by omega) (by omega)

/-- In a grid one cell wide or one cell high, connectivity forces every wall
between two consecutive cells to be open. -/
theorem corridor_open (m : Maze) (hc : Carved m) (h1 : m.width_ = 1 ∨ m.height_ = 1)
    (x y d : Nat) (hx : x < m.width_) (hy : y < m.height_) (hd : d < 4)
    (hn : m.hasNeighbor d x y) : (m.maze_ y x).walls d = false := by
  have down : ∀ x y, x < m.width_ → y + 1 < m.height_ → (m.maze_ y x).walls 2 = false := by
    intro x y hx hy
    have hw1 : m.width_ = 1 := by omega
    by_contra hcl
    have hcut : ∀ r, m.reachable (x, y) r → r.2 ≤ y := by
      intro r hr
      induction hr with
      | refl => exact le_refl _
      | @tail b c _ hstep ih =>
        obtain ⟨hp, _, e, he, hne, rfl, hwall, _⟩ := hstep
        interval_cases e <;> simp only [Maze.hasNeighbor, stepX, stepY] at hne hwall ⊢
        · omega
        · have := hp.1; omega
        · by_contra hgt
          have e1 : b.2 = y := by omega
          have e2 : b.1 = x := by have := hp.1; omega
          rw [e1, e2] at hwall
          exact hcl hwall
        · have := hp.1; omega
    have := hcut (x, y + 1) (hc.conn _ _ ⟨hx, by omega⟩ ⟨hx, hy⟩)
    simp only at this
    omega
  have right : ∀ x y, x + 1 < m.width_ → y < m.height_ → (m.maze_ y x).walls 1 = false := by
    intro x y hx hy
    have hh1 : m.height_ = 1 := by omega
    by_contra hcl
    have hcut : ∀ r, m.reachable (x, y) r → r.1 ≤ x := by
      intro r hr
      induction hr with
      | refl => exact le_refl _
      | @tail b c _ hstep ih =>
        obtain ⟨hp, _, e, he, hne, rfl, hwall, _⟩ := hstep
        interval_cases e <;> simp only [Maze.hasNeighbor, stepX, stepY] at hne hwall ⊢
        · have := hp.2; omega
        · by_contra hgt
          have e1 : b.1 = x := by omega
          have e2 : b.2 = y := by have := hp.2; omega
          rw [e1, e2] at hwall
          exact hcl hwall
        · have := hp.2; omega
        · omega
    have := hcut (x + 1, y) (hc.conn _ _ ⟨by omega, hy⟩ ⟨hx, hy⟩)
    simp only at this
    omega
  interval_cases d <;> simp only [Maze.hasNeighbor] at hn
  · have := hc.walls.recip x (y - 1) 2 hx (by omega) (by omega)
      (by simp only [Maze.hasNeighbor]; omega)
    simp only [stepX, stepY, opposite] at this
    rw [show y - 1 + 1 = y by omega] at this
    rw [← this]
    exact down x (y - 1) hx (by omega)
  · exact right x y hn hy
  · exact down x y hx hn
  · have := hc.walls.recip (x - 1) y 1 (by omega) hy (by omega)
      (by simp only [Maze.hasNeighbor]; omega)
    simp only [stepX, stepY, opposite] at this
    rw [show x - 1 + 1 = x by omega] at this
    rw [← this]
    exact right (x - 1) y (by omega) hy

/-- Boundary-facing walls of the returned grid: only the entry and the exit are open. -/
theorem entryExit_boundary (m : Maze) (hc : Carved m) (x y d : Nat) (hx : x < m.width_)
    (hy : y < m.height_) (hd : d < 4) (hn : ¬ m.hasNeighbor d x y) :
    ((entryExit m).maze_ y x).walls d = false ↔
      (x = 0 ∧ y = 0 ∧ d = 3) ∨ (x = m.width_ - 1 ∧ y = m.height_ - 1 ∧ d = 1) := by
  rw [entryExit_walls m y x d hd]
  constructor
  · intro h
    split_ifs at h with k
    · rcases k with ⟨k1, k2, k3⟩ | ⟨k1, k2, k3⟩
      · exact Or.inl ⟨k2, k1, k3⟩
      · exact Or.inr ⟨k2, k1, k3⟩
    · rw [hc.walls.border x y d hx hy hd hn] at h
      exact Bool.noConfusion h
  · intro h
    rw [if_pos]
    rcases h with ⟨k1, k2, k3⟩ | ⟨k1, k2, k3⟩
    · exact Or.inl ⟨k2, k1, k3⟩
    · exact Or.inr ⟨k2, k1, k3⟩

theorem filter_range4_single (p : Nat → Bool) (k : Nat) (hk : k < 4)
    (hp : ∀ d, d < 4 → (p d = true ↔ d = k)) : ((List.range 4).filter p).length = 1 := by
  have h0 := hp 0 (by omega)
  have h1 := hp 1 (by omega)
  have h2 := hp 2 (by omega)
  have h3 := hp 3 (by omega)
  rw [filter_range4]
  interval_cases k <;> simp_all

theorem filter_length_le (l : List Nat) (p q : Nat → Bool) :
    (l.filter p).length ≤ (l.filter q).length + (l.filter (fun d => !q d && p d)).length := by
  induction l with
  | nil => simp
  | cons a l ih =>
    simp only [List.filter_cons]
    cases p a <;> cases q a <;> simp <;> omega

theorem filter_range4_two (p : Nat → Bool) (A B : Prop) [Decidable A] [Decidable B]
    (h0 : p 0 = false) (h2 : p 2 = false) (h1 : p 1 = decide B) (h3 : p 3 = decide A) :
    ((List.range 4).filter p).length = (if B then 1 else 0) + (if A then 1 else 0) := by
  rw [filter_range4, h0, h1, h2, h3]
  by_cases hA : A <;> by_cases hB : B <;> simp [hA, hB]

/-- Open boundary-facing walls of a cell of the returned grid. -/
theorem entryExit_openBoundaryWalls (m : Maze) (hc : Carved m) (x y : Nat) (hx : x < m.width_)
    (hy : y < m.height_) :
    (entryExit m).openBoundaryWalls x y
      = (if x = m.width_ - 1 ∧ y = m.height_ - 1 then 1 else 0)
        + (if x = 0 ∧ y = 0 then 1 else 0) := by
  have hb := entryExit_boundary m hc x y
  have key : ∀ d, d < 4 →
      ((decide (¬ (entryExit m).hasNeighbor d x y) && !((entryExit m).maze_ y x).walls d) = true
        ↔ (x = 0 ∧ y = 0 ∧ d = 3) ∨ (x = m.width_ - 1 ∧ y = m.height_ - 1 ∧ d = 1)) := by
    intro d hd
    rw [Bool.and_eq_true, decide_eq_true_iff, entryExit_hasNeighbor, Bool.not_eq_true']
    constructor
    · rintro ⟨h1, h2⟩
      exact (hb d hx hy hd h1).1 h2
    · intro h
      have hn : ¬ m.hasNeighbor d x y := by
        rcases h with ⟨rfl, rfl, rfl⟩ | ⟨rfl, rfl, rfl⟩
        · simp [Maze.hasNeighbor]
        · simp only [Maze.hasNeighbor]; omega
      exact ⟨hn, (hb d hx hy hd hn).2 h⟩
  unfold Maze.openBoundaryWalls
  refine filter_range4_two _ _ _ ?_ ?_ ?_ ?_
  · rw [Bool.eq_false_iff]
    intro h
    have := (key 0 (by omega)).1 h
    omega
  · rw [Bool.eq_false_iff]
    intro h
    have := (key 2 (by omega)).1 h
    omega
  · rw [Bool.eq_iff_iff, decide_eq_true_iff]
    refine (key 1 (by omega)).trans ⟨fun h => ?_, fun h => Or.inr ⟨h.1, h.2, rfl⟩⟩
    rcases h with ⟨_, _, h3⟩ | ⟨h1, h2, _⟩
    · omega
    · exact ⟨h1, h2⟩
  · rw [Bool.eq_iff_iff, decide_eq_true_iff]
    refine (key 3 (by omega)).trans ⟨fun h => ?_, fun h => Or.inl ⟨h.1, h.2, rfl⟩⟩
    rcases h with ⟨h1, h2, _⟩ | ⟨_, _, h3⟩
    · exact ⟨h1, h2⟩
    · omega

/-! ## Claims on `Maze::generate` -/

/-- Claim C1. Connectivity of the generated maze: for every grid size `w, h ≥ 1`
and every random stream, `generate` on the fresh `w x h` grid returns a grid in
which every in-bounds cell is reachable from every other in-bounds cell through
open interior passages. -/
theorem generate_connected (w h : Nat) (rand : Nat → Nat) (hw : 1 ≤ w) (hh : 1 ≤ h) :
    ∃ m, generate (Maze.new w h) rand = .ok m ∧ m.width_ = w ∧ m.height_ = h ∧
      ∀ p q, m.inGrid p → m.inGrid q → m.reachable p q := by
  obtain ⟨m0, hw0, hh0, hc, hg⟩ := generate_spec w h rand hw hh
  refine ⟨entryExit m0, hg, hw0, hh0, fun p q hp hq => ?_⟩
  rw [entryExit_reachable]
  exact hc.conn p q hp hq

theorem generate_connected_witness :
    1 ≤ 3 ∧ 1 ≤ 2 ∧ ∃ m, generate (Maze.new 3 2) (fun k => 5 * k + 1) = .ok m ∧
      m.width_ = 3 ∧ m.height_ = 2 ∧ ∀ p q, m.inGrid p → m.inGrid q → m.reachable p q :=
  ⟨by decide, by decide, generate_connected 3 2 (fun k => 5 * k + 1) (by decide) (by decide)⟩

/-- Claim C2. Passage count and acyclicity: for every grid size `w, h ≥ 1` and every
random stream, the grid returned by `generate` has exactly `w * h - 1` open
interior passages, and its passage graph has no simple cycle. -/
theorem generate_passage_count (w h : Nat) (rand : Nat → Nat) (hw : 1 ≤ w) (hh : 1 ≤ h) :
    ∃ m, generate (Maze.new w h) rand = .ok m ∧ m.width_ = w ∧ m.height_ = h ∧
      m.passageCount = w * h - 1 ∧ ∀ c, ¬ m.IsCycle c := by
  obtain ⟨m0, hw0, hh0, hc, hg⟩ := generate_spec w h rand hw hh
  refine ⟨entryExit m0, hg, hw0, hh0, ?_, ?_⟩
  · have := hc.count
    unfold Maze.passageCount at this ⊢
    rw [entryExit_passages, ← hw0, ← hh0]
    omega
  · have hnc : (entryExit m0).NoCore := by
      intro S hS
      obtain ⟨a, haS, ha⟩ := hc.nocore S hS
      exact ⟨a, haS, fun b hb c hc2 hab hac =>
        ha b hb c hc2 ((entryExit_passage m0 a b).1 hab) ((entryExit_passage m0 a c).1 hac)⟩
    exact fun c => noCore_no_cycle _ hnc c

theorem generate_passage_count_witness :
    1 ≤ 3 ∧ 1 ≤ 2 ∧ ∃ m, generate (Maze.new 3 2) (fun k => 5 * k + 1) = .ok m ∧
      m.width_ = 3 ∧ m.height_ = 2 ∧ m.passageCount = 3 * 2 - 1 ∧ ∀ c, ¬ m.IsCycle c :=
  ⟨by decide, by decide, generate_passage_count 3 2 (fun k => 5 * k + 1) (by decide) (by decide)⟩

/-- Claim C3 as stated fails on the `1 x 1` grid: its single cell is both the
start and the end cell and has two open boundary-facing walls (entry and exit). -/
theorem entry_exit_single_cell :
    (generate (Maze.new 1 1) (fun _ => 0)).map (fun m => m.openBoundaryWalls 0 0) = .ok 2 := by
  decide

/-- Claim C3, amended. Entry/exit: for every grid size `w, h ≥ 1` and every random
stream, in the grid returned by `generate` the left wall of `maze_[0][0]` and
the right wall of `maze_[h-1][w-1]` are open and face outside the grid, no other
boundary-facing wall of any cell is open, and unless `w = h = 1` exactly one
boundary-facing wall is open on the start cell and exactly one on the end cell. -/
theorem generate_entry_exit (w h : Nat) (rand : Nat → Nat) (hw : 1 ≤ w) (hh : 1 ≤ h) :
    ∃ m, generate (Maze.new w h) rand = .ok m ∧ m.width_ = w ∧ m.height_ = h ∧
      ((m.maze_ 0 0).walls 3 = false ∧ ¬ m.hasNeighbor 3 0 0) ∧
      ((m.maze_ (h - 1) (w - 1)).walls 1 = false ∧ ¬ m.hasNeighbor 1 (w - 1) (h - 1)) ∧
      (∀ x y d, x < w → y < h → d < 4 → ¬ m.hasNeighbor d x y →
        (m.maze_ y x).walls d = false →
          (x = 0 ∧ y = 0 ∧ d = 3) ∨ (x = w - 1 ∧ y = h - 1 ∧ d = 1)) ∧
      (¬ (w = 1 ∧ h = 1) →
        m.openBoundaryWalls 0 0 = 1 ∧ m.openBoundaryWalls (w - 1) (h - 1) = 1) := by
  obtain ⟨m0, hw0, hh0, hc, hg⟩ := generate_spec w h rand hw hh
  subst hw0 hh0
  have n3 : ¬ m0.hasNeighbor 3 0 0 := by simp [Maze.hasNeighbor]
  have n1 : ¬ m0.hasNeighbor 1 (m0.width_ - 1) (m0.height_ - 1) := by
    simp only [Maze.hasNeighbor]; omega
  refine ⟨entryExit m0, hg, rfl, rfl, ⟨?_, n3⟩, ⟨?_, n1⟩, ?_, ?_⟩
  · exact (entryExit_boundary m0 hc 0 0 3 (by omega) (by omega) (by omega) n3).2
      (Or.inl ⟨rfl, rfl, rfl⟩)
  · exact (entryExit_boundary m0 hc _ _ 1 (by omega) (by omega) (by omega) n1).2
      (Or.inr ⟨rfl, rfl, rfl⟩)
  · intro x y d hx hy hd hn hopen
    exact (entryExit_boundary m0 hc x y d hx hy hd hn).1 hopen
  · intro hne
    rw [entryExit_openBoundaryWalls m0 hc 0 0 (by omega) (by omega),
      entryExit_openBoundaryWalls m0 hc _ _ (by omega) (by omega)]
    have k1 : ¬ (0 = m0.width_ - 1 ∧ 0 = m0.height_ - 1) := by omega
    have k2 : ¬ (m0.width_ - 1 = 0 ∧ m0.height_ - 1 = 0) := by omega
    simp [k1, k2]

theorem generate_entry_exit_witness :
    1 ≤ 3 ∧ 1 ≤ 2 ∧ ∃ m, generate (Maze.new 3 2) (fun k => 5 * k + 1) = .ok m ∧
      m.width_ = 3 ∧ m.height_ = 2 ∧
      ((m.maze_ 0 0).walls 3 = false ∧ ¬ m.hasNeighbor 3 0 0) ∧
      ((m.maze_ (2 - 1) (3 - 1)).walls 1 = false ∧ ¬ m.hasNeighbor 1 (3 - 1) (2 - 1)) ∧
      (∀ x y d, x < 3 → y < 2 → d < 4 → ¬ m.hasNeighbor d x y →
        (m.maze_ y x).walls d = false →
          (x = 0 ∧ y = 0 ∧ d = 3) ∨ (x = 3 - 1 ∧ y = 2 - 1 ∧ d = 1)) ∧
      (¬ (3 = 1 ∧ 2 = 1) →
        m.openBoundaryWalls 0 0 = 1 ∧ m.openBoundaryWalls (3 - 1) (2 - 1) = 1) :=
  ⟨by decide, by decide, generate_entry_exit 3 2 (fun k => 5 * k + 1) (by decide) (by decide)⟩

/-- Claim C4 as stated fails on the `1 x 1` grid: the single cell has no
in-bounds neighbour, yet two of its walls (entry and exit) are open. -/
theorem open_walls_single_cell :
    (generate (Maze.new 1 1) (fun _ => 0)).map
      (fun m => (m.openWalls 0 0, m.neighborCount 0 0)) = .ok (2, 0) := by
  decide

/-- Claim C4, amended. No out-of-bounds carving: for every grid size `w, h ≥ 1` and
every random stream, in the grid returned by `generate` every open wall other
than the entry and the exit leads to an in-bounds adjacent cell whose facing
wall is open as well, and no cell has more open walls than it has in-bounds
neighbours once the entry (on `maze_[0][0]`) and the exit (on
`maze_[h-1][w-1]`) are set aside. -/
theorem generate_no_out_of_bounds (w h : Nat) (rand : Nat → Nat) (hw : 1 ≤ w) (hh : 1 ≤ h) :
    ∃ m, generate (Maze.new w h) rand = .ok m ∧ m.width_ = w ∧ m.height_ = h ∧
      (∀ x y d, x < w → y < h → d < 4 → (m.maze_ y x).walls d = false →
        (m.hasNeighbor d x y ∧ stepX d x < w ∧ stepY d y < h ∧
          (m.maze_ (stepY d y) (stepX d x)).walls (opposite d) = false) ∨
        (x = 0 ∧ y = 0 ∧ d = 3) ∨ (x = w - 1 ∧ y = h - 1 ∧ d = 1)) ∧
      (∀ x y, x < w → y < h →
        m.openWalls x y ≤ m.neighborCount x y
          + (if x = 0 ∧ y = 0 then 1 else 0) + (if x = w - 1 ∧ y = h - 1 then 1 else 0)) := by
  obtain ⟨m0, hw0, hh0, hc, hg⟩ := generate_spec w h rand hw hh
  subst hw0 hh0
  refine ⟨entryExit m0, hg, rfl, rfl, ?_, ?_⟩
  · intro x y d hx hy hd hopen
    by_cases hn : m0.hasNeighbor d x y
    · left
      obtain ⟨hqx, hqy, _, hnq, _, _⟩ := step_facts m0 d x y hd hx hy hn
      refine ⟨hn, hqx, hqy, ?_⟩
      rw [entryExit_walls_interior m0 x y d hd hx hy hn] at hopen
      rw [entryExit_walls_interior m0 _ _ _ (opposite_lt d) hqx hqy hnq,
        ← hc.walls.recip x y d hx hy hd hn]
      exact hopen
    · right
      exact (entryExit_boundary m0 hc x y d hx hy hd hn).1 hopen
  · intro x y hx hy
    have h1 := filter_length_le (List.range 4)
      (fun d => !((entryExit m0).maze_ y x).walls d)
      (fun d => decide ((entryExit m0).hasNeighbor d x y))
    have h2 := entryExit_openBoundaryWalls m0 hc x y hx hy
    unfold Maze.openBoundaryWalls at h2
    simp only [decide_not] at h2
    rw [h2] at h1
    unfold Maze.openWalls Maze.neighborCount
    simp only [Bool.not_eq_true', Bool.decide_eq_false] at h1 ⊢
    omega

theorem generate_no_out_of_bounds_witness :
    1 ≤ 3 ∧ 1 ≤ 2 ∧ ∃ m, generate (Maze.new 3 2) (fun k => 5 * k + 1) = .ok m ∧
      m.width_ = 3 ∧ m.height_ = 2 ∧
      (∀ x y d, x < 3 → y < 2 → d < 4 → (m.maze_ y x).walls d = false →
        (m.hasNeighbor d x y ∧ stepX d x < 3 ∧ stepY d y < 2 ∧
          (m.maze_ (stepY d y) (stepX d x)).walls (opposite d) = false) ∨
        (x = 0 ∧ y = 0 ∧ d = 3) ∨ (x = 3 - 1 ∧ y = 2 - 1 ∧ d = 1)) ∧
      (∀ x y, x < 3 → y < 2 →
        m.openWalls x y ≤ m.neighborCount x y
          + (if x = 0 ∧ y = 0 then 1 else 0) + (if x = 3 - 1 ∧ y = 2 - 1 then 1 else 0)) :=
  ⟨by decide, by decide,
    generate_no_out_of_bounds 3 2 (fun k => 5 * k + 1) (by decide) (by decide)⟩

/-- Claim C8 as stated fails: on a grid of width 0 `generate` raises no
`InvalidDimension`; it goes on to build the start-cell distribution over the
empty range `[0, -1]`, which is undefined behaviour. -/
theorem generate_zero_width_undefined :
    generate (Maze.new 0 1) (fun _ => 0) = .error Fault.emptyRange := rfl

/-- Claim C8, amended. A zero grid dimension is not validated: for `width == 0` or
`height == 0` the first action of `generate` is the construction of
`uniform_int_distribution` over the empty range `[0, -1]`, where the behaviour
of the program is undefined; no error is raised by the program itself. -/
theorem generate_zero_dimension (w h : Nat) (rand : Nat → Nat) (hz : w = 0 ∨ h = 0) :
    generate (Maze.new w h) rand = .error Fault.emptyRange := by
  have e1 : (Maze.new w h).width_ = w := rfl
  have e2 : (Maze.new w h).height_ = h := rfl
  unfold generate genInit
  simp only [e1, e2, bind, Except.bind, uniform_int_distribution]
  by_cases hw : w = 0
  · subst hw
    rfl
  · have hh : h = 0 := hz.resolve_left hw
    subst hh
    rw [if_pos (by omega)]
    rfl

theorem generate_zero_dimension_witness :
    (3 = 0 ∨ 0 = 0) ∧ generate (Maze.new 3 0) (fun k => k) = .error Fault.emptyRange :=
  ⟨by decide, generate_zero_dimension 3 0 (fun k => k) (by decide)⟩

/-- Claim C10. Single corridor: when `w = 1` or `h = 1` (both at least 1) the wall
grid returned by `generate` is the same for any two random streams: a wall flag
is open exactly when it lies between two consecutive cells of the line, or is
the entry (left of `maze_[0][0]`) or the exit (right of `maze_[h-1][w-1]`);
every other wall flag is closed. -/
theorem generate_corridor (w h : Nat) (rand rand2 : Nat → Nat) (hw : 1 ≤ w) (hh : 1 ≤ h)
    (h1 : w = 1 ∨ h = 1) :
    ∃ m m2, generate (Maze.new w h) rand = .ok m ∧ generate (Maze.new w h) rand2 = .ok m2 ∧
      m.width_ = w ∧ m.height_ = h ∧
      (∀ x y d, x < w → y < h → d < 4 → (m.maze_ y x).walls d = (m2.maze_ y x).walls d) ∧
      (∀ x y d, x < w → y < h → d < 4 →
        ((m.maze_ y x).walls d = false ↔
          m.hasNeighbor d x y ∨ (x = 0 ∧ y = 0 ∧ d = 3) ∨ (x = w - 1 ∧ y = h - 1 ∧ d = 1))) := by
  have main : ∀ r : Nat → Nat, ∃ m, generate (Maze.new w h) r = .ok m ∧
      m.width_ = w ∧ m.height_ = h ∧
      (∀ x y d, x < w → y < h → d < 4 →
        ((m.maze_ y x).walls d = false ↔
          m.hasNeighbor d x y ∨ (x = 0 ∧ y = 0 ∧ d = 3) ∨
            (x = w - 1 ∧ y = h - 1 ∧ d = 1))) := by
    intro r
    obtain ⟨m0, hw0, hh0, hc, hg⟩ := generate_spec w h r hw hh
    subst hw0 hh0
    refine ⟨entryExit m0, hg, rfl, rfl, fun x y d hx hy hd => ?_⟩
    rw [entryExit_hasNeighbor]
    by_cases hn : m0.hasNeighbor d x y
    · rw [entryExit_walls_interior m0 x y d hd hx hy hn]
      exact ⟨fun _ => Or.inl hn, fun _ => corridor_open m0 hc h1 x y d hx hy hd hn⟩
    · rw [entryExit_boundary m0 hc x y d hx hy hd hn]
      exact ⟨fun h => Or.inr h, fun h => h.resolve_left hn⟩
  obtain ⟨m, hg, hmw, hmh, hm⟩ := main rand
  obtain ⟨m2, hg2, hmw2, hmh2, hm2⟩ := main rand2
  refine ⟨m, m2, hg, hg2, hmw, hmh, fun x y d hx hy hd => ?_, hm⟩
  have a := hm x y d hx hy hd
  have b := hm2 x y d hx hy hd
  have hnn : m.hasNeighbor d x y ↔ m2.hasNeighbor d x y :=
    Maze.hasNeighbor_congr m2 m (by rw [hmw, hmw2]) (by rw [hmh, hmh2]) d x y
  rw [hnn, ← b] at a
  cases h3 : (m.maze_ y x).walls d <;> cases h4 : (m2.maze_ y x).walls d <;> simp_all

theorem generate_corridor_witness :
    1 ≤ 1 ∧ 1 ≤ 4 ∧ (1 = 1 ∨ 4 = 1) ∧
    ∃ m m2, generate (Maze.new 1 4) (fun k => k) = .ok m ∧
      generate (Maze.new 1 4) (fun k => 3 * k + 2) = .ok m2 ∧
      m.width_ = 1 ∧ m.height_ = 4 ∧
      (∀ x y d, x < 1 → y < 4 → d < 4 → (m.maze_ y x).walls d = (m2.maze_ y x).walls d) ∧
      (∀ x y d, x < 1 → y < 4 → d < 4 →
        ((m.maze_ y x).walls d = false ↔
          m.hasNeighbor d x y ∨ (x = 0 ∧ y = 0 ∧ d = 3) ∨ (x = 1 - 1 ∧ y = 4 - 1 ∧ d = 1))) :=
  ⟨by decide, by decide, by decide,
    generate_corridor 1 4 (fun k => k) (fun k => 3 * k + 2) (by decide) (by decide) (by decide)⟩

/-! ## Rendering: geometry and the pixel buffer -/

theorem tdiv_eq_of_pos (a b : Int) (hb : 0 < b) :
    a.tdiv b = if 0 ≤ a then a / b else -((-a) / b) := by
  split_ifs with h
  · exact Int.tdiv_eq_ediv h (le_of_lt hb)
  · have : a = -(-a) := by ring
    rw [this, Int.neg_tdiv, Int.tdiv_eq_ediv (by omega) (le_of_lt hb)]
    simp

/-- Truncating division by a positive divisor: the quotient times the divisor
lies between 0 and the dividend. -/
theorem tdiv_mul_bounds (a b : Int) (hb : 0 < b) :
    (0 ≤ a → 0 ≤ a.tdiv b ∧ a.tdiv b * b ≤ a ∧ a < (a.tdiv b + 1) * b) ∧
      (a < 0 → a.tdiv b ≤ 0 ∧ a ≤ a.tdiv b * b) := by
  rw [tdiv_eq_of_pos a b hb]
  constructor
  · intro h
    rw [if_pos h]
    exact ⟨Int.ediv_nonneg h (le_of_lt hb), Int.ediv_mul_le a (ne_of_gt hb),
      Int.lt_ediv_add_one_mul_self a hb⟩
  · intro h
    rw [if_neg (by omega)]
    have h1 : 0 ≤ (-a) / b := Int.ediv_nonneg (by omega) (le_of_lt hb)
    have h2 := Int.ediv_mul_le (-a) (ne_of_gt hb)
    constructor
    · omega
    · rw [Int.neg_mul]; omega

theorem x_offset_eq : x_offset = 25 := by decide
theorem y_offset_eq : y_offset = 25 := by decide

/-- Lower bound on `k * cell size` for `k` up to the grid dimension. -/
theorem mul_cell_ge (n : Int) (d k : Nat) (hd : 1 ≤ d) (hk : k ≤ d) (hn : -24 ≤ n) :
    -24 ≤ (k : Int) * n.tdiv d ∧ (0 ≤ n → 0 ≤ (k : Int) * n.tdiv d) := by
  have hb := tdiv_mul_bounds n d (by exact_mod_cast hd)
  by_cases h0 : 0 ≤ n
  · have := (hb.1 h0).1
    have : 0 ≤ (k : Int) * n.tdiv d := mul_nonneg (by omega) this
    exact ⟨by omega, fun _ => this⟩
  · obtain ⟨h1, h2⟩ := hb.2 (by omega)
    have h3 : ((d : Int) - k) * n.tdiv d ≤ 0 :=
      mul_nonpos_of_nonneg_of_nonpos (by omega) h1
    have h4 : ((d : Int) - k) * n.tdiv d = n.tdiv d * d - k * n.tdiv d := by ring
    exact ⟨by omega, fun h => absurd h h0⟩

theorem wall_thickness_cases (m : Maze) (W H : Int) :
    1 ≤ wall_thickness m W H ∧
      (wall_thickness m W H = 1 ∨
        (wall_thickness m W H ≤ cell_width_px m W ∧ wall_thickness m W H ≤ cell_height_px m H)) := by
  unfold wall_thickness
  generalize cell_width_px m W = cw
  generalize cell_height_px m H = ch
  rw [tdiv_eq_of_pos _ 5 (by omega)]
  split_ifs with h
  · omega
  · omega

theorem mem_barWrites (len th W H : Int) (row col : Int → Int → Int) (wr : PixelWrite) :
    wr ∈ barWrites len th W H row col ↔
      ∃ i t : Nat, (i : Int) < len ∧ (t : Int) < th ∧ row i t < H ∧ col i t < W ∧
        wr = { row := row i t, col := col i t } := by
  simp only [barWrites, List.mem_flatMap, List.mem_range, Int.lt_toNat]
  constructor
  · rintro ⟨i, hi, t, ht, hmem⟩
    split_ifs at hmem with hg
    · rw [List.mem_singleton] at hmem
      exact ⟨i, t, hi, ht, hg.1, hg.2, hmem⟩
    · exact absurd hmem (List.not_mem_nil _)
  · rintro ⟨i, t, hi, ht, h1, h2, rfl⟩
    refine ⟨i, hi, t, ht, ?_⟩
    rw [if_pos ⟨h1, h2⟩]
    exact List.mem_singleton_self _

theorem mem_wallWrites (m : Maze) (W H : Int) (wr : PixelWrite) :
    wr ∈ wallWrites m W H ↔
      ∃ x y : Nat, x < m.width_ ∧ y < m.height_ ∧ wr ∈ cellWrites m W H x y := by
  simp only [wallWrites, List.mem_flatMap, List.mem_range]
  constructor
  · rintro ⟨y, hy, x, hx, h⟩
    exact ⟨x, y, hx, hy, h⟩
  · rintro ⟨x, y, hx, hy, h⟩
    exact ⟨y, hy, x, hx, h⟩

/-- The stores made for one cell, wall by wall. -/
theorem mem_cellWrites (m : Maze) (W H : Int) (x y : Nat) (wr : PixelWrite) :
    wr ∈ cellWrites m W H x y ↔
      ((m.maze_ y x).walls 0 = true ∧ ∃ i t : Nat, (i : Int) < cell_width_px m W ∧
        (t : Int) < wall_thickness m W H ∧
        y * cell_height_px m H + y_offset + t < H ∧ x * cell_width_px m W + x_offset + i < W ∧
        wr = { row := y * cell_height_px m H + y_offset + t,
               col := x * cell_width_px m W + x_offset + i }) ∨
      ((m.maze_ y x).walls 1 = true ∧ ∃ i t : Nat, (i : Int) < cell_height_px m H ∧
        (t : Int) < wall_thickness m W H ∧
        y * cell_height_px m H + y_offset + i < H ∧
        x * cell_width_px m W + x_offset + cell_width_px m W - t - 1 < W ∧
        wr = { row := y * cell_height_px m H + y_offset + i,
               col := x * cell_width_px m W + x_offset + cell_width_px m W - t - 1 }) ∨
      ((m.maze_ y x).walls 2 = true ∧ ∃ i t : Nat, (i : Int) < cell_width_px m W ∧
        (t : Int) < wall_thickness m W H ∧
        y * cell_height_px m H + y_offset + cell_height_px m H - t - 1 < H ∧
        x * cell_width_px m W + x_offset + i < W ∧
        wr = { row := y * cell_height_px m H + y_offset + cell_height_px m H - t - 1,
               col := x * cell_width_px m W + x_offset + i }) ∨
      ((m.maze_ y x).walls 3 = true ∧ ∃ i t : Nat, (i : Int) < cell_height_px m H ∧
        (t : Int) < wall_thickness m W H ∧
        y * cell_height_px m H + y_offset + i < H ∧ x * cell_width_px m W + x_offset + t < W ∧
        wr = { row := y * cell_height_px m H + y_offset + i,
               col := x * cell_width_px m W + x_offset + t }) := by
  simp only [cellWrites, List.mem_append]
  constructor
  · rintro (((h | h) | h) | h)
    · split_ifs at h with k
      · exact Or.inl ⟨k, (mem_barWrites ..).1 h⟩
      · exact absurd h (List.not_mem_nil _)
    · split_ifs at h with k
      · exact Or.inr (Or.inl ⟨k, (mem_barWrites ..).1 h⟩)
      · exact absurd h (List.not_mem_nil _)
    · split_ifs at h with k
      · exact Or.inr (Or.inr (Or.inl ⟨k, (mem_barWrites ..).1 h⟩))
      · exact absurd h (List.not_mem_nil _)
    · split_ifs at h with k
      · exact Or.inr (Or.inr (Or.inr ⟨k, (mem_barWrites ..).1 h⟩))
      · exact absurd h (List.not_mem_nil _)
  · rintro (⟨k, h⟩ | ⟨k, h⟩ | ⟨k, h⟩ | ⟨k, h⟩)
    · left; left; left
      rw [if_pos k]; exact (mem_barWrites ..).2 h
    · left; left; right
      rw [if_pos k]; exact (mem_barWrites ..).2 h
    · left; right
      rw [if_pos k]; exact (mem_barWrites ..).2 h
    · right
      rw [if_pos k]; exact (mem_barWrites ..).2 h

/-- On a canvas of at least 26 x 26 pixels every store addresses a pixel of the canvas. -/
theorem wallWrites_bounds (m : Maze) (W H : Int) (hw : 1 ≤ m.width_) (hh : 1 ≤ m.height_)
    (hW : 26 ≤ W) (hH : 26 ≤ H) (wr : PixelWrite) (hwr : wr ∈ wallWrites m W H) :
    0 ≤ wr.row ∧ wr.row < H ∧ 0 ≤ wr.col ∧ wr.col < W := by
  rw [mem_wallWrites] at hwr
  obtain ⟨x, y, hx, hy, hmem⟩ := hwr
  rw [mem_cellWrites, x_offset_eq, y_offset_eq] at hmem
  obtain ⟨hth1, hth⟩ := wall_thickness_cases m W H
  have hx0 := (mul_cell_ge (W - shrink_pixels) m.width_ x hw (le_of_lt hx)
    (by unfold shrink_pixels; omega)).1
  have hx1 := (mul_cell_ge (W - shrink_pixels) m.width_ (x + 1) hw hx
    (by unfold shrink_pixels; omega)).1
  have hy0 := (mul_cell_ge (H - shrink_pixels) m.height_ y hh (le_of_lt hy)
    (by unfold shrink_pixels; omega)).1
  have hy1 := (mul_cell_ge (H - shrink_pixels) m.height_ (y + 1) hh hy
    (by unfold shrink_pixels; omega)).1
  have ex : ((x + 1 : Nat) : Int) * cell_width_px m W
      = x * cell_width_px m W + cell_width_px m W := by push_cast; ring
  have ey : ((y + 1 : Nat) : Int) * cell_height_px m H
      = y * cell_height_px m H + cell_height_px m H := by push_cast; ring
  change -24 ≤ (x : Int) * cell_width_px m W at hx0
  change -24 ≤ ((x + 1 : Nat) : Int) * cell_width_px m W at hx1
  change -24 ≤ (y : Int) * cell_height_px m H at hy0
  change -24 ≤ ((y + 1 : Nat) : Int) * cell_height_px m H at hy1
  rw [ex] at hx1
  rw [ey] at hy1
  generalize (x : Int) * cell_width_px m W = sx at *
  generalize (y : Int) * cell_height_px m H = sy at *
  generalize cell_width_px m W = cw at *
  generalize cell_height_px m H = ch at *
  generalize wall_thickness m W H = th at *
  rcases hmem with ⟨_, i, t, hi, ht, g1, g2, rfl⟩ | ⟨_, i, t, hi, ht, g1, g2, rfl⟩ |
    ⟨_, i, t, hi, ht, g1, g2, rfl⟩ | ⟨_, i, t, hi, ht, g1, g2, rfl⟩ <;>
  · simp only
    refine ⟨?_, g1, ?_, g2⟩ <;> omega

/-- Running the stores on a buffer that contains every addressed index. -/
theorem foldlM_storePixel (W : Int) (ws : List PixelWrite) :
    ∀ buf : List Nat, (∀ wr ∈ ws, 0 ≤ wr.row * W + wr.col ∧ wr.row * W + wr.col < buf.length) →
      ∃ out, ws.foldlM (storePixel W) buf = .ok out ∧ out.length = buf.length ∧
        ∀ k : Nat, out.getD k 255
          = if ∃ wr ∈ ws, (wr.row * W + wr.col).toNat = k ∧ k < buf.length then 0
            else buf.getD k 255 := by
  induction ws with
  | nil =>
    intro buf _
    refine ⟨buf, rfl, rfl, fun k => ?_⟩
    simp
  | cons a ws ih =>
    intro buf hb
    have ha := hb a (List.mem_cons_self _ _)
    have hlen : (buf.set (a.row * W + a.col).toNat 0).length = buf.length := List.length_set ..
    obtain ⟨out, h1, h2, h3⟩ := ih (buf.set (a.row * W + a.col).toNat 0) (by
      intro wr hwr
      rw [hlen]
      exact hb wr (List.mem_cons_of_mem _ hwr))
    refine ⟨out, ?_, by rw [h2, hlen], fun k => ?_⟩
    · rw [List.foldlM_cons]
      simp only [storePixel, ha, and_self, if_true, bind, Except.bind]
      exact h1
    · rw [h3 k, hlen]
      by_cases hk : ∃ wr ∈ ws, (wr.row * W + wr.col).toNat = k ∧ k < buf.length
      · obtain ⟨wr, hwr, hk2⟩ := hk
        rw [if_pos ⟨wr, hwr, hk2⟩, if_pos ⟨wr, List.mem_cons_of_mem _ hwr, hk2⟩]
      · rw [if_neg hk]
        by_cases hka : (a.row * W + a.col).toNat = k
        · have hklt : k < buf.length := by omega
          rw [if_pos ⟨a, List.mem_cons_self _ _, hka, hklt⟩]
          subst hka
          simp [List.getD_eq_getElem?_getD, List.getElem?_set, hklt]
        · rw [if_neg]
          · rw [List.getD_eq_getElem?_getD, List.getD_eq_getElem?_getD,
              List.getElem?_set_ne hka]
          · rintro ⟨wr, hwr, hk2⟩
            rw [List.mem_cons] at hwr
            rcases hwr with rfl | hwr
            · exact hka hk2.1
            · exact hk ⟨wr, hwr, hk2⟩

theorem index_bounds (W H row col : Int) (h0 : 0 ≤ row) (h1 : row < H) (h2 : 0 ≤ col)
    (h3 : col < W) : 0 ≤ row * W + col ∧ row * W + col < W * H := by
  have hW : 0 < W := by omega
  have a1 : 0 ≤ row * W := mul_nonneg h0 (le_of_lt hW)
  have a2 : (row + 1) * W ≤ H * W := mul_le_mul_of_nonneg_right (by omega) (le_of_lt hW)
  have a3 : (row + 1) * W = row * W + W := by ring
  have a4 : H * W = W * H := by ring
  constructor <;> omega

/-- A pixel index determines its row and column. -/
theorem index_inj (W r1 c1 r2 c2 : Int) (h1 : 0 ≤ c1) (h2 : c1 < W) (h3 : 0 ≤ c2) (h4 : c2 < W)
    (he : r1 * W + c1 = r2 * W + c2) : r1 = r2 ∧ c1 = c2 := by
  have hW : 0 < W := by omega
  have hr : r1 = r2 := by
    by_contra hne
    rcases lt_or_gt_of_ne hne with hlt | hgt
    · have : (r1 + 1) * W ≤ r2 * W := mul_le_mul_of_nonneg_right (by omega) (le_of_lt hW)
      have e : (r1 + 1) * W = r1 * W + W := by ring
      omega
    · have : (r2 + 1) * W ≤ r1 * W := mul_le_mul_of_nonneg_right (by omega) (le_of_lt hW)
      have e : (r2 + 1) * W = r2 * W + W := by ring
      omega
  subst hr
  exact ⟨rfl, by omega⟩

/-- When `image_width * image_height` exceeds `INT_MAX` the product of line 105
overflows and no buffer is built. -/
theorem renderPixels_overflow (m : Maze) (W H : Int) (h : INT_MAX < W * H) :
    renderPixels m W H = .error .intOverflow ∧ saveToPgm m true W H = .error .intOverflow := by
  have h1 : renderPixels m W H = .error .intOverflow := by
    unfold renderPixels
    rw [if_pos]
    rintro ⟨_, _, _, h3⟩
    exact absurd h3 (not_le.2 h)
  refine ⟨h1, ?_⟩
  unfold saveToPgm
  rw [h1]
  rfl

/-- A run of the drawing loops that returns had an element count within `int`. -/
theorem renderPixels_bound (m : Maze) (W H : Int) (pd : List Nat)
    (hr : renderPixels m W H = .ok pd) : W * H ≤ INT_MAX := by
  by_contra hc
  rw [(renderPixels_overflow m W H (not_le.1 hc)).1] at hr
  cases hr

/-- On a canvas of at least 26 x 26 pixels whose pixel count fits `int` the
drawing loops complete, and a sample is black exactly when some store addressed
its pixel. -/
theorem renderPixels_ok (m : Maze) (W H : Int) (hw : 1 ≤ m.width_) (hh : 1 ≤ m.height_)
    (hW : 26 ≤ W) (hH : 26 ≤ H) (hprod : W * H ≤ INT_MAX) :
    ∃ pixel_data, renderPixels m W H = .ok pixel_data ∧
      pixel_data.length = (W * H).toNat ∧
      (∀ b ∈ pixel_data, b = 0 ∨ b = 255) ∧
      ∀ px py : Int, 0 ≤ px → px < W → 0 ≤ py → py < H →
        pixel_data.getD (py * W + px).toNat 255
          = if ∃ wr ∈ wallWrites m W H, wr.row = py ∧ wr.col = px then 0 else 255 := by
  have hpos : 0 ≤ W * H := mul_nonneg (by omega) (by omega)
  have hlen0 : (List.replicate (W * H).toNat 255).length = (W * H).toNat := List.length_replicate ..
  obtain ⟨out, h1, h2, h3⟩ := foldlM_storePixel W (wallWrites m W H)
    (List.replicate (W * H).toNat 255) (by
      intro wr hwr
      obtain ⟨b1, b2, b3, b4⟩ := wallWrites_bounds m W H hw hh hW hH wr hwr
      have := index_bounds W H wr.row wr.col b1 b2 b3 b4
      rw [hlen0]
      omega)
  have hget : ∀ k, (List.replicate (W * H).toNat 255).getD k 255 = 255 := by
    intro k
    rw [List.getD_eq_getElem?_getD]
    by_cases hk : k < (W * H).toNat
    · rw [List.getElem?_eq_getElem (by rw [hlen0]; exact hk)]
      simp
    · rw [List.getElem?_eq_none (by rw [hlen0]; omega)]
      rfl
  refine ⟨out, ?_, by rw [h2, hlen0], ?_, ?_⟩
  · have a1 : W * 1 ≤ W * H := mul_le_mul_of_nonneg_left (by omega) (by omega)
    have a2 : 1 * H ≤ W * H := mul_le_mul_of_nonneg_right (by omega) (by omega)
    rw [mul_one] at a1
    rw [one_mul] at a2
    unfold INT_MAX at hprod
    have r1 : inIntRange W ∧ inIntRange H ∧ inIntRange (W * H) := by
      simp only [inIntRange, INT_MIN, INT_MAX]
      omega
    have r2 : inIntRange (W - shrink_pixels) ∧ inIntRange (H - shrink_pixels) := by
      simp only [inIntRange, INT_MIN, INT_MAX, shrink_pixels]
      omega
    unfold renderPixels
    rw [if_neg (not_not.2 r1), if_neg (by omega), if_neg (not_not.2 r2), if_neg (by omega)]
    exact h1
  · intro b hb
    obtain ⟨k, hk, rfl⟩ := List.mem_iff_getElem.1 hb
    have := h3 k
    rw [List.getD_eq_getElem _ _ hk, hget] at this
    rw [this]
    split_ifs
    · exact Or.inl rfl
    · exact Or.inr rfl
  · intro px py hx0 hx1 hy0 hy1
    rw [h3, hget, hlen0]
    have hidx := index_bounds W H py px hy0 hy1 hx0 hx1
    by_cases hk : ∃ wr ∈ wallWrites m W H, wr.row = py ∧ wr.col = px
    · obtain ⟨wr, hwr, rfl, rfl⟩ := hk
      rw [if_pos ⟨wr, hwr, rfl, by omega⟩, if_pos ⟨wr, hwr, rfl, rfl⟩]
    · rw [if_neg hk, if_neg]
      rintro ⟨wr, hwr, he, _⟩
      obtain ⟨b1, b2, b3, b4⟩ := wallWrites_bounds m W H hw hh hW hH wr hwr
      have hi2 := index_bounds W H wr.row wr.col b1 b2 b3 b4
      have he2 : wr.row * W + wr.col = py * W + px := by omega
      have := index_inj W wr.row wr.col py px b3 b4 hx0 hx1 he2
      exact hk ⟨wr, hwr, this.1, this.2⟩

/-- On a valid canvas the geometry of the program is the geometry of the specification. -/
theorem geometry_valid (m : Maze) (W H : Int) (hw : 1 ≤ m.width_) (hh : 1 ≤ m.height_)
    (hW : 50 + (m.width_ : Int) ≤ W) (hH : 50 + (m.height_ : Int) ≤ H) :
    cell_width_px m W = specCellWidth m W ∧ cell_height_px m H = specCellHeight m H ∧
      wall_thickness m W H = specThickness m W H ∧
      1 ≤ specCellWidth m W ∧ 1 ≤ specCellHeight m H ∧
      (m.width_ : Int) * specCellWidth m W ≤ W - 50 ∧
      (m.height_ : Int) * specCellHeight m H ≤ H - 50 ∧
      1 ≤ specThickness m W H ∧ specThickness m W H ≤ specCellWidth m W ∧
      specThickness m W H ≤ specCellHeight m H := by
  have hwp : (0 : Int) < m.width_ := by exact_mod_cast hw
  have hhp : (0 : Int) < m.height_ := by exact_mod_cast hh
  have e1 : cell_width_px m W = specCellWidth m W := by
    unfold cell_width_px specCellWidth shrink_pixels
    exact Int.tdiv_eq_ediv (by omega) (le_of_lt hwp)
  have e2 : cell_height_px m H = specCellHeight m H := by
    unfold cell_height_px specCellHeight shrink_pixels
    exact Int.tdiv_eq_ediv (by omega) (le_of_lt hhp)
  have c1 : 1 ≤ specCellWidth m W := by
    unfold specCellWidth
    exact (Int.le_ediv_iff_mul_le hwp).2 (by omega)
  have c2 : 1 ≤ specCellHeight m H := by
    unfold specCellHeight
    exact (Int.le_ediv_iff_mul_le hhp).2 (by omega)
  have d1 : (m.width_ : Int) * specCellWidth m W ≤ W - 50 := by
    unfold specCellWidth
    rw [mul_comm]
    exact Int.ediv_mul_le _ (ne_of_gt hwp)
  have d2 : (m.height_ : Int) * specCellHeight m H ≤ H - 50 := by
    unfold specCellHeight
    rw [mul_comm]
    exact Int.ediv_mul_le _ (ne_of_gt hhp)
  have e3 : wall_thickness m W H = specThickness m W H := by
    unfold wall_thickness specThickness
    rw [e1, e2, Int.tdiv_eq_ediv (by omega) (by omega)]
  refine ⟨e1, e2, e3, c1, c2, d1, d2, ?_, ?_, ?_⟩ <;>
  · unfold specThickness
    omega

/-- On a valid canvas a pixel is addressed by some store exactly when it lies in
the rectangle of a closed wall. -/
theorem writes_iff_inClosedWall (m : Maze) (W H : Int) (hw : 1 ≤ m.width_)
    (hh : 1 ≤ m.height_) (hW : 50 + (m.width_ : Int) ≤ W) (hH : 50 + (m.height_ : Int) ≤ H)
    (px py : Int) (hx1 : px < W) (hy1 : py < H) :
    (∃ wr ∈ wallWrites m W H, wr.row = py ∧ wr.col = px) ↔ m.inClosedWall W H px py := by
  obtain ⟨e1, e2, e3, c1, c2, d1, d2, t1, t2, t3⟩ := geometry_valid m W H hw hh hW hH
  unfold Maze.inClosedWall inRect
  simp only [mem_wallWrites, mem_cellWrites, e1, e2, e3, x_offset_eq, y_offset_eq]
  generalize specCellWidth m W = cw at *
  generalize specCellHeight m H = ch at *
  generalize specThickness m W H = th at *
  constructor
  · rintro ⟨wr, ⟨x, y, hx, hy, hmem⟩, rfl, rfl⟩
    refine ⟨x, y, hx, hy, ?_⟩
    generalize (x : Int) * cw = sx at *
    generalize (y : Int) * ch = sy at *
    rcases hmem with ⟨k, i, t, hi, ht, g1, g2, rfl⟩ | ⟨k, i, t, hi, ht, g1, g2, rfl⟩ |
      ⟨k, i, t, hi, ht, g1, g2, rfl⟩ | ⟨k, i, t, hi, ht, g1, g2, rfl⟩
    · exact Or.inl ⟨k, by simp only; omega⟩
    · exact Or.inr (Or.inl ⟨k, by simp only; omega⟩)
    · exact Or.inr (Or.inr (Or.inl ⟨k, by simp only; omega⟩))
    · exact Or.inr (Or.inr (Or.inr ⟨k, by simp only; omega⟩))
  · rintro ⟨x, y, hx, hy, hrect⟩
    generalize hsx : (x : Int) * cw = sx at *
    generalize hsy : (y : Int) * ch = sy at *
    rcases hrect with ⟨k, r1, r2, r3, r4⟩ | ⟨k, r1, r2, r3, r4⟩ | ⟨k, r1, r2, r3, r4⟩ |
      ⟨k, r1, r2, r3, r4⟩
    · refine ⟨⟨py, px⟩, ⟨x, y, hx, hy, Or.inl ⟨k, (px - sx - 25).toNat, (py - sy - 25).toNat,
        ?_, ?_, ?_, ?_, ?_⟩⟩, rfl, rfl⟩
      all_goals first
        | omega
        | (rw [hsx]; omega)
        | (rw [hsy]; omega)
        | (congr 1 <;> omega)
    · refine ⟨⟨py, px⟩, ⟨x, y, hx, hy, Or.inr (Or.inl ⟨k, (py - sy - 25).toNat,
        (sx + 25 + cw - 1 - px).toNat, ?_, ?_, ?_, ?_, ?_⟩)⟩, rfl, rfl⟩
      all_goals first
        | omega
        | (rw [hsx]; omega)
        | (rw [hsy]; omega)
        | (congr 1 <;> omega)
    · refine ⟨⟨py, px⟩, ⟨x, y, hx, hy, Or.inr (Or.inr (Or.inl ⟨k, (px - sx - 25).toNat,
        (sy + 25 + ch - 1 - py).toNat, ?_, ?_, ?_, ?_, ?_⟩))⟩, rfl, rfl⟩
      all_goals first
        | omega
        | (rw [hsx]; omega)
        | (rw [hsy]; omega)
        | (congr 1 <;> omega)
    · refine ⟨⟨py, px⟩, ⟨x, y, hx, hy, Or.inr (Or.inr (Or.inr ⟨k, (py - sy - 25).toNat,
        (px - sx - 25).toNat, ?_, ?_, ?_, ?_, ?_⟩))⟩, rfl, rfl⟩
      all_goals first
        | omega
        | (rw [hsx]; omega)
        | (rw [hsy]; omega)
        | (congr 1 <;> omega)

/-- On a canvas of at least 26 x 26 pixels whose pixel count fits `int`
`saveToPgm` completes: it writes the header and then the buffer of the drawing loops. -/
theorem saveToPgm_ok (m : Maze) (W H : Int) (hw : 1 ≤ m.width_) (hh : 1 ≤ m.height_)
    (hW : 26 ≤ W) (hH : 26 ≤ H) (hprod : W * H ≤ INT_MAX) :
    ∃ pixel_data, renderPixels m W H = .ok pixel_data ∧
      saveToPgm m true W H = .ok (pgmHeader W H ++ pixel_data) ∧
      pixel_data.length = (W * H).toNat ∧
      (∀ b ∈ pixel_data, b = 0 ∨ b = 255) ∧
      ∀ px py : Int, 0 ≤ px → px < W → 0 ≤ py → py < H →
        (py * W + px).toNat < pixel_data.length ∧
        pixel_data.getD (py * W + px).toNat 255
          = if ∃ wr ∈ wallWrites m W H, wr.row = py ∧ wr.col = px then 0 else 255 := by
  obtain ⟨pd, h1, h2, h3, h4⟩ := renderPixels_ok m W H hw hh hW hH hprod
  refine ⟨pd, h1, ?_, h2, h3, fun px py a b c d => ⟨?_, h4 px py a b c d⟩⟩
  · unfold saveToPgm
    rw [h1]
    rfl
  · have := index_bounds W H py px c d a b
    rw [h2]
    omega

/-! ## Claims on `Maze::saveToPgm` -/

/-- Claim C5 as stated fails: on the `1 x 1` grid the canvas 46341 x 46341 is
valid (`image_width ≥ 50 + w`, `image_height ≥ 50 + h`), but the element count
`image_width * image_height = 2147488281` of line 105 exceeds `INT_MAX`: the
`int` product overflows, the behaviour is undefined and `saveToPgm` builds no
buffer that follows the drawing rule. -/
theorem saveToPgm_drawing_rule_overflow :
    1 ≤ (Maze.new 1 1).width_ ∧ 1 ≤ (Maze.new 1 1).height_ ∧
    50 + ((Maze.new 1 1).width_ : Int) ≤ 46341 ∧ 50 + ((Maze.new 1 1).height_ : Int) ≤ 46341 ∧
    (46341 : Int) * 46341 = 2147488281 ∧ INT_MAX < (46341 : Int) * 46341 ∧
    renderPixels (Maze.new 1 1) 46341 46341 = .error Fault.intOverflow ∧
    saveToPgm (Maze.new 1 1) true 46341 46341 = .error Fault.intOverflow := by
  decide

/-- Claim C5, amended. Pixel-exact drawing rule: for every grid with `w, h ≥ 1`
and any wall flags and every canvas with `image_width ≥ 50 + w`,
`image_height ≥ 50 + h` and `image_width * image_height ≤ INT_MAX`,
`saveToPgm` completes, and the sample of pixel `(px, py)` (at index
`py * image_width + px` of the buffer) is 0 if and only if the pixel lies in the
rectangle of some closed wall of some cell, and 255 otherwise. -/
theorem saveToPgm_drawing_rule (m : Maze) (W H : Int) (hw : 1 ≤ m.width_)
    (hh : 1 ≤ m.height_) (hW : 50 + (m.width_ : Int) ≤ W) (hH : 50 + (m.height_ : Int) ≤ H)
    (hprod : W * H ≤ INT_MAX) :
    ∃ pixel_data, renderPixels m W H = .ok pixel_data ∧
      saveToPgm m true W H = .ok (pgmHeader W H ++ pixel_data) ∧
      pixel_data.length = (W * H).toNat ∧
      ∀ px py : Int, 0 ≤ px → px < W → 0 ≤ py → py < H →
        (pixel_data[(py * W + px).toNat]? = some 0 ↔ m.inClosedWall W H px py) ∧
        (¬ m.inClosedWall W H px py → pixel_data[(py * W + px).toNat]? = some 255) := by
  obtain ⟨pd, h1, h2, h3, _, h5⟩ := saveToPgm_ok m W H hw hh (by omega) (by omega) hprod
  refine ⟨pd, h1, h2, h3, fun px py a b c d => ?_⟩
  obtain ⟨hlt, hval⟩ := h5 px py a b c d
  have hrule := writes_iff_inClosedWall m W H hw hh hW hH px py b d
  rw [List.getD_eq_getElem _ _ hlt] at hval
  rw [List.getElem?_eq_getElem hlt, hval]
  constructor
  · constructor
    · intro h
      by_contra hc
      rw [if_neg (fun hx => hc (hrule.1 hx))] at h
      simp at h
    · intro h
      rw [if_pos (hrule.2 h)]
  · intro h
    rw [if_neg (fun hx => h (hrule.1 hx))]

theorem saveToPgm_drawing_rule_witness :
    1 ≤ (Maze.new 2 3).width_ ∧ 1 ≤ (Maze.new 2 3).height_ ∧
    50 + ((Maze.new 2 3).width_ : Int) ≤ 70 ∧ 50 + ((Maze.new 2 3).height_ : Int) ≤ 80 ∧
    (70 : Int) * 80 ≤ INT_MAX ∧
    ∃ pixel_data, renderPixels (Maze.new 2 3) 70 80 = .ok pixel_data ∧
      saveToPgm (Maze.new 2 3) true 70 80 = .ok (pgmHeader 70 80 ++ pixel_data) ∧
      pixel_data.length = ((70 : Int) * 80).toNat ∧
      ∀ px py : Int, 0 ≤ px → px < 70 → 0 ≤ py → py < 80 →
        (pixel_data[(py * 70 + px).toNat]? = some 0 ↔ (Maze.new 2 3).inClosedWall 70 80 px py) ∧
        (¬ (Maze.new 2 3).inClosedWall 70 80 px py →
          pixel_data[(py * 70 + px).toNat]? = some 255) :=
  ⟨by decide, by decide, by decide, by decide, by decide,
    saveToPgm_drawing_rule (Maze.new 2 3) 70 80 (by decide) (by decide) (by decide) (by decide)
      (by decide)⟩

/-- Claim C6 fails on the code: after `generate` on the `1 x 1` grid,
`saveToPgm` with the positive canvas dimensions 51 x 1 performs exactly one
store, for the bottom wall, and it addresses row -25 (index -1250), outside the canvas. -/
theorem saveToPgm_store_outside_canvas :
    (generate (Maze.new 1 1) (fun _ => 0)).map (fun m => wallWrites m 51 1)
      = .ok [{ row := -25, col := 25 }] := by
  decide

/-- Claim C7 as stated fails: on a grid of width 0 `saveToPgm` divides by zero
when it computes the cell width; after `generate` on the `1 x 1` grid
`saveToPgm` with the positive canvas dimensions 51 x 1 stores outside the
buffer; and on the `1 x 1` grid with the positive canvas dimensions
46341 x 46341 the `int` product `W * H` of line 105 overflows. In all three runs
the behaviour is undefined and no byte sequence is guaranteed. -/
theorem saveToPgm_undefined_runs :
    saveToPgm (Maze.new 0 1) true 60 60 = .error Fault.divisionByZero ∧
    (generate (Maze.new 1 1) (fun _ => 0)).bind (fun m => saveToPgm m true 51 1)
      = .error Fault.pixelIndex ∧
    saveToPgm (Maze.new 1 1) true 46341 46341 = .error Fault.intOverflow := by
  decide

/-- Claim C7, amended. Raster serialization: for every grid with `w, h ≥ 1` and
canvas dimensions `W, H ≥ 26` with `W * H ≤ INT_MAX` for which the file opens,
the bytes written are the header `"P5\n" + decimal(W) + " " + decimal(H) + "\n255\n"` followed by
exactly `W * H` sample bytes, pixel `(px, py)` at offset `py * W + px` after the
header, and every sample is 0 or 255. -/
theorem saveToPgm_serialization (m : Maze) (W H : Int) (hw : 1 ≤ m.width_)
    (hh : 1 ≤ m.height_) (hW : 26 ≤ W) (hH : 26 ≤ H) (hprod : W * H ≤ INT_MAX) :
    ∃ pixel_data, renderPixels m W H = .ok pixel_data ∧
      saveToPgm m true W H
        = .ok (("P5\n" ++ toString W ++ " " ++ toString H ++ "\n255\n").toList.map Char.toNat
            ++ pixel_data) ∧
      pixel_data.length = (W * H).toNat ∧
      (∀ b ∈ pixel_data, b = 0 ∨ b = 255) ∧
      ∀ px py : Int, 0 ≤ px → px < W → 0 ≤ py → py < H →
        (py * W + px).toNat < pixel_data.length ∧
        (pgmHeader W H ++ pixel_data)[(pgmHeader W H).length + (py * W + px).toNat]?
          = pixel_data[(py * W + px).toNat]? := by
  obtain ⟨pd, h1, h2, h3, h4, h5⟩ := saveToPgm_ok m W H hw hh hW hH hprod
  refine ⟨pd, h1, h2, h3, h4, fun px py a b c d => ⟨(h5 px py a b c d).1, ?_⟩⟩
  rw [List.getElem?_append_right (Nat.le_add_right _ _), Nat.add_sub_cancel_left]

theorem saveToPgm_serialization_witness :
    1 ≤ (Maze.new 2 3).width_ ∧ 1 ≤ (Maze.new 2 3).height_ ∧ (26 : Int) ≤ 30 ∧ (26 : Int) ≤ 40 ∧
    (30 : Int) * 40 ≤ INT_MAX ∧
    ∃ pixel_data, renderPixels (Maze.new 2 3) 30 40 = .ok pixel_data ∧
      saveToPgm (Maze.new 2 3) true 30 40
        = .ok (("P5\n" ++ toString (30 : Int) ++ " " ++ toString (40 : Int) ++ "\n255\n").toList.map
            Char.toNat ++ pixel_data) ∧
      pixel_data.length = ((30 : Int) * 40).toNat ∧
      (∀ b ∈ pixel_data, b = 0 ∨ b = 255) ∧
      ∀ px py : Int, 0 ≤ px → px < 30 → 0 ≤ py → py < 40 →
        (py * 30 + px).toNat < pixel_data.length ∧
        (pgmHeader 30 40 ++ pixel_data)[(pgmHeader 30 40).length + (py * 30 + px).toNat]?
          = pixel_data[(py * 30 + px).toNat]? :=
  ⟨by decide, by decide, by decide, by decide, by decide,
    saveToPgm_serialization (Maze.new 2 3) 30 40 (by decide) (by decide) (by decide) (by decide)
      (by decide)⟩

/-- Claim C9 as stated fails: on the `1 x 1` grid with the canvas 3 x 2 (far
below `50 + w`) `saveToPgm` raises nothing and writes the header and six white
samples; and with the canvas 26 x 100000000 (too narrow) it raises nothing
either: the `int` product of line 105 overflows and the behaviour is undefined. -/
theorem saveToPgm_tiny_canvas_written :
    saveToPgm (Maze.new 1 1) true 3 2
      = .ok ([80, 53, 10, 51, 32, 50, 10, 50, 53, 53, 10] ++ [255, 255, 255, 255, 255, 255]) ∧
    saveToPgm (Maze.new 1 1) true 26 100000000 = .error Fault.intOverflow := by
  decide

/-- Claim C9, amended. A too-small canvas is not rejected: for every grid with
`w, h ≥ 1` and every canvas with `image_width < 50 + w` or
`image_height < 50 + h`, both dimensions at least 26 and
`image_width * image_height ≤ INT_MAX`, `saveToPgm` raises no error; it writes
the header and then all `image_width * image_height` samples. -/
theorem saveToPgm_small_canvas (m : Maze) (W H : Int) (hw : 1 ≤ m.width_)
    (hh : 1 ≤ m.height_) (hW : 26 ≤ W) (hH : 26 ≤ H) (hprod : W * H ≤ INT_MAX)
    (hsmall : W < 50 + (m.width_ : Int) ∨ H < 50 + (m.height_ : Int)) :
    (cell_width_px m W ≤ 0 ∨ cell_height_px m H ≤ 0) ∧
    ∃ pixel_data, saveToPgm m true W H = .ok (pgmHeader W H ++ pixel_data) ∧
      pixel_data.length = (W * H).toNat ∧ ∀ b ∈ pixel_data, b = 0 ∨ b = 255 := by
  have hcell : ∀ (n : Int) (d : Nat), 1 ≤ d → n < (d : Int) → n.tdiv d ≤ 0 := by
    intro n d hd hn
    have hb := tdiv_mul_bounds n d (by exact_mod_cast hd)
    by_cases h0 : 0 ≤ n
    · rw [Int.tdiv_eq_ediv h0 (by omega), Int.ediv_eq_zero_of_lt h0 hn]
    · exact (hb.2 (by omega)).1
  refine ⟨?_, ?_⟩
  · rcases hsmall with h | h
    · exact Or.inl (hcell _ _ hw (by unfold shrink_pixels; omega))
    · exact Or.inr (hcell _ _ hh (by unfold shrink_pixels; omega))
  · obtain ⟨pd, _, h2, h3, h4, _⟩ := saveToPgm_ok m W H hw hh hW hH hprod
    exact ⟨pd, h2, h3, h4⟩

theorem saveToPgm_small_canvas_witness :
    1 ≤ (Maze.new 2 3).width_ ∧ 1 ≤ (Maze.new 2 3).height_ ∧ (26 : Int) ≤ 51 ∧ (26 : Int) ≤ 60 ∧
    (51 : Int) * 60 ≤ INT_MAX ∧
    ((51 : Int) < 50 + ((Maze.new 2 3).width_ : Int) ∨
      (60 : Int) < 50 + ((Maze.new 2 3).height_ : Int)) ∧
    (cell_width_px (Maze.new 2 3) 51 ≤ 0 ∨ cell_height_px (Maze.new 2 3) 60 ≤ 0) ∧
    ∃ pixel_data, saveToPgm (Maze.new 2 3) true 51 60 = .ok (pgmHeader 51 60 ++ pixel_data) ∧
      pixel_data.length = ((51 : Int) * 60).toNat ∧ ∀ b ∈ pixel_data, b = 0 ∨ b = 255 :=
  ⟨by decide, by decide, by decide, by decide, by decide, by decide,
    saveToPgm_small_canvas (Maze.new 2 3) 51 60 (by decide) (by decide) (by decide) (by decide)
      (by decide) (by decide)⟩

/-! ## Runs of the loop of `generate`: iterations, stack and trace -/

theorem Cell.ext_walls (c1 c2 : Cell) (hv : c1.visited = c2.visited)
    (hw : ∀ d, d < 4 → c1.walls d = c2.walls d) : c1 = c2 := by
  have h0 := hw 0 (by omega)
  have h1 := hw 1 (by omega)
  have h2 := hw 2 (by omega)
  have h3 := hw 3 (by omega)
  cases c1; cases c2
  simp only [Cell.walls] at h0 h1 h2 h3
  simp_all

theorem markVisited_of_visited (c : Cell) (h : c.visited = true) : c.markVisited = c := by
  cases c
  simp only [Cell.markVisited] at *
  simp_all

/-- The loop started on a grid whose cells are all visited pops the start cell and ends. -/
theorem loop_all_visited (rand : Nat → Nat) (m : Maze) (sx sy g fuel : Nat) (hx : sx < m.width_)
    (hy : sy < m.height_) (hall : ∀ x y, x < m.width_ → y < m.height_ →
      (m.maze_ y x).visited = true) :
    loop rand (fuel + 1) { maze := m, stack := [(sx, sy)], gen := g }
      = .ok { maze := m, stack := [], gen := g } := by
  have hnil : unvisitedDirs m sx sy = [] := by
    rw [List.eq_nil_iff_forall_not_mem]
    intro d hd
    obtain ⟨hd4, hn, hq⟩ := (mem_unvisitedDirs m sx sy d).1 hd
    obtain ⟨hqx, hqy, _⟩ := step_facts m d sx sy hd4 hx hy hn
    rw [hall _ _ hqx hqy] at hq
    exact Bool.noConfusion hq
  unfold loop
  simp only
  rw [iteration_pop rand _ sx sy [] hx hy hnil]
  simp only [Except.bind]
  unfold loop
  cases fuel <;> rfl

/-- The start of `generate` on any grid with positive dimensions. -/
theorem genInit_any (m : Maze) (rand : Nat → Nat) (hw : 0 < m.width_) (hh : 0 < m.height_) :
    ∃ sx sy, sx < m.width_ ∧ sy < m.height_ ∧ genInit m rand
      = .ok { maze := m.store sy sx (m.maze_ sy sx).markVisited, stack := [(sx, sy)],
              gen := 2 } := by
  obtain ⟨kx, hkx, hdx, hrx⟩ := draw_lt m.width_ (rand 0) hw
  obtain ⟨ky, hky, hdy, hry⟩ := draw_lt m.height_ (rand 1) hh
  refine ⟨kx, ky, hkx, hky, ?_⟩
  unfold genInit
  simp only [hdx, hdy, bind, Except.bind, hrx, hry]
  rw [Maze.modify_ok _ _ _ _ hky hkx]
  rfl

/-- Running `generate` on a grid whose cells are all visited and whose entry and
exit are open returns the same cells. -/
theorem generate_on_finished (m : Maze) (rand : Nat → Nat) (hw : 1 ≤ m.width_)
    (hh : 1 ≤ m.height_)
    (hall : ∀ x y, x < m.width_ → y < m.height_ → (m.maze_ y x).visited = true)
    (hentry : (m.maze_ 0 0).walls 3 = false)
    (hexit : (m.maze_ (m.height_ - 1) (m.width_ - 1)).walls 1 = false) :
    ∃ m2, generate m rand = .ok m2 ∧ m2.width_ = m.width_ ∧ m2.height_ = m.height_ ∧
      ∀ x y, m2.maze_ y x = m.maze_ y x := by
  obtain ⟨sx, sy, hsx, hsy, hinit⟩ := genInit_any m rand hw hh
  have hcell : ∀ x y, (m.store sy sx (m.maze_ sy sx).markVisited).maze_ y x = m.maze_ y x := by
    intro x y
    rw [Maze.store_maze]
    split_ifs with k
    · rw [k.1, k.2]
      exact markVisited_of_visited _ (hall sx sy hsx hsy)
    · rfl
  have hall1 : ∀ x y, x < (m.store sy sx (m.maze_ sy sx).markVisited).width_ →
      y < (m.store sy sx (m.maze_ sy sx).markVisited).height_ →
      ((m.store sy sx (m.maze_ sy sx).markVisited).maze_ y x).visited = true := by
    intro x y hx hy
    rw [hcell]
    exact hall x y hx hy
  have hfuel : 2 * m.width_ * m.height_ = (2 * m.width_ * m.height_ - 1) + 1 := by
    have : 0 < m.width_ * m.height_ := Nat.mul_pos (by omega) (by omega)
    have : 2 * m.width_ * m.height_ = 2 * (m.width_ * m.height_) := by ring
    omega
  refine ⟨entryExit (m.store sy sx (m.maze_ sy sx).markVisited), ?_, rfl, rfl, fun x y => ?_⟩
  · unfold generate
    rw [hinit]
    simp only [bind, Except.bind]
    rw [hfuel, loop_all_visited rand (m.store sy sx (m.maze_ sy sx).markVisited) sx sy 2 _
      hsx hsy hall1]
    exact openEntryExit_eq _ (by simpa using hw) (by simpa using hh)
  · apply Cell.ext_walls
    · rw [entryExit_visited, hcell]
    · intro d hd
      rw [entryExit_walls _ _ _ _ hd]
      split_ifs with k
      · rcases k with ⟨rfl, rfl, rfl⟩ | ⟨rfl, rfl, rfl⟩
        · exact hentry.symm
        · exact hexit.symm
      · rw [hcell]

/-- The two branches of one loop iteration under the loop invariant. -/
theorem iteration_cases (rand : Nat → Nat) (s : GenState) (x y : Nat) (rest : List (Nat × Nat))
    (hs : s.stack = (x, y) :: rest) (hi : Inv s) :
    (unvisitedDirs s.maze x y = [] ∧ neighbors s.maze x y = .ok [] ∧
      iteration rand s x y rest = .ok { maze := s.maze, stack := rest, gen := s.gen }) ∨
    (∃ d, d ∈ unvisitedDirs s.maze x y ∧ unvisitedDirs s.maze x y ≠ [] ∧
      neighbors s.maze x y = .ok (unvisitedDirs s.maze x y) ∧
      iteration rand s x y rest
        = .ok { maze := pushMaze s.maze d x y,
                stack := (stepX d x, stepY d y) :: (x, y) :: rest, gen := s.gen + 1 }) := by
  obtain ⟨⟨hx, hy⟩, -⟩ := hi.stack_ok (x, y) (by rw [hs]; exact List.mem_cons_self _ _)
  simp only at hx hy
  have hnb := neighbors_eq s.maze x y hx hy
  by_cases hnil : unvisitedDirs s.maze x y = []
  · left
    exact ⟨hnil, by rw [hnb, hnil], iteration_pop rand s x y rest hx hy hnil⟩
  · right
    obtain ⟨d, hd, heq⟩ := iteration_push rand s x y rest hx hy hnil
    exact ⟨d, hd, hnil, hnb, heq⟩

theorem pushMaze_passage_new (m : Maze) (d x y : Nat) (hx : x < m.width_) (hy : y < m.height_)
    (hd : d ∈ unvisitedDirs m x y) :
    (pushMaze m d x y).passage (x, y) (stepX d x, stepY d y) := by
  obtain ⟨hd4, hn, hq⟩ := (mem_unvisitedDirs m x y d).1 hd
  obtain ⟨hqx, hqy, hne, hnq, hbx, hby⟩ := step_facts m d x y hd4 hx hy hn
  refine ⟨⟨hx, hy⟩, ⟨hqx, hqy⟩, d, hd4, hn, rfl, ?_, ?_⟩
  · rw [pushMaze_walls m d x y _ _ _ hd4 hd4 hne, if_pos (Or.inr ⟨rfl, rfl, rfl⟩)]
  · rw [pushMaze_walls m d x y _ _ _ hd4 (opposite_lt d) hne,
      if_pos (Or.inl ⟨rfl, rfl, rfl⟩)]

theorem stackInv_pop (s : GenState) (p : Nat × Nat) (rest : List (Nat × Nat)) (g : Nat)
    (hs : s.stack = p :: rest) (hk : StackInv s) :
    StackInv { maze := s.maze, stack := rest, gen := g } := by
  have h1 := hk.nodup
  have h2 := hk.chain
  rw [hs] at h1 h2
  exact ⟨(List.nodup_cons.1 h1).2, h2.tail⟩

theorem stackInv_push (s : GenState) (x y d g : Nat) (rest : List (Nat × Nat))
    (hs : s.stack = (x, y) :: rest) (hi : Inv s) (hk : StackInv s)
    (hd : d ∈ unvisitedDirs s.maze x y) :
    StackInv { maze := pushMaze s.maze d x y,
               stack := (stepX d x, stepY d y) :: (x, y) :: rest, gen := g } := by
  obtain ⟨⟨hx, hy⟩, -⟩ := hi.stack_ok (x, y) (by rw [hs]; exact List.mem_cons_self _ _)
  simp only at hx hy
  obtain ⟨hd4, hn, hq⟩ := (mem_unvisitedDirs s.maze x y d).1 hd
  obtain ⟨hqx, hqy, hne, hnq, hbx, hby⟩ := step_facts s.maze d x y hd4 hx hy hn
  have h1 := hk.nodup
  have h2 := hk.chain
  rw [hs] at h1 h2
  constructor
  · show ((stepX d x, stepY d y) :: (x, y) :: rest).Nodup
    refine List.nodup_cons.2 ⟨fun hmem => ?_, h1⟩
    have := (hi.stack_ok _ (by rw [hs]; exact hmem)).2
    simp only at this
    rw [hq] at this
    exact Bool.noConfusion this
  · show List.Chain' (pushMaze s.maze d x y).passage ((stepX d x, stepY d y) :: (x, y) :: rest)
    refine List.chain'_cons.2 ⟨Maze.passage_symm _ _ _
      (pushMaze_passage_new s.maze d x y hx hy hd), ?_⟩
    exact h2.imp (fun a b hab => Maze.passage_mono s.maze (pushMaze s.maze d x y) rfl rfl
      (pushMaze_walls_le s.maze d x y hd4 hne) a b hab)

theorem measure_eq_zero_iff (s : GenState) (hi : Inv s) : measure s = 0 ↔ s.stack = [] := by
  constructor
  · intro h
    unfold measure at h
    exact List.length_eq_zero.mp (by omega)
  · intro h
    have hall := inv_all_visited s hi h
    have hu : s.maze.unvisited = ∅ := by
      rw [Finset.eq_empty_iff_forall_not_mem]
      rintro ⟨x1, y1⟩ hmem
      simp only [Maze.unvisited, Finset.mem_filter, Finset.mem_product, Finset.mem_range] at hmem
      rw [hall x1 y1 hmem.1.1 hmem.1.2] at hmem
      exact Bool.noConfusion hmem.2
    unfold measure
    rw [hu, h]
    rfl

/-- Every state of the loop satisfies the invariants, and each iteration lowers
the measure by one until the stack is empty. -/
theorem iterate_spec (rand : Nat → Nat) (n : Nat) : ∀ s : GenState, Inv s → StackInv s →
    ∃ sn, iterate rand n s = .ok sn ∧ Inv sn ∧ StackInv sn ∧
      sn.maze.width_ = s.maze.width_ ∧ sn.maze.height_ = s.maze.height_ ∧
      measure sn = measure s - n := by
  induction n with
  | zero =>
    intro s hi hk
    exact ⟨s, rfl, hi, hk, rfl, rfl, rfl⟩
  | succ n ih =>
    intro s hi hk
    cases hs : s.stack with
    | nil =>
      refine ⟨s, ?_, hi, hk, rfl, rfl, ?_⟩
      · unfold iterate; rw [hs]
      · rw [(measure_eq_zero_iff s hi).2 hs]; omega
    | cons p rest =>
      obtain ⟨x, y⟩ := p
      have hmeas : measure s = 2 * s.maze.unvisited.card + (rest.length + 1) := by
        unfold measure; rw [hs]; rfl
      rcases iteration_cases rand s x y rest hs hi with ⟨hnil, _, heq⟩ | ⟨d, hd, _, _, heq⟩
      · obtain ⟨sn, h1, h2, h3, h4, h5, h6⟩ := ih _ (inv_pop s x y rest hs hi hnil)
          (stackInv_pop s (x, y) rest s.gen hs hk)
        refine ⟨sn, ?_, h2, h3, h4, h5, ?_⟩
        · unfold iterate; rw [hs]
          simp only [heq, Except.bind]
          exact h1
        · rw [h6, hmeas]
          simp only [measure]
          omega
      · obtain ⟨⟨hx, hy⟩, -⟩ := hi.stack_ok (x, y) (by rw [hs]; exact List.mem_cons_self _ _)
        simp only at hx hy
        have hu := unvisited_push s.maze d x y hx hy hd
        obtain ⟨sn, h1, h2, h3, h4, h5, h6⟩ := ih _ (inv_push s x y d (s.gen + 1) rest hs hi hd)
          (stackInv_push s x y d (s.gen + 1) rest hs hi hk hd)
        refine ⟨sn, ?_, h2, h3, h4, h5, ?_⟩
        · unfold iterate; rw [hs]
          simp only [heq, Except.bind]
          exact h1
        · rw [h6, hmeas]
          simp only [measure, List.length_cons]
          omega

/-- With enough fuel the loop returns the state that `iterate` reaches. -/
theorem loop_eq_iterate (rand : Nat → Nat) (fuel : Nat) : ∀ s : GenState, Inv s →
    measure s ≤ fuel → loop rand fuel s = iterate rand fuel s := by
  induction fuel with
  | zero =>
    intro s hi hm
    have hst : s.stack = [] := (measure_eq_zero_iff s hi).1 (by omega)
    unfold loop iterate
    rw [hst]
  | succ n ih =>
    intro s hi hm
    cases hs : s.stack with
    | nil => unfold loop iterate; rw [hs]
    | cons p rest =>
      obtain ⟨x, y⟩ := p
      obtain ⟨s1, h1, hi1, hm1, _, _⟩ := iteration_spec rand s x y rest hs hi
      unfold loop iterate
      rw [hs]
      simp only [h1, Except.bind]
      exact ih s1 hi1 (by omega)

/-- The record of the loop: the pushed cells are pairwise distinct cells that
were unvisited, one per cell visited by the loop, and every stack entry is popped. -/
theorem loopTrace_spec (rand : Nat → Nat) (fuel : Nat) : ∀ s : GenState, Inv s →
    measure s ≤ fuel →
    ∃ sf L k, loopTrace rand fuel s = .ok (sf, L, k) ∧ loop rand fuel s = .ok sf ∧
      sf.stack = [] ∧ L.Nodup ∧
      (∀ p ∈ L, s.maze.inGrid p ∧ (s.maze.maze_ p.2 p.1).visited = false) ∧
      L.length + sf.maze.unvisited.card = s.maze.unvisited.card ∧
      k = L.length + s.stack.length := by
  induction fuel with
  | zero =>
    intro s hi hm
    have hst : s.stack = [] := (measure_eq_zero_iff s hi).1 (by omega)
    refine ⟨s, [], 0, ?_, ?_, hst, List.nodup_nil, fun p hp => absurd hp (List.not_mem_nil _),
      by simp, by simp [hst]⟩
    · unfold loopTrace; rw [hst]
    · unfold loop; rw [hst]
  | succ n ih =>
    intro s hi hm
    cases hs : s.stack with
    | nil =>
      refine ⟨s, [], 0, ?_, ?_, hs, List.nodup_nil, fun p hp => absurd hp (List.not_mem_nil _),
        by simp, by simp⟩
      · unfold loopTrace; rw [hs]
      · unfold loop; rw [hs]
    | cons p rest =>
      obtain ⟨x, y⟩ := p
      have hmeas : measure s = 2 * s.maze.unvisited.card + (rest.length + 1) := by
        unfold measure; rw [hs]; rfl
      obtain ⟨⟨hx, hy⟩, -⟩ := hi.stack_ok (x, y) (by rw [hs]; exact List.mem_cons_self _ _)
      simp only at hx hy
      rcases iteration_cases rand s x y rest hs hi with ⟨hnil, hnb, heq⟩ | ⟨d, hd, hne, hnb, heq⟩
      · obtain ⟨sf, L, k, h1, h2, h3, h4, h5, h6, h7⟩ := ih _ (inv_pop s x y rest hs hi hnil)
          (by simp only [measure]; omega)
        refine ⟨sf, L, k + 1, ?_, ?_, h3, h4, h5, h6, ?_⟩
        · unfold loopTrace; rw [hs]
          simp only [hnb, heq, Except.bind, h1, Except.map, ne_eq, not_true_eq_false, if_false]
        · unfold loop; rw [hs]
          simp only [heq, Except.bind]
          exact h2
        · simp only [List.length_cons]
          simp only at h7
          omega
      · have hu := unvisited_push s.maze d x y hx hy hd
        obtain ⟨hd4, hn, hq⟩ := (mem_unvisitedDirs s.maze x y d).1 hd
        obtain ⟨hqx, hqy, _⟩ := step_facts s.maze d x y hd4 hx hy hn
        obtain ⟨sf, L, k, h1, h2, h3, h4, h5, h6, h7⟩ :=
          ih _ (inv_push s x y d (s.gen + 1) rest hs hi hd)
            (by simp only [measure, List.length_cons]; omega)
        simp only at h5 h6 h7
        refine ⟨sf, (stepX d x, stepY d y) :: L, k, ?_, ?_, h3, ?_, ?_, ?_, ?_⟩
        · unfold loopTrace; rw [hs]
          simp only [hnb, heq, Except.bind, h1, Except.map, ne_eq, hne, not_false_eq_true,
            if_true, List.take_succ_cons, List.take_zero, List.singleton_append]
        · unfold loop; rw [hs]
          simp only [heq, Except.bind]
          exact h2
        · refine List.nodup_cons.2 ⟨fun hmem => ?_, h4⟩
          have := (h5 _ hmem).2
          rw [pushMaze_visited, if_pos ⟨rfl, rfl⟩] at this
          exact Bool.noConfusion this
        · intro p hp
          rw [List.mem_cons] at hp
          rcases hp with rfl | hp
          · exact ⟨⟨hqx, hqy⟩, hq⟩
          · obtain ⟨hg, hv⟩ := h5 p hp
            refine ⟨hg, ?_⟩
            rw [pushMaze_visited] at hv
            split_ifs at hv
            exact hv
        · simp only [List.length_cons]
          omega
        · simp only [List.length_cons] at h7 ⊢
          omega

/-- The run of `generate` on the fresh grid, state by state. -/
theorem generate_run (w h : Nat) (rand : Nat → Nat) (hw : 1 ≤ w) (hh : 1 ≤ h) :
    ∃ sx sy sf, sx < w ∧ sy < h ∧
      genInit (Maze.new w h) rand
        = .ok { maze := startMaze w h sx sy, stack := [(sx, sy)], gen := 2 } ∧
      Inv { maze := startMaze w h sx sy, stack := [(sx, sy)], gen := 2 } ∧
      StackInv { maze := startMaze w h sx sy, stack := [(sx, sy)], gen := 2 } ∧
      measure { maze := startMaze w h sx sy, stack := [(sx, sy)], gen := 2 } + 1 = 2 * w * h ∧
      loop rand (2 * w * h) { maze := startMaze w h sx sy, stack := [(sx, sy)], gen := 2 }
        = .ok sf ∧
      Inv sf ∧ sf.stack = [] ∧ sf.maze.width_ = w ∧ sf.maze.height_ = h ∧ Carved sf.maze ∧
      generate (Maze.new w h) rand = .ok (entryExit sf.maze) := by
  obtain ⟨sx, sy, hsx, hsy, hinit⟩ := genInit_eq w h rand hw hh
  have hinv := startMaze_inv w h sx sy 2 hsx hsy
  have hmeas := startMaze_measure w h sx sy 2 hsx hsy
  obtain ⟨s, hloop, hi, hst, hsw, hsh⟩ := loop_spec rand (2 * w * h) _ hinv (by omega)
  have hsw2 : s.maze.width_ = w := hsw
  have hsh2 : s.maze.height_ = h := hsh
  have hall := inv_all_visited s hi hst
  have hk : StackInv { maze := startMaze w h sx sy, stack := [(sx, sy)], gen := 2 } :=
    ⟨List.nodup_singleton _, List.chain'_singleton _⟩
  refine ⟨sx, sy, s, hsx, hsy, hinit, hinv, hk, hmeas, hloop, hi, hst, hsw2, hsh2,
    ⟨hi.walls, hall, ?_, ?_, hi.nocore⟩, ?_⟩
  · intro p q hp hq
    exact hi.conn p q hp hq (hall _ _ hp.1 hp.2) (hall _ _ hq.1 hq.2)
  · have hz := (measure_eq_zero_iff s hi).2 hst
    have := hi.count
    unfold measure at hz
    omega
  · unfold generate
    have e1 : (Maze.new w h).width_ = w := rfl
    have e2 : (Maze.new w h).height_ = h := rfl
    simp only [hinit, bind, Except.bind, e1, e2, hloop]
    exact openEntryExit_eq s.maze (by omega) (by omega)

theorem loop_fuel_succ (rand : Nat → Nat) (fuel : Nat) : ∀ (s sf : GenState),
    loop rand fuel s = .ok sf → loop rand (fuel + 1) s = .ok sf := by
  induction fuel with
  | zero =>
    intro s sf h
    cases hs : s.stack with
    | nil =>
      unfold loop at h ⊢
      rw [hs] at h ⊢
      exact h
    | cons p rest =>
      unfold loop at h
      rw [hs] at h
      exact Except.noConfusion h
  | succ n ih =>
    intro s sf h
    cases hs : s.stack with
    | nil =>
      unfold loop at h ⊢
      rw [hs] at h ⊢
      exact h
    | cons p rest =>
      obtain ⟨x, y⟩ := p
      unfold loop at h ⊢
      rw [hs] at h ⊢
      simp only at h ⊢
      cases hit : iteration rand s x y rest with
      | error e =>
        rw [hit] at h
        exact Except.noConfusion h
      | ok s1 =>
        rw [hit] at h
        simp only [Except.bind] at h ⊢
        exact ih s1 sf h

theorem wallInv_reciprocal (m : Maze) (hw : WallInv m) : m.reciprocal := by
  constructor
  · intro x y hx hy
    have := hw.recip x y 1 (by omega) hy (by omega) hx
    simpa [stepX, stepY, opposite] using this
  · intro x y hx hy
    have := hw.recip x y 2 hx (by omega) (by omega) hy
    simpa [stepX, stepY, opposite] using this

theorem startMaze_unvisited_card (w h sx sy : Nat) (hx : sx < w) (hy : sy < h) :
    (startMaze w h sx sy).unvisited.card + 1 = w * h := by
  have := startMaze_measure w h sx sy 0 hx hy
  simp only [measure, List.length_singleton] at this
  have e : 2 * w * h = 2 * (w * h) := by ring
  omega

/-! ## Claims on the loop of `generate` -/

/-- Claim C11. Second `generate()` carves nothing: for every grid `w, h ≥ 1` and
all random streams of the first and of the second call, `generate` called on
the grid returned by `generate` completes and returns a grid with the same
dimensions and the same cells (every wall flag and every visited flag unchanged). -/
theorem generate_twice (w h : Nat) (rand rand2 : Nat → Nat) (hw : 1 ≤ w) (hh : 1 ≤ h) :
    ∃ m m2, generate (Maze.new w h) rand = .ok m ∧ generate m rand2 = .ok m2 ∧
      m2.width_ = m.width_ ∧ m2.height_ = m.height_ ∧
      ∀ x y, (m2.maze_ y x).visited = (m.maze_ y x).visited ∧
        ∀ d, d < 4 → (m2.maze_ y x).walls d = (m.maze_ y x).walls d := by
  obtain ⟨m0, hw0, hh0, hc, hg⟩ := generate_spec w h rand hw hh
  obtain ⟨m2, h1, h2, h3, h4⟩ := generate_on_finished (entryExit m0) rand2
    (by simp only [entryExit_width]; omega) (by simp only [entryExit_height]; omega)
    (by
      intro x y hx hy
      rw [entryExit_visited]
      exact hc.visited x y hx hy)
    (by rw [entryExit_walls m0 0 0 3 (by omega), if_pos (Or.inl ⟨rfl, rfl, rfl⟩)])
    (by
      rw [entryExit_walls m0 _ _ 1 (by omega), if_pos]
      exact Or.inr ⟨rfl, rfl, rfl⟩)
  exact ⟨entryExit m0, m2, hg, h1, h2, h3, fun x y => by rw [h4 x y]; exact ⟨rfl, fun _ _ => rfl⟩⟩

theorem generate_twice_witness :
    1 ≤ 3 ∧ 1 ≤ 2 ∧
    ∃ m m2, generate (Maze.new 3 2) (fun k => 5 * k + 1) = .ok m ∧
      generate m (fun k => 7 * k) = .ok m2 ∧
      m2.width_ = m.width_ ∧ m2.height_ = m.height_ ∧
      ∀ x y, (m2.maze_ y x).visited = (m.maze_ y x).visited ∧
        ∀ d, d < 4 → (m2.maze_ y x).walls d = (m.maze_ y x).walls d :=
  ⟨by decide, by decide,
    generate_twice 3 2 (fun k => 5 * k + 1) (fun k => 7 * k) (by decide) (by decide)⟩

/-- Claim C13. Termination with exact iteration count: for every grid
`w, h ≥ 1` and every random stream, the `while` loop of `generate` ends after
exactly `2*w*h - 1` iterations (the stack is non-empty before every one of them
and empty after the last), of which `w*h - 1` carve a passage and push a cell
and `w*h` pop the stack. -/
theorem generate_iteration_count (w h : Nat) (rand : Nat → Nat) (hw : 1 ≤ w) (hh : 1 ≤ h) :
    ∃ s0 sf pushed, genInit (Maze.new w h) rand = .ok s0 ∧
      loop rand (2 * w * h) s0 = .ok sf ∧
      iterate rand (2 * w * h - 1) s0 = .ok sf ∧ sf.stack = [] ∧
      (∀ n, n < 2 * w * h - 1 → ∃ sn, iterate rand n s0 = .ok sn ∧ sn.stack ≠ []) ∧
      loopTrace rand (2 * w * h) s0 = .ok (sf, pushed, w * h) ∧
      pushed.length = w * h - 1 ∧ pushed.length + w * h = 2 * w * h - 1 := by
  obtain ⟨sx, sy, sf, hsx, hsy, hinit, hinv, hk, hmeas, hloop, hif, hst, _, _, _, _⟩ :=
    generate_run w h rand hw hh
  have hu0 := startMaze_unvisited_card w h sx sy hsx hsy
  have e : 2 * w * h = 2 * (w * h) := by ring
  have hpos : 0 < w * h := Nat.mul_pos (by omega) (by omega)
  obtain ⟨sf2, L, k, t1, t2, t3, t4, t5, t6, t7⟩ :=
    loopTrace_spec rand (2 * w * h) _ hinv (by omega)
  rw [hloop] at t2
  have hsf : sf2 = sf := by injection t2 with t2; exact t2.symm
  subst hsf
  have huf : sf2.maze.unvisited.card = 0 := by
    have := (measure_eq_zero_iff sf2 hif).2 hst
    unfold measure at this
    omega
  simp only [List.length_singleton] at t6 t7
  have hlen : L.length = w * h - 1 := by omega
  have hk2 : k = w * h := by omega
  subst hk2
  obtain ⟨sn, i1, i2, _, _, _, i6⟩ := iterate_spec rand (2 * w * h - 1) _ hinv hk
  have hsn : sn.stack = [] := (measure_eq_zero_iff sn i2).1 (by omega)
  have hl1 : loop rand (2 * w * h - 1) _ = iterate rand (2 * w * h - 1) _ :=
    loop_eq_iterate rand (2 * w * h - 1) _ hinv (by omega)
  rw [i1] at hl1
  have hl2 := loop_fuel_succ rand _ _ _ hl1
  rw [show 2 * w * h - 1 + 1 = 2 * w * h by omega, hloop] at hl2
  have hsn2 : sf2 = sn := by injection hl2
  subst hsn2
  refine ⟨_, sf2, L, hinit, hloop, i1, hst, ?_, t1, hlen, by omega⟩
  intro n hn
  obtain ⟨sn, j1, j2, _, _, _, j6⟩ := iterate_spec rand n _ hinv hk
  refine ⟨sn, j1, fun hnil => ?_⟩
  have := (measure_eq_zero_iff sn j2).2 hnil
  omega

theorem generate_iteration_count_witness :
    1 ≤ 3 ∧ 1 ≤ 2 ∧
    ∃ s0 sf pushed, genInit (Maze.new 3 2) (fun k => 5 * k + 1) = .ok s0 ∧
      loop (fun k => 5 * k + 1) (2 * 3 * 2) s0 = .ok sf ∧
      iterate (fun k => 5 * k + 1) (2 * 3 * 2 - 1) s0 = .ok sf ∧ sf.stack = [] ∧
      (∀ n, n < 2 * 3 * 2 - 1 →
        ∃ sn, iterate (fun k => 5 * k + 1) n s0 = .ok sn ∧ sn.stack ≠ []) ∧
      loopTrace (fun k => 5 * k + 1) (2 * 3 * 2) s0 = .ok (sf, pushed, 3 * 2) ∧
      pushed.length = 3 * 2 - 1 ∧ pushed.length + 3 * 2 = 2 * 3 * 2 - 1 :=
  ⟨by decide, by decide,
    generate_iteration_count 3 2 (fun k => 5 * k + 1) (by decide) (by decide)⟩

theorem count_eq_one_of_nodup (L : List (Nat × Nat)) (a : Nat × Nat) (hn : L.Nodup) (hm : a ∈ L) :
    L.count a = 1 := by
  induction L with
  | nil => exact absurd hm (List.not_mem_nil _)
  | cons b l ih =>
    obtain ⟨hb, hl⟩ := List.nodup_cons.1 hn
    rw [List.count_cons]
    by_cases hab : b = a
    · subst hab
      rw [List.count_eq_zero_of_not_mem hb]
      simp
    · have : a ∈ l := by
        rcases List.mem_cons.1 hm with h | h
        · exact absurd h.symm hab
        · exact h
      rw [ih hl this]
      simp [hab]

/-- Claim C14. Every cell is visited exactly once: for every grid `w, h ≥ 1` and
every random stream, when the stack of `generate` has become empty every cell
of the grid has `visited == true`, and in the list of all pushes of the run (the
start cell of line 39, then the cells pushed by line 82) every cell of the grid
occurs exactly once. -/
theorem generate_visits_once (w h : Nat) (rand : Nat → Nat) (hw : 1 ≤ w) (hh : 1 ≤ h) :
    ∃ s0 sf pushed pops, genInit (Maze.new w h) rand = .ok s0 ∧
      loopTrace rand (2 * w * h) s0 = .ok (sf, pushed, pops) ∧ sf.stack = [] ∧
      (∀ x y, x < w → y < h → (sf.maze.maze_ y x).visited = true) ∧
      (∀ x y, x < w → y < h → (s0.stack ++ pushed).count (x, y) = 1) := by
  obtain ⟨sx, sy, sf, hsx, hsy, hinit, hinv, hk, hmeas, hloop, hif, hst, hfw, hfh, hc, _⟩ :=
    generate_run w h rand hw hh
  have hu0 := startMaze_unvisited_card w h sx sy hsx hsy
  have e : 2 * w * h = 2 * (w * h) := by ring
  obtain ⟨sf2, L, k, t1, t2, t3, t4, t5, t6, t7⟩ :=
    loopTrace_spec rand (2 * w * h) _ hinv (by omega)
  rw [hloop] at t2
  have hsf : sf2 = sf := by injection t2 with t2; exact t2.symm
  subst hsf
  have huf : sf2.maze.unvisited.card = 0 := by
    have := (measure_eq_zero_iff sf2 hif).2 hst
    unfold measure at this
    omega
  simp only at t5 t6
  have hsub : L.toFinset ⊆ (startMaze w h sx sy).unvisited := by
    intro p hp
    rw [List.mem_toFinset] at hp
    obtain ⟨hg, hv⟩ := t5 p hp
    simp only [Maze.unvisited, Finset.mem_filter, Finset.mem_product, Finset.mem_range]
    exact ⟨hg, hv⟩
  have heq : L.toFinset = (startMaze w h sx sy).unvisited :=
    Finset.eq_of_subset_of_card_le hsub (by rw [List.toFinset_card_of_nodup t4]; omega)
  have hstart : (sx, sy) ∉ L := by
    intro hmem
    have := (t5 _ hmem).2
    rw [(startMaze_visited w h sx sy sx sy).2 ⟨rfl, rfl⟩] at this
    exact Bool.noConfusion this
  have hnodup : ([(sx, sy)] ++ L).Nodup := by
    rw [List.singleton_append]
    exact List.nodup_cons.2 ⟨hstart, t4⟩
  refine ⟨_, sf2, L, k, hinit, t1, hst, ?_, ?_⟩
  · intro x y hx hy
    exact hc.visited x y (by rw [hfw]; exact hx) (by rw [hfh]; exact hy)
  · intro x y hx hy
    apply count_eq_one_of_nodup _ _ hnodup
    rw [List.singleton_append, List.mem_cons]
    cases hv : ((startMaze w h sx sy).maze_ y x).visited with
    | true =>
      left
      have := (startMaze_visited w h sx sy x y).1 hv
      rw [this.1, this.2]
    | false =>
      right
      rw [← List.mem_toFinset, heq]
      simp only [Maze.unvisited, Finset.mem_filter, Finset.mem_product, Finset.mem_range]
      exact ⟨⟨hx, hy⟩, hv⟩

theorem generate_visits_once_witness :
    1 ≤ 3 ∧ 1 ≤ 2 ∧
    ∃ s0 sf pushed pops, genInit (Maze.new 3 2) (fun k => 5 * k + 1) = .ok s0 ∧
      loopTrace (fun k => 5 * k + 1) (2 * 3 * 2) s0 = .ok (sf, pushed, pops) ∧ sf.stack = [] ∧
      (∀ x y, x < 3 → y < 2 → (sf.maze.maze_ y x).visited = true) ∧
      (∀ x y, x < 3 → y < 2 → (s0.stack ++ pushed).count (x, y) = 1) :=
  ⟨by decide, by decide, generate_visits_once 3 2 (fun k => 5 * k + 1) (by decide) (by decide)⟩

theorem openWall_reciprocal (m : Maze) (hr : m.reciprocal) : (openWall m 0 0 3).reciprocal := by
  constructor
  · intro x y hx hy
    rw [openWall_walls _ _ _ _ _ _ _ (by omega) (by omega),
      openWall_walls _ _ _ _ _ _ _ (by omega) (by omega), if_neg (by omega), if_neg (by omega)]
    exact hr.1 x y hx hy
  · intro x y hx hy
    rw [openWall_walls _ _ _ _ _ _ _ (by omega) (by omega),
      openWall_walls _ _ _ _ _ _ _ (by omega) (by omega), if_neg (by omega), if_neg (by omega)]
    exact hr.2 x y hx hy

theorem entryExit_reciprocal (m : Maze) (hr : m.reciprocal) : (entryExit m).reciprocal := by
  constructor
  · intro x y hx hy
    have hx2 : x + 1 < m.width_ := hx
    have hy2 : y < m.height_ := hy
    rw [entryExit_walls_interior m x y 1 (by omega) (by omega) hy2 hx2,
      entryExit_walls_interior m (x + 1) y 3 (by omega) hx2 hy2
        (by simp only [Maze.hasNeighbor]; omega)]
    exact hr.1 x y hx2 hy2
  · intro x y hx hy
    have hx2 : x < m.width_ := hx
    have hy2 : y + 1 < m.height_ := hy
    rw [entryExit_walls_interior m x y 2 (by omega) hx2 (by omega) hy2,
      entryExit_walls_interior m x (y + 1) 0 (by omega) hx2 hy2
        (by simp only [Maze.hasNeighbor]; omega)]
    exact hr.2 x y hx2 hy2

/-- Claim C15. Wall reciprocity: for every grid `w, h ≥ 1` and every random
stream, the fresh grid, the grid before every iteration of the loop of
`generate`, the grid between the entry and the exit assignment, and the final
grid all satisfy: the right flag of a cell equals the left flag of its right
neighbour and the bottom flag of a cell equals the top flag of the cell below. -/
theorem generate_reciprocal (w h : Nat) (rand : Nat → Nat) (hw : 1 ≤ w) (hh : 1 ≤ h) :
    (Maze.new w h).reciprocal ∧
    ∃ s0 sf m, genInit (Maze.new w h) rand = .ok s0 ∧
      (∀ n, ∃ sn, iterate rand n s0 = .ok sn ∧ sn.maze.width_ = w ∧ sn.maze.height_ = h ∧
        sn.maze.reciprocal) ∧
      loop rand (2 * w * h) s0 = .ok sf ∧ (openWall sf.maze 0 0 3).reciprocal ∧
      generate (Maze.new w h) rand = .ok m ∧ m.width_ = w ∧ m.height_ = h ∧ m.reciprocal := by
  obtain ⟨sx, sy, sf, hsx, hsy, hinit, hinv, hk, hmeas, hloop, hif, hst, hfw, hfh, hc, hg⟩ :=
    generate_run w h rand hw hh
  refine ⟨⟨fun _ _ _ _ => rfl, fun _ _ _ _ => rfl⟩, _, sf, _, hinit, ?_, hloop,
    openWall_reciprocal _ (wallInv_reciprocal _ hc.walls), hg, hfw, hfh,
    entryExit_reciprocal _ (wallInv_reciprocal _ hc.walls)⟩
  intro n
  obtain ⟨sn, j1, j2, _, j4, j5, _⟩ := iterate_spec rand n _ hinv hk
  exact ⟨sn, j1, j4, j5, wallInv_reciprocal _ j2.walls⟩

theorem generate_reciprocal_witness :
    1 ≤ 3 ∧ 1 ≤ 2 ∧ (Maze.new 3 2).reciprocal ∧
    ∃ s0 sf m, genInit (Maze.new 3 2) (fun k => 5 * k + 1) = .ok s0 ∧
      (∀ n, ∃ sn, iterate (fun k => 5 * k + 1) n s0 = .ok sn ∧ sn.maze.width_ = 3 ∧
        sn.maze.height_ = 2 ∧ sn.maze.reciprocal) ∧
      loop (fun k => 5 * k + 1) (2 * 3 * 2) s0 = .ok sf ∧ (openWall sf.maze 0 0 3).reciprocal ∧
      generate (Maze.new 3 2) (fun k => 5 * k + 1) = .ok m ∧ m.width_ = 3 ∧ m.height_ = 2 ∧
      m.reciprocal :=
  ⟨by decide, by decide, generate_reciprocal 3 2 (fun k => 5 * k + 1) (by decide) (by decide)⟩

/-- Claim C16. Entry/exit post-process frame: for every grid `w, h ≥ 1` and every
random stream, when the carving loop of `generate` has ended every
boundary-facing wall flag is closed; lines 90-91 then open the left wall of
`maze_[0][0]` and the right wall of `maze_[h-1][w-1]` and change no other wall
flag and no visited flag, so the open interior passages are the same before and
after. -/
theorem generate_entry_exit_frame (w h : Nat) (rand : Nat → Nat) (hw : 1 ≤ w) (hh : 1 ≤ h) :
    ∃ s0 sf m, genInit (Maze.new w h) rand = .ok s0 ∧ loop rand (2 * w * h) s0 = .ok sf ∧
      openEntryExit sf.maze = .ok m ∧ generate (Maze.new w h) rand = .ok m ∧
      sf.maze.width_ = w ∧ sf.maze.height_ = h ∧ m.width_ = w ∧ m.height_ = h ∧
      (∀ x y d, x < w → y < h → d < 4 → ¬ sf.maze.hasNeighbor d x y →
        (sf.maze.maze_ y x).walls d = true) ∧
      (m.maze_ 0 0).walls 3 = false ∧ (m.maze_ (h - 1) (w - 1)).walls 1 = false ∧
      (∀ x y d, d < 4 → ¬ (x = 0 ∧ y = 0 ∧ d = 3) → ¬ (x = w - 1 ∧ y = h - 1 ∧ d = 1) →
        (m.maze_ y x).walls d = (sf.maze.maze_ y x).walls d) ∧
      (∀ x y, (m.maze_ y x).visited = (sf.maze.maze_ y x).visited) ∧
      m.passages = sf.maze.passages ∧ (∀ p q, m.passage p q ↔ sf.maze.passage p q) := by
  obtain ⟨sx, sy, sf, hsx, hsy, hinit, hinv, hk, hmeas, hloop, hif, hst, hfw, hfh, hc, hg⟩ :=
    generate_run w h rand hw hh
  subst hfw hfh
  refine ⟨_, sf, entryExit sf.maze, hinit, hloop, openEntryExit_eq sf.maze (by omega) (by omega),
    hg, rfl, rfl, rfl, rfl, ?_, ?_, ?_, ?_, fun x y => entryExit_visited sf.maze y x,
    entryExit_passages sf.maze, fun p q => entryExit_passage sf.maze p q⟩
  · intro x y d hx hy hd hn
    exact hc.walls.border x y d hx hy hd hn
  · rw [entryExit_walls sf.maze 0 0 3 (by omega), if_pos (Or.inl ⟨rfl, rfl, rfl⟩)]
  · rw [entryExit_walls sf.maze _ _ 1 (by omega), if_pos (Or.inr ⟨rfl, rfl, rfl⟩)]
  · intro x y d hd h1 h2
    rw [entryExit_walls sf.maze y x d hd, if_neg]
    rintro (⟨k1, k2, k3⟩ | ⟨k1, k2, k3⟩)
    · exact h1 ⟨k2, k1, k3⟩
    · exact h2 ⟨k2, k1, k3⟩

theorem generate_entry_exit_frame_witness :
    1 ≤ 3 ∧ 1 ≤ 2 ∧
    ∃ s0 sf m, genInit (Maze.new 3 2) (fun k => 5 * k + 1) = .ok s0 ∧
      loop (fun k => 5 * k + 1) (2 * 3 * 2) s0 = .ok sf ∧
      openEntryExit sf.maze = .ok m ∧ generate (Maze.new 3 2) (fun k => 5 * k + 1) = .ok m ∧
      sf.maze.width_ = 3 ∧ sf.maze.height_ = 2 ∧ m.width_ = 3 ∧ m.height_ = 2 ∧
      (∀ x y d, x < 3 → y < 2 → d < 4 → ¬ sf.maze.hasNeighbor d x y →
        (sf.maze.maze_ y x).walls d = true) ∧
      (m.maze_ 0 0).walls 3 = false ∧ (m.maze_ (2 - 1) (3 - 1)).walls 1 = false ∧
      (∀ x y d, d < 4 → ¬ (x = 0 ∧ y = 0 ∧ d = 3) → ¬ (x = 3 - 1 ∧ y = 2 - 1 ∧ d = 1) →
        (m.maze_ y x).walls d = (sf.maze.maze_ y x).walls d) ∧
      (∀ x y, (m.maze_ y x).visited = (sf.maze.maze_ y x).visited) ∧
      m.passages = sf.maze.passages ∧ (∀ p q, m.passage p q ↔ sf.maze.passage p q) :=
  ⟨by decide, by decide,
    generate_entry_exit_frame 3 2 (fun k => 5 * k + 1) (by decide) (by decide)⟩

/-- Claim C17. Stack invariant: for every grid `w, h ≥ 1` and every random
stream, before every iteration of the loop of `generate` (and when it has
ended) the stack holds pairwise distinct in-bounds visited cells, consecutive
stack entries are adjacent cells joined by an open passage, and the stack depth
is at most `w * h`. -/
theorem generate_stack_invariant (w h : Nat) (rand : Nat → Nat) (hw : 1 ≤ w) (hh : 1 ≤ h) :
    ∃ s0, genInit (Maze.new w h) rand = .ok s0 ∧
      ∀ n, ∃ sn, iterate rand n s0 = .ok sn ∧ sn.maze.width_ = w ∧ sn.maze.height_ = h ∧
        sn.stack.Nodup ∧
        (∀ p ∈ sn.stack, sn.maze.inGrid p ∧ (sn.maze.maze_ p.2 p.1).visited = true) ∧
        List.Chain' sn.maze.passage sn.stack ∧
        sn.stack.length ≤ w * h := by
  obtain ⟨sx, sy, sf, hsx, hsy, hinit, hinv, hk, _⟩ := generate_run w h rand hw hh
  refine ⟨_, hinit, fun n => ?_⟩
  obtain ⟨sn, j1, j2, j3, j4, j5, _⟩ := iterate_spec rand n _ hinv hk
  have j4b : sn.maze.width_ = w := j4
  have j5b : sn.maze.height_ = h := j5
  refine ⟨sn, j1, j4b, j5b, j3.nodup, j2.stack_ok, j3.chain, ?_⟩
  have hsub : sn.stack.toFinset ⊆ Finset.range w ×ˢ Finset.range h := by
    intro p hp
    rw [List.mem_toFinset] at hp
    have := (j2.stack_ok p hp).1
    simp only [Finset.mem_product, Finset.mem_range]
    rw [← j4b, ← j5b]
    exact this
  have := Finset.card_le_card hsub
  rwa [List.toFinset_card_of_nodup j3.nodup, Finset.card_product, Finset.card_range,
    Finset.card_range] at this

theorem generate_stack_invariant_witness :
    1 ≤ 3 ∧ 1 ≤ 2 ∧
    ∃ s0, genInit (Maze.new 3 2) (fun k => 5 * k + 1) = .ok s0 ∧
      ∀ n, ∃ sn, iterate (fun k => 5 * k + 1) n s0 = .ok sn ∧ sn.maze.width_ = 3 ∧
        sn.maze.height_ = 2 ∧ sn.stack.Nodup ∧
        (∀ p ∈ sn.stack, sn.maze.inGrid p ∧ (sn.maze.maze_ p.2 p.1).visited = true) ∧
        List.Chain' sn.maze.passage sn.stack ∧
        sn.stack.length ≤ 3 * 2 :=
  ⟨by decide, by decide,
    generate_stack_invariant 3 2 (fun k => 5 * k + 1) (by decide) (by decide)⟩

/-! ## Rendering: bars, bands and the valid canvas -/

/-- The stores of a cell are the stores of its closed walls, top, right, bottom, left. -/
theorem cellWrites_eq (m : Maze) (W H : Int) (x y : Nat) :
    cellWrites m W H x y
      = (if (m.maze_ y x).walls 0 then wallStores m W H x y 0 else [])
        ++ (if (m.maze_ y x).walls 1 then wallStores m W H x y 1 else [])
        ++ (if (m.maze_ y x).walls 2 then wallStores m W H x y 2 else [])
        ++ (if (m.maze_ y x).walls 3 then wallStores m W H x y 3 else []) := rfl

theorem geometry_with (m : Maze) (W H : Int) :
    cell_width_px m W = cellSizeWith shrink_pixels W m.width_ ∧
    cell_height_px m H = cellSizeWith shrink_pixels H m.height_ ∧
    wall_thickness m W H = thicknessWith (cell_width_px m W) (cell_height_px m H) :=
  ⟨rfl, rfl, rfl⟩

theorem inClosedWall_iff (m : Maze) (W H px py : Int) :
    m.inClosedWall W H px py ↔
      ∃ x y : Nat, x < m.width_ ∧ y < m.height_ ∧
        ∃ d, d < 4 ∧ (m.maze_ y x).walls d = true ∧ wallBand m W H x y d px py := by
  unfold Maze.inClosedWall
  constructor
  · rintro ⟨x, y, hx, hy, h⟩
    refine ⟨x, y, hx, hy, ?_⟩
    rcases h with ⟨k, r⟩ | ⟨k, r⟩ | ⟨k, r⟩ | ⟨k, r⟩
    · exact ⟨0, by omega, k, r⟩
    · exact ⟨1, by omega, k, r⟩
    · exact ⟨2, by omega, k, r⟩
    · exact ⟨3, by omega, k, r⟩
  · rintro ⟨x, y, hx, hy, d, hd, k, r⟩
    refine ⟨x, y, hx, hy, ?_⟩
    interval_cases d
    · exact Or.inl ⟨k, r⟩
    · exact Or.inr (Or.inl ⟨k, r⟩)
    · exact Or.inr (Or.inr (Or.inl ⟨k, r⟩))
    · exact Or.inr (Or.inr (Or.inr ⟨k, r⟩))

/-- Multiples of a non-negative cell size along the grid. -/
theorem mul_cell_mono (c : Int) (a b : Nat) (hc : 0 ≤ c) (hab : a ≤ b) :
    0 ≤ (a : Int) * c ∧ (a : Int) * c ≤ (b : Int) * c :=
  ⟨mul_nonneg (by omega) hc, mul_le_mul_of_nonneg_right (by exact_mod_cast hab) hc⟩

/-- A band lies inside the pixel rectangle of its cell. -/
theorem wallBand_in_cell (m : Maze) (W H : Int) (x y d : Nat) (px py : Int) (hd : d < 4)
    (t2 : specThickness m W H ≤ specCellWidth m W)
    (t3 : specThickness m W H ≤ specCellHeight m H) (hb : wallBand m W H x y d px py) :
    x * specCellWidth m W + 25 ≤ px ∧ px < x * specCellWidth m W + 25 + specCellWidth m W ∧
    y * specCellHeight m H + 25 ≤ py ∧ py < y * specCellHeight m H + 25 + specCellHeight m H := by
  interval_cases d <;> simp only [wallBand, inRect] at hb <;> omega

/-- The pixel rectangles of two different columns (or rows) of cells share no coordinate. -/
theorem cell_index_unique (c p : Int) (a b : Nat) (hc : 1 ≤ c)
    (ha : (a : Int) * c + 25 ≤ p ∧ p < (a : Int) * c + 25 + c)
    (hb : (b : Int) * c + 25 ≤ p ∧ p < (b : Int) * c + 25 + c) : a = b := by
  by_contra hne
  rcases Nat.lt_or_gt_of_ne hne with h | h
  · have := (mul_cell_mono c (a + 1) b (by omega) h).2
    push_cast at this
    have e : ((a : Int) + 1) * c = a * c + c := by ring
    omega
  · have := (mul_cell_mono c (b + 1) a (by omega) h).2
    push_cast at this
    have e : ((b : Int) + 1) * c = b * c + c := by ring
    omega

/-- On a valid canvas whose pixel count fits `int` the drawing loops complete
and the buffer follows the drawing rule. -/
theorem renderPixels_valid (m : Maze) (W H : Int) (hw : 1 ≤ m.width_)
    (hh : 1 ≤ m.height_) (hW : 50 + (m.width_ : Int) ≤ W) (hH : 50 + (m.height_ : Int) ≤ H)
    (hprod : W * H ≤ INT_MAX) :
    ∃ pixel_data, renderPixels m W H = .ok pixel_data ∧
      saveToPgm m true W H = .ok (pgmHeader W H ++ pixel_data) ∧
      pixel_data.length = (W * H).toNat ∧
      ∀ px py : Int, 0 ≤ px → px < W → 0 ≤ py → py < H →
        (pixel_data[(py * W + px).toNat]? = some 0 ↔ m.inClosedWall W H px py) ∧
        (¬ m.inClosedWall W H px py → pixel_data[(py * W + px).toNat]? = some 255) := by
  obtain ⟨pd, h1, h2, h3, _, h5⟩ := saveToPgm_ok m W H hw hh (by omega) (by omega) hprod
  refine ⟨pd, h1, h2, h3, fun px py a b c d => ?_⟩
  obtain ⟨hlt, hval⟩ := h5 px py a b c d
  have hrule := writes_iff_inClosedWall m W H hw hh hW hH px py b d
  rw [List.getD_eq_getElem _ _ hlt] at hval
  rw [List.getElem?_eq_getElem hlt, hval]
  constructor
  · constructor
    · intro h
      by_contra hc
      rw [if_neg (fun hx => hc (hrule.1 hx))] at h
      simp at h
    · intro h
      rw [if_pos (hrule.2 h)]
  · intro h
    rw [if_neg (fun hx => h (hrule.1 hx))]

/-- On a valid canvas every cell rectangle lies inside the centred drawing area. -/
theorem cell_in_canvas (m : Maze) (W H : Int) (hw : 1 ≤ m.width_) (hh : 1 ≤ m.height_)
    (hW : 50 + (m.width_ : Int) ≤ W) (hH : 50 + (m.height_ : Int) ≤ H) (x y : Nat)
    (hx : x < m.width_) (hy : y < m.height_) :
    25 ≤ x * specCellWidth m W + 25 ∧
    x * specCellWidth m W + 25 + specCellWidth m W ≤ 25 + m.width_ * specCellWidth m W ∧
    25 + (m.width_ : Int) * specCellWidth m W ≤ W - 25 ∧
    25 ≤ y * specCellHeight m H + 25 ∧
    y * specCellHeight m H + 25 + specCellHeight m H ≤ 25 + m.height_ * specCellHeight m H ∧
    25 + (m.height_ : Int) * specCellHeight m H ≤ H - 25 := by
  obtain ⟨_, _, _, c1, c2, d1, d2, _, _, _⟩ := geometry_valid m W H hw hh hW hH
  have a1 := mul_cell_mono (specCellWidth m W) x (x + 1) (by omega) (by omega)
  have a2 := mul_cell_mono (specCellWidth m W) (x + 1) m.width_ (by omega) hx
  have b1 := mul_cell_mono (specCellHeight m H) y (y + 1) (by omega) (by omega)
  have b2 := mul_cell_mono (specCellHeight m H) (y + 1) m.height_ (by omega) hy
  have ex : ((x + 1 : Nat) : Int) * specCellWidth m W
      = x * specCellWidth m W + specCellWidth m W := by push_cast; ring
  have ey : ((y + 1 : Nat) : Int) * specCellHeight m H
      = y * specCellHeight m H + specCellHeight m H := by push_cast; ring
  rw [ex] at a1 a2
  rw [ey] at b1 b2
  refine ⟨?_, ?_, ?_, ?_, ?_, ?_⟩ <;> omega

/-- On a valid canvas the stores of the loops of wall `d` of a cell are the pixels of its band. -/
theorem mem_wallStores (m : Maze) (W H : Int) (hw : 1 ≤ m.width_) (hh : 1 ≤ m.height_)
    (hW : 50 + (m.width_ : Int) ≤ W) (hH : 50 + (m.height_ : Int) ≤ H) (x y d : Nat)
    (hx : x < m.width_) (hy : y < m.height_) (hd : d < 4) (px py : Int) :
    ({ row := py, col := px } : PixelWrite) ∈ wallStores m W H x y d ↔
      wallBand m W H x y d px py := by
  obtain ⟨e1, e2, e3, c1, c2, d1, d2, t1, t2, t3⟩ := geometry_valid m W H hw hh hW hH
  obtain ⟨g1, g2, g3, g4, g5, g6⟩ := cell_in_canvas m W H hw hh hW hH x y hx hy
  generalize hsx : (x : Int) * specCellWidth m W = sx at *
  generalize hsy : (y : Int) * specCellHeight m H = sy at *
  generalize hmw : (m.width_ : Int) * specCellWidth m W = mw at *
  generalize hmh : (m.height_ : Int) * specCellHeight m H = mh at *
  interval_cases d <;>
    simp only [wallStores, wallBand, inRect, mem_barWrites, e1, e2, e3, x_offset_eq, y_offset_eq,
      hsx, hsy, PixelWrite.mk.injEq]
  · constructor
    · rintro ⟨i, t, hi, ht, _, _, rfl, rfl⟩
      omega
    · rintro ⟨r1, r2, r3, r4⟩
      refine ⟨(px - sx - 25).toNat, (py - sy - 25).toNat, ?_, ?_, ?_, ?_, ?_, ?_⟩ <;> omega
  · constructor
    · rintro ⟨i, t, hi, ht, _, _, rfl, rfl⟩
      omega
    · rintro ⟨r1, r2, r3, r4⟩
      refine ⟨(py - sy - 25).toNat, (sx + 25 + specCellWidth m W - 1 - px).toNat,
        ?_, ?_, ?_, ?_, ?_, ?_⟩ <;> omega
  · constructor
    · rintro ⟨i, t, hi, ht, _, _, rfl, rfl⟩
      omega
    · rintro ⟨r1, r2, r3, r4⟩
      refine ⟨(px - sx - 25).toNat, (sy + 25 + specCellHeight m H - 1 - py).toNat,
        ?_, ?_, ?_, ?_, ?_, ?_⟩ <;> omega
  · constructor
    · rintro ⟨i, t, hi, ht, _, _, rfl, rfl⟩
      omega
    · rintro ⟨r1, r2, r3, r4⟩
      refine ⟨(py - sy - 25).toNat, (px - sx - 25).toNat, ?_, ?_, ?_, ?_, ?_, ?_⟩ <;> omega

/-! ## Claims on the geometry and the bars of `saveToPgm` -/

/-- Claim C12 as stated fails on the code: the margin is not an input of
`saveToPgm` but the constant `shrink_pixels = 50`, so on a `2 x 2` grid and a
`100 x 100` canvas the code computes a drawable area of 50 x 50, cells of
25 x 25 pixels and `wall_thickness = 5`, not 80 x 80, 40 and 8. -/
theorem saveToPgm_geometry_100 :
    shrink_pixels = 50 ∧
    maze_render_width 100 = 50 ∧ maze_render_height 100 = 50 ∧
    cell_width_px (Maze.new 2 2) 100 = 25 ∧ cell_height_px (Maze.new 2 2) 100 = 25 ∧
    wall_thickness (Maze.new 2 2) 100 100 = 5 ∧
    maze_render_width 100 ≠ 80 ∧ cell_width_px (Maze.new 2 2) 100 ≠ 40 ∧
    wall_thickness (Maze.new 2 2) 100 100 ≠ 8 := by
  decide

/-- Claim C12, amended. Geometry example: the geometry of `saveToPgm` is the
derivation drawable = canvas dimension - margin, cell size = drawable / grid
dimension in `int` division, `wall_thickness = max(1, min(cell_width_px,
cell_height_px) / 5)` at the fixed margin `shrink_pixels = 50`; on a `2 x 2`
grid and a `100 x 100` canvas the code gives drawable area 50 x 50,
`cell_width_px = cell_height_px = 25` and `wall_thickness = 5`, and the same
derivation taken at margin 20 gives 80, 40 and 8. -/
theorem saveToPgm_geometry_example :
    (∀ (m : Maze) (W H : Int),
      maze_render_width W = W - shrink_pixels ∧ maze_render_height H = H - shrink_pixels ∧
      cell_width_px m W = cellSizeWith shrink_pixels W m.width_ ∧
      cell_height_px m H = cellSizeWith shrink_pixels H m.height_ ∧
      cell_width_px m W = Int.tdiv (maze_render_width W) m.width_ ∧
      cell_height_px m H = Int.tdiv (maze_render_height H) m.height_ ∧
      wall_thickness m W H = thicknessWith (cell_width_px m W) (cell_height_px m H)) ∧
    shrink_pixels = 50 ∧ x_offset = 25 ∧ y_offset = 25 ∧
    maze_render_width 100 = 50 ∧ maze_render_height 100 = 50 ∧
    cell_width_px (Maze.new 2 2) 100 = 25 ∧ cell_height_px (Maze.new 2 2) 100 = 25 ∧
    wall_thickness (Maze.new 2 2) 100 100 = 5 ∧
    (100 : Int) - 20 = 80 ∧
    cellSizeWith 20 100 (Maze.new 2 2).width_ = 40 ∧
    cellSizeWith 20 100 (Maze.new 2 2).height_ = 40 ∧
    thicknessWith 40 40 = 8 :=
  ⟨fun _ _ _ => ⟨rfl, rfl, rfl, rfl, rfl, rfl, rfl⟩, by decide, by decide, by decide,
    by decide, by decide, by decide, by decide, by decide, by decide, by decide, by decide,
    by decide⟩

/-- Claim C18 as stated fails: on the `1 x 1` grid the canvas 65536 x 65536 is
valid (`image_width ≥ 50 + w`, `image_height ≥ 50 + h`), but its pixel count
`2^32` exceeds `INT_MAX`: the `int` product of line 105 overflows, the behaviour
is undefined, and `saveToPgm` builds no buffer with white margins. -/
theorem saveToPgm_margins_overflow :
    1 ≤ (Maze.new 1 1).width_ ∧ 1 ≤ (Maze.new 1 1).height_ ∧
    50 + ((Maze.new 1 1).width_ : Int) ≤ 65536 ∧ 50 + ((Maze.new 1 1).height_ : Int) ≤ 65536 ∧
    (65536 : Int) * 65536 = 4294967296 ∧ INT_MAX < (65536 : Int) * 65536 ∧
    renderPixels (Maze.new 1 1) 65536 65536 = .error Fault.intOverflow ∧
    saveToPgm (Maze.new 1 1) true 65536 65536 = .error Fault.intOverflow := by
  decide

/-- Claim C18, amended. Margins stay white: for every grid with `w, h ≥ 1` and
any wall flags and every canvas with `image_width ≥ 50 + w`,
`image_height ≥ 50 + h` and `image_width * image_height ≤ INT_MAX`,
`saveToPgm` completes; with `cw = (image_width - 50) / w` and
`ch = (image_height - 50) / h` (the cell sizes the code computes) the rectangle
of columns `[25, 25 + w*cw)` and rows `[25, 25 + h*ch)` lies inside
`[25, image_width - 25) x [25, image_height - 25)`, every black pixel lies in
it, and every pixel outside it is 255. -/
theorem saveToPgm_margins_white (m : Maze) (W H : Int) (hw : 1 ≤ m.width_)
    (hh : 1 ≤ m.height_) (hW : 50 + (m.width_ : Int) ≤ W) (hH : 50 + (m.height_ : Int) ≤ H)
    (hprod : W * H ≤ INT_MAX) :
    ∃ pixel_data, renderPixels m W H = .ok pixel_data ∧
      saveToPgm m true W H = .ok (pgmHeader W H ++ pixel_data) ∧
      cell_width_px m W = (W - 50) / (m.width_ : Int) ∧
      cell_height_px m H = (H - 50) / (m.height_ : Int) ∧
      25 + (m.width_ : Int) * cell_width_px m W ≤ W - 25 ∧
      25 + (m.height_ : Int) * cell_height_px m H ≤ H - 25 ∧
      ∀ px py : Int, 0 ≤ px → px < W → 0 ≤ py → py < H →
        (pixel_data[(py * W + px).toNat]? = some 0 →
          25 ≤ px ∧ px < 25 + (m.width_ : Int) * cell_width_px m W ∧
          25 ≤ py ∧ py < 25 + (m.height_ : Int) * cell_height_px m H) ∧
        (¬ (25 ≤ px ∧ px < 25 + (m.width_ : Int) * cell_width_px m W ∧
            25 ≤ py ∧ py < 25 + (m.height_ : Int) * cell_height_px m H) →
          pixel_data[(py * W + px).toNat]? = some 255) := by
  obtain ⟨pd, h1, h2, _, h4⟩ := renderPixels_valid m W H hw hh hW hH hprod
  obtain ⟨e1, e2, e3, c1, c2, d1, d2, t1, t2, t3⟩ := geometry_valid m W H hw hh hW hH
  have key : ∀ px py : Int, m.inClosedWall W H px py →
      25 ≤ px ∧ px < 25 + (m.width_ : Int) * cell_width_px m W ∧
      25 ≤ py ∧ py < 25 + (m.height_ : Int) * cell_height_px m H := by
    intro px py hin
    obtain ⟨x, y, hx, hy, d, hd, _, hb⟩ := (inClosedWall_iff m W H px py).1 hin
    obtain ⟨b1, b2, b3, b4⟩ := wallBand_in_cell m W H x y d px py hd t2 t3 hb
    obtain ⟨g1, g2, _, g4, g5, _⟩ := cell_in_canvas m W H hw hh hW hH x y hx hy
    rw [e1, e2]
    refine ⟨?_, ?_, ?_, ?_⟩ <;> omega
  refine ⟨pd, h1, h2, e1, e2, by rw [e1]; omega, by rw [e2]; omega, fun px py a b c d => ?_⟩
  obtain ⟨k1, k2⟩ := h4 px py a b c d
  exact ⟨fun h => key px py (k1.1 h), fun h => k2 (fun hin => h (key px py hin))⟩

theorem saveToPgm_margins_white_witness :
    1 ≤ (Maze.new 2 3).width_ ∧ 1 ≤ (Maze.new 2 3).height_ ∧
    50 + ((Maze.new 2 3).width_ : Int) ≤ 70 ∧ 50 + ((Maze.new 2 3).height_ : Int) ≤ 80 ∧
    (70 : Int) * 80 ≤ INT_MAX ∧
    ∃ pixel_data, renderPixels (Maze.new 2 3) 70 80 = .ok pixel_data ∧
      saveToPgm (Maze.new 2 3) true 70 80 = .ok (pgmHeader 70 80 ++ pixel_data) ∧
      cell_width_px (Maze.new 2 3) 70 = (70 - 50) / ((Maze.new 2 3).width_ : Int) ∧
      cell_height_px (Maze.new 2 3) 80 = (80 - 50) / ((Maze.new 2 3).height_ : Int) ∧
      25 + ((Maze.new 2 3).width_ : Int) * cell_width_px (Maze.new 2 3) 70 ≤ 70 - 25 ∧
      25 + ((Maze.new 2 3).height_ : Int) * cell_height_px (Maze.new 2 3) 80 ≤ 80 - 25 ∧
      ∀ px py : Int, 0 ≤ px → px < 70 → 0 ≤ py → py < 80 →
        (pixel_data[(py * 70 + px).toNat]? = some 0 →
          25 ≤ px ∧ px < 25 + ((Maze.new 2 3).width_ : Int) * cell_width_px (Maze.new 2 3) 70 ∧
          25 ≤ py ∧
          py < 25 + ((Maze.new 2 3).height_ : Int) * cell_height_px (Maze.new 2 3) 80) ∧
        (¬ (25 ≤ px ∧
            px < 25 + ((Maze.new 2 3).width_ : Int) * cell_width_px (Maze.new 2 3) 70 ∧
            25 ≤ py ∧
            py < 25 + ((Maze.new 2 3).height_ : Int) * cell_height_px (Maze.new 2 3) 80) →
          pixel_data[(py * 70 + px).toNat]? = some 255) :=
  ⟨by decide, by decide, by decide, by decide, by decide,
    saveToPgm_margins_white (Maze.new 2 3) 70 80 (by decide) (by decide) (by decide)
      (by decide) (by decide)⟩

/-- Claim C19 as stated fails: after `generate` on the `1 x 1` grid the right
wall of cell `(0, 0)` is open and the top wall is closed; on the valid canvas
60 x 60 (cell size 10, `wall_thickness` 2) the pixel `(33, 25)` lies in the band
of the open right wall, columns `[33, 35)` and rows `[25, 35)`, and
`saveToPgm` sets it to 0, because the bar of the closed top wall covers
columns `[25, 35)` and rows `[25, 27)`. On the valid canvas 46341 x 46341 the
`int` product of line 105 overflows and no canvas is built for the same grid. -/
theorem saveToPgm_open_band_black :
    ∃ m pixel_data, generate (Maze.new 1 1) (fun _ => 0) = .ok m ∧
      renderPixels m 60 60 = .ok pixel_data ∧ m.width_ = 1 ∧ m.height_ = 1 ∧
      50 + (m.width_ : Int) ≤ 60 ∧ 50 + (m.height_ : Int) ≤ 60 ∧
      cell_width_px m 60 = 10 ∧ cell_height_px m 60 = 10 ∧ wall_thickness m 60 60 = 2 ∧
      (m.maze_ 0 0).walls 1 = false ∧ (m.maze_ 0 0).walls 0 = true ∧
      wallBand m 60 60 0 0 1 33 25 ∧
      pixel_data[((25 : Int) * 60 + 33).toNat]? = some 0 ∧
      50 + (m.width_ : Int) ≤ 46341 ∧ 50 + (m.height_ : Int) ≤ 46341 ∧
      saveToPgm m true 46341 46341 = .error Fault.intOverflow := by
  have hg : (generate (Maze.new 1 1) (fun _ => 0)).map
      (fun m => (m.width_, m.height_, (m.maze_ 0 0).walls 0, (m.maze_ 0 0).walls 1))
      = .ok (1, 1, true, false) := by decide
  cases hgen : generate (Maze.new 1 1) (fun _ => 0) with
  | error e => rw [hgen] at hg; exact absurd hg (by simp [Except.map])
  | ok m =>
    rw [hgen] at hg
    simp only [Except.map, Except.ok.injEq, Prod.mk.injEq] at hg
    obtain ⟨hwid, hhei, htop, hright⟩ := hg
    have hw : 1 ≤ m.width_ := by omega
    have hh : 1 ≤ m.height_ := by omega
    have hW : 50 + (m.width_ : Int) ≤ 60 := by omega
    have hH : 50 + (m.height_ : Int) ≤ 60 := by omega
    obtain ⟨pd, h1, _, _, h4⟩ := renderPixels_valid m 60 60 hw hh hW hH (by decide)
    obtain ⟨e1, e2, e3, _⟩ := geometry_valid m 60 60 hw hh hW hH
    have cw : specCellWidth m 60 = 10 := by
      unfold specCellWidth
      rw [hwid]
      decide
    have ch : specCellHeight m 60 = 10 := by
      unfold specCellHeight
      rw [hhei]
      decide
    have th : specThickness m 60 60 = 2 := by
      unfold specThickness
      rw [cw, ch]
      decide
    have hband : wallBand m 60 60 0 0 1 33 25 := by
      simp only [wallBand, inRect, cw, ch, th]
      decide
    have htopband : wallBand m 60 60 0 0 0 33 25 := by
      simp only [wallBand, inRect, cw, ch, th]
      decide
    have hin : m.inClosedWall 60 60 33 25 :=
      (inClosedWall_iff m 60 60 33 25).2
        ⟨0, 0, by omega, by omega, 0, by omega, htop, htopband⟩
    refine ⟨m, pd, rfl, h1, hwid, hhei, hW, hH, by rw [e1, cw], by rw [e2, ch],
      by rw [e3, th], hright, htop, hband, ?_, by omega, by omega,
      (renderPixels_overflow m 46341 46341 (by decide)).2⟩
    exact (h4 33 25 (by decide) (by decide) (by decide) (by decide)).1.2 hin

/-- Claim C19, amended. Open walls and their band: for every grid with
`w, h ≥ 1` (a generated grid in particular) and valid canvas dimensions
(`image_width ≥ 50 + w`, `image_height ≥ 50 + h`) with
`image_width * image_height ≤ INT_MAX`, for every cell and every one
of its four walls whose flag is open, every pixel of that wall's band lies in
the canvas, is 0 exactly when it also lies in the band of a closed wall of the
same cell (the two end squares of the band, where it meets the perpendicular
walls), and is 255 otherwise; the band is white throughout when all four walls
of the cell are open. -/
theorem saveToPgm_open_wall_band (m : Maze) (W H : Int) (hw : 1 ≤ m.width_)
    (hh : 1 ≤ m.height_) (hW : 50 + (m.width_ : Int) ≤ W) (hH : 50 + (m.height_ : Int) ≤ H)
    (hprod : W * H ≤ INT_MAX) (x y d : Nat) (hx : x < m.width_) (hy : y < m.height_) (hd : d < 4)
    (hopen : (m.maze_ y x).walls d = false) :
    ∃ pixel_data, renderPixels m W H = .ok pixel_data ∧
      saveToPgm m true W H = .ok (pgmHeader W H ++ pixel_data) ∧
      ∀ px py : Int, wallBand m W H x y d px py →
        (0 ≤ px ∧ px < W ∧ 0 ≤ py ∧ py < H) ∧
        (pixel_data[(py * W + px).toNat]? = some 0 ↔
          ∃ e, e < 4 ∧ e ≠ d ∧ (m.maze_ y x).walls e = true ∧ wallBand m W H x y e px py) ∧
        ((¬ ∃ e, e < 4 ∧ e ≠ d ∧ (m.maze_ y x).walls e = true ∧ wallBand m W H x y e px py) →
          pixel_data[(py * W + px).toNat]? = some 255) ∧
        ((∀ e, e < 4 → (m.maze_ y x).walls e = false) →
          pixel_data[(py * W + px).toNat]? = some 255) := by
  obtain ⟨pd, h1, h2, _, h4⟩ := renderPixels_valid m W H hw hh hW hH hprod
  obtain ⟨e1, e2, e3, c1, c2, d1, d2, t1, t2, t3⟩ := geometry_valid m W H hw hh hW hH
  refine ⟨pd, h1, h2, fun px py hb => ?_⟩
  obtain ⟨b1, b2, b3, b4⟩ := wallBand_in_cell m W H x y d px py hd t2 t3 hb
  obtain ⟨g1, g2, g3, g4, g5, g6⟩ := cell_in_canvas m W H hw hh hW hH x y hx hy
  have r1 : 0 ≤ px := by omega
  have r2 : px < W := by omega
  have r3 : 0 ≤ py := by omega
  have r4 : py < H := by omega
  obtain ⟨k1, k2⟩ := h4 px py r1 r2 r3 r4
  have key : m.inClosedWall W H px py ↔
      ∃ e, e < 4 ∧ e ≠ d ∧ (m.maze_ y x).walls e = true ∧ wallBand m W H x y e px py := by
    rw [inClosedWall_iff]
    constructor
    · rintro ⟨x2, y2, hx2, hy2, e, he, hcl, hbe⟩
      obtain ⟨q1, q2, q3, q4⟩ := wallBand_in_cell m W H x2 y2 e px py he t2 t3 hbe
      have ex : x2 = x := cell_index_unique (specCellWidth m W) px x2 x c1 ⟨q1, q2⟩ ⟨b1, b2⟩
      have ey : y2 = y := cell_index_unique (specCellHeight m H) py y2 y c2 ⟨q3, q4⟩ ⟨b3, b4⟩
      subst ex
      subst ey
      refine ⟨e, he, ?_, hcl, hbe⟩
      rintro rfl
      rw [hopen] at hcl
      exact Bool.noConfusion hcl
    · rintro ⟨e, he, _, hcl, hbe⟩
      exact ⟨x, y, hx, hy, e, he, hcl, hbe⟩
  refine ⟨⟨r1, r2, r3, r4⟩, k1.trans key, fun h => k2 (fun hin => h (key.1 hin)), fun hall => ?_⟩
  refine k2 (fun hin => ?_)
  obtain ⟨e, he, _, hcl, _⟩ := key.1 hin
  rw [hall e he] at hcl
  exact Bool.noConfusion hcl

theorem saveToPgm_open_wall_band_witness :
    1 ≤ (entryExit (Maze.new 1 1)).width_ ∧ 1 ≤ (entryExit (Maze.new 1 1)).height_ ∧
    50 + ((entryExit (Maze.new 1 1)).width_ : Int) ≤ 60 ∧
    50 + ((entryExit (Maze.new 1 1)).height_ : Int) ≤ 60 ∧
    (60 : Int) * 60 ≤ INT_MAX ∧
    0 < (entryExit (Maze.new 1 1)).width_ ∧ 0 < (entryExit (Maze.new 1 1)).height_ ∧
    1 < 4 ∧ ((entryExit (Maze.new 1 1)).maze_ 0 0).walls 1 = false ∧
    ∃ pixel_data, renderPixels (entryExit (Maze.new 1 1)) 60 60 = .ok pixel_data ∧
      saveToPgm (entryExit (Maze.new 1 1)) true 60 60 = .ok (pgmHeader 60 60 ++ pixel_data) ∧
      ∀ px py : Int, wallBand (entryExit (Maze.new 1 1)) 60 60 0 0 1 px py →
        (0 ≤ px ∧ px < 60 ∧ 0 ≤ py ∧ py < 60) ∧
        (pixel_data[(py * 60 + px).toNat]? = some 0 ↔
          ∃ e, e < 4 ∧ e ≠ 1 ∧ ((entryExit (Maze.new 1 1)).maze_ 0 0).walls e = true ∧
            wallBand (entryExit (Maze.new 1 1)) 60 60 0 0 e px py) ∧
        ((¬ ∃ e, e < 4 ∧ e ≠ 1 ∧ ((entryExit (Maze.new 1 1)).maze_ 0 0).walls e = true ∧
            wallBand (entryExit (Maze.new 1 1)) 60 60 0 0 e px py) →
          pixel_data[(py * 60 + px).toNat]? = some 255) ∧
        ((∀ e, e < 4 → ((entryExit (Maze.new 1 1)).maze_ 0 0).walls e = false) →
          pixel_data[(py * 60 + px).toNat]? = some 255) :=
  ⟨by decide, by decide, by decide, by decide, by decide, by decide, by decide, by decide,
    by decide,
    saveToPgm_open_wall_band (entryExit (Maze.new 1 1)) 60 60 (by decide) (by decide)
      (by decide) (by decide) (by decide) 0 0 1 (by decide) (by decide) (by decide)
      (by decide)⟩

/-- Claim C20 as stated fails: on the `2 x 1` grid, all walls closed, the
canvas 50000 x 50000 is valid, but its pixel count 2500000000 exceeds
`INT_MAX`: the `int` product of line 105 overflows, the behaviour is undefined,
and the closed wall shared by the two cells is drawn on no canvas. -/
theorem saveToPgm_shared_wall_overflow :
    1 ≤ (Maze.new 2 1).width_ ∧ 1 ≤ (Maze.new 2 1).height_ ∧
    50 + ((Maze.new 2 1).width_ : Int) ≤ 50000 ∧ 50 + ((Maze.new 2 1).height_ : Int) ≤ 50000 ∧
    ((Maze.new 2 1).maze_ 0 0).walls 1 = true ∧ ((Maze.new 2 1).maze_ 0 1).walls 3 = true ∧
    (50000 : Int) * 50000 = 2500000000 ∧ INT_MAX < (50000 : Int) * 50000 ∧
    renderPixels (Maze.new 2 1) 50000 50000 = .error Fault.intOverflow ∧
    saveToPgm (Maze.new 2 1) true 50000 50000 = .error Fault.intOverflow := by
  decide

/-- Claim C20, amended. Double draw of a shared wall: for valid canvas dimensions
(`image_width ≥ 50 + w`, `image_height ≥ 50 + h`) with
`image_width * image_height ≤ INT_MAX`, with `sx = x*cw + 25`,
`sy = y*ch + 25`, the stores of the right-wall loops of cell `(x, y)` are the
pixels of `[sx+cw-th, sx+cw) x [sy, sy+ch)` and those of the left-wall loops of
`(x+1, y)` the pixels of `[sx+cw, sx+cw+th) x [sy, sy+ch)`: two bars of the
same length `ch` and breadth `th` that share no pixel and together are the band
`[sx+cw-th, sx+cw+th) x [sy, sy+ch)` of breadth `2*th`, every pixel of which is
0 when both flags are closed; likewise for the bottom bar of `(x, y)` and the
top bar of `(x, y+1)`. -/
theorem saveToPgm_shared_wall (m : Maze) (W H : Int) (hw : 1 ≤ m.width_)
    (hh : 1 ≤ m.height_) (hW : 50 + (m.width_ : Int) ≤ W) (hH : 50 + (m.height_ : Int) ≤ H)
    (hprod : W * H ≤ INT_MAX) :
    ∃ pixel_data, renderPixels m W H = .ok pixel_data ∧
      saveToPgm m true W H = .ok (pgmHeader W H ++ pixel_data) ∧
      1 ≤ wall_thickness m W H ∧
      (∀ x y : Nat, x + 1 < m.width_ → y < m.height_ → ∀ px py : Int,
        (({ row := py, col := px } : PixelWrite) ∈ wallStores m W H x y 1 ↔
          inRect px py (x * cell_width_px m W + 25 + cell_width_px m W - wall_thickness m W H)
            (y * cell_height_px m H + 25) (wall_thickness m W H) (cell_height_px m H)) ∧
        (({ row := py, col := px } : PixelWrite) ∈ wallStores m W H (x + 1) y 3 ↔
          inRect px py (x * cell_width_px m W + 25 + cell_width_px m W)
            (y * cell_height_px m H + 25) (wall_thickness m W H) (cell_height_px m H)) ∧
        ¬ (({ row := py, col := px } : PixelWrite) ∈ wallStores m W H x y 1 ∧
          ({ row := py, col := px } : PixelWrite) ∈ wallStores m W H (x + 1) y 3) ∧
        ((({ row := py, col := px } : PixelWrite) ∈ wallStores m W H x y 1 ∨
            ({ row := py, col := px } : PixelWrite) ∈ wallStores m W H (x + 1) y 3) ↔
          inRect px py (x * cell_width_px m W + 25 + cell_width_px m W - wall_thickness m W H)
            (y * cell_height_px m H + 25) (2 * wall_thickness m W H) (cell_height_px m H)) ∧
        ((m.maze_ y x).walls 1 = true → (m.maze_ y (x + 1)).walls 3 = true →
          inRect px py (x * cell_width_px m W + 25 + cell_width_px m W - wall_thickness m W H)
            (y * cell_height_px m H + 25) (2 * wall_thickness m W H) (cell_height_px m H) →
          (0 ≤ px ∧ px < W ∧ 0 ≤ py ∧ py < H) ∧
          pixel_data[(py * W + px).toNat]? = some 0)) ∧
      (∀ x y : Nat, x < m.width_ → y + 1 < m.height_ → ∀ px py : Int,
        (({ row := py, col := px } : PixelWrite) ∈ wallStores m W H x y 2 ↔
          inRect px py (x * cell_width_px m W + 25)
            (y * cell_height_px m H + 25 + cell_height_px m H - wall_thickness m W H)
            (cell_width_px m W) (wall_thickness m W H)) ∧
        (({ row := py, col := px } : PixelWrite) ∈ wallStores m W H x (y + 1) 0 ↔
          inRect px py (x * cell_width_px m W + 25)
            (y * cell_height_px m H + 25 + cell_height_px m H)
            (cell_width_px m W) (wall_thickness m W H)) ∧
        ¬ (({ row := py, col := px } : PixelWrite) ∈ wallStores m W H x y 2 ∧
          ({ row := py, col := px } : PixelWrite) ∈ wallStores m W H x (y + 1) 0) ∧
        ((({ row := py, col := px } : PixelWrite) ∈ wallStores m W H x y 2 ∨
            ({ row := py, col := px } : PixelWrite) ∈ wallStores m W H x (y + 1) 0) ↔
          inRect px py (x * cell_width_px m W + 25)
            (y * cell_height_px m H + 25 + cell_height_px m H - wall_thickness m W H)
            (cell_width_px m W) (2 * wall_thickness m W H)) ∧
        ((m.maze_ y x).walls 2 = true → (m.maze_ (y + 1) x).walls 0 = true →
          inRect px py (x * cell_width_px m W + 25)
            (y * cell_height_px m H + 25 + cell_height_px m H - wall_thickness m W H)
            (cell_width_px m W) (2 * wall_thickness m W H) →
          (0 ≤ px ∧ px < W ∧ 0 ≤ py ∧ py < H) ∧
          pixel_data[(py * W + px).toNat]? = some 0)) := by
  obtain ⟨pd, h1, h2, _, h4⟩ := renderPixels_valid m W H hw hh hW hH hprod
  obtain ⟨e1, e2, e3, c1, c2, d1, d2, t1, t2, t3⟩ := geometry_valid m W H hw hh hW hH
  refine ⟨pd, h1, h2, by rw [e3]; exact t1, ?_, ?_⟩
  · intro x y hx hy px py
    have ha := mem_wallStores m W H hw hh hW hH x y 1 (by omega) hy (by omega) px py
    have hb := mem_wallStores m W H hw hh hW hH (x + 1) y 3 hx hy (by omega) px py
    obtain ⟨g1, g2, g3, g4, g5, g6⟩ := cell_in_canvas m W H hw hh hW hH x y (by omega) hy
    obtain ⟨f1, f2, f3, f4, f5, f6⟩ := cell_in_canvas m W H hw hh hW hH (x + 1) y hx hy
    have ex : ((x + 1 : Nat) : Int) * specCellWidth m W
        = x * specCellWidth m W + specCellWidth m W := by push_cast; ring
    rw [ex] at f1 f2
    simp only [wallBand] at ha hb
    rw [ex] at hb
    have hb2 : ({ row := py, col := px } : PixelWrite) ∈ wallStores m W H (x + 1) y 3 ↔
        inRect px py (x * specCellWidth m W + 25 + specCellWidth m W)
          (y * specCellHeight m H + 25) (specThickness m W H) (specCellHeight m H) := by
      rw [hb]
      unfold inRect
      constructor <;> intro h <;> omega
    rw [e1, e2, e3, ha, hb2]
    refine ⟨Iff.rfl, Iff.rfl, ?_, ?_, ?_⟩
    · unfold inRect
      omega
    · unfold inRect
      constructor <;> intro h <;> omega
    · intro w1 w3 hin
      have hr : 0 ≤ px ∧ px < W ∧ 0 ≤ py ∧ py < H := by
        unfold inRect at hin
        refine ⟨?_, ?_, ?_, ?_⟩ <;> omega
      refine ⟨hr, (h4 px py hr.1 hr.2.1 hr.2.2.1 hr.2.2.2).1.2 ?_⟩
      rw [inClosedWall_iff]
      by_cases hc : px < x * specCellWidth m W + 25 + specCellWidth m W
      · refine ⟨x, y, by omega, hy, 1, by omega, w1, ?_⟩
        simp only [wallBand]
        unfold inRect at hin ⊢
        omega
      · refine ⟨x + 1, y, hx, hy, 3, by omega, w3, ?_⟩
        simp only [wallBand]
        rw [ex]
        unfold inRect at hin ⊢
        omega
  · intro x y hx hy px py
    have ha := mem_wallStores m W H hw hh hW hH x y 2 hx (by omega) (by omega) px py
    have hb := mem_wallStores m W H hw hh hW hH x (y + 1) 0 hx hy (by omega) px py
    obtain ⟨g1, g2, g3, g4, g5, g6⟩ := cell_in_canvas m W H hw hh hW hH x y hx (by omega)
    obtain ⟨f1, f2, f3, f4, f5, f6⟩ := cell_in_canvas m W H hw hh hW hH x (y + 1) hx hy
    have ey : ((y + 1 : Nat) : Int) * specCellHeight m H
        = y * specCellHeight m H + specCellHeight m H := by push_cast; ring
    rw [ey] at f4 f5
    simp only [wallBand] at ha hb
    rw [ey] at hb
    have hb2 : ({ row := py, col := px } : PixelWrite) ∈ wallStores m W H x (y + 1) 0 ↔
        inRect px py (x * specCellWidth m W + 25)
          (y * specCellHeight m H + 25 + specCellHeight m H)
          (specCellWidth m W) (specThickness m W H) := by
      rw [hb]
      unfold inRect
      constructor <;> intro h <;> omega
    rw [e1, e2, e3, ha, hb2]
    refine ⟨Iff.rfl, Iff.rfl, ?_, ?_, ?_⟩
    · unfold inRect
      omega
    · unfold inRect
      constructor <;> intro h <;> omega
    · intro w2 w0 hin
      have hr : 0 ≤ px ∧ px < W ∧ 0 ≤ py ∧ py < H := by
        unfold inRect at hin
        refine ⟨?_, ?_, ?_, ?_⟩ <;> omega
      refine ⟨hr, (h4 px py hr.1 hr.2.1 hr.2.2.1 hr.2.2.2).1.2 ?_⟩
      rw [inClosedWall_iff]
      by_cases hc : py < y * specCellHeight m H + 25 + specCellHeight m H
      · refine ⟨x, y, hx, by omega, 2, by omega, w2, ?_⟩
        simp only [wallBand]
        unfold inRect at hin ⊢
        omega
      · refine ⟨x, y + 1, hx, hy, 0, by omega, w0, ?_⟩
        simp only [wallBand]
        rw [ey]
        unfold inRect at hin ⊢
        omega

theorem saveToPgm_shared_wall_witness :
    1 ≤ (Maze.new 2 2).width_ ∧ 1 ≤ (Maze.new 2 2).height_ ∧
    50 + ((Maze.new 2 2).width_ : Int) ≤ 70 ∧ 50 + ((Maze.new 2 2).height_ : Int) ≤ 80 ∧
    (70 : Int) * 80 ≤ INT_MAX ∧
    ∃ pixel_data, renderPixels (Maze.new 2 2) 70 80 = .ok pixel_data ∧
      cell_width_px (Maze.new 2 2) 70 = 10 ∧ cell_height_px (Maze.new 2 2) 80 = 15 ∧
      wall_thickness (Maze.new 2 2) 70 80 = 2 ∧
      (∀ px py : Int, 33 ≤ px → px < 37 → 25 ≤ py → py < 40 →
        pixel_data[(py * 70 + px).toNat]? = some 0) ∧
      (∀ px py : Int, 25 ≤ px → px < 35 → 38 ≤ py → py < 42 →
        pixel_data[(py * 70 + px).toNat]? = some 0) := by
  refine ⟨by decide, by decide, by decide, by decide, by decide, ?_⟩
  obtain ⟨pd, h1, _, _, hr, hb⟩ :=
    saveToPgm_shared_wall (Maze.new 2 2) 70 80 (by decide) (by decide) (by decide) (by decide)
      (by decide)
  have cw : cell_width_px (Maze.new 2 2) 70 = 10 := by decide
  have ch : cell_height_px (Maze.new 2 2) 80 = 15 := by decide
  have th : wall_thickness (Maze.new 2 2) 70 80 = 2 := by decide
  refine ⟨pd, h1, cw, ch, th, fun px py a b c d => ?_, fun px py a b c d => ?_⟩
  · refine ((hr 0 0 (by decide) (by decide) px py).2.2.2.2 (by decide) (by decide) ?_).2
    rw [cw, ch, th]
    unfold inRect
    omega
  · refine ((hb 0 0 (by decide) (by decide) px py).2.2.2.2 (by decide) (by decide) ?_).2
    rw [cw, ch, th]
    unfold inRect
    omega

/-! ## White regions: cell interiors, corridors and white paths -/

/-- A cell size of at least 3 pixels needs a valid canvas. -/
theorem valid_of_cell_size (n : Int) (d : Nat) (hd : 1 ≤ d) (h : 3 ≤ n.tdiv d) :
    (d : Int) ≤ n := by
  have hb := tdiv_mul_bounds n d (by exact_mod_cast hd)
  by_cases h0 : 0 ≤ n
  · obtain ⟨_, h2, _⟩ := hb.1 h0
    have h3 : 3 * (d : Int) ≤ n.tdiv d * d :=
      mul_le_mul_of_nonneg_right h (by omega)
    omega
  · have := (hb.2 (by omega)).1
    omega

/-- With cells of at least 3 x 3 pixels the walls leave a non-empty interior. -/
theorem thickness_interior (m : Maze) (W H : Int) (h1 : 3 ≤ specCellWidth m W)
    (h2 : 3 ≤ specCellHeight m H) :
    1 ≤ specThickness m W H ∧ 2 * specThickness m W H < specCellWidth m W ∧
      2 * specThickness m W H < specCellHeight m H := by
  unfold specThickness
  omega

/-- The samples of the rendered buffer: a pixel of the canvas is white exactly
when it lies in no rectangle of a closed wall. -/
theorem whiteAt_iff (m : Maze) (W H : Int) (pd : List Nat) (hw : 1 ≤ m.width_)
    (hh : 1 ≤ m.height_) (hW : 50 + (m.width_ : Int) ≤ W) (hH : 50 + (m.height_ : Int) ≤ H)
    (hr : renderPixels m W H = .ok pd) (p : Int × Int) :
    whiteAt pd W H p ↔
      (0 ≤ p.1 ∧ p.1 < W ∧ 0 ≤ p.2 ∧ p.2 < H) ∧ ¬ m.inClosedWall W H p.1 p.2 := by
  obtain ⟨pd2, h1, _, _, h4⟩ :=
    renderPixels_valid m W H hw hh hW hH (renderPixels_bound m W H pd hr)
  rw [hr] at h1
  cases h1
  unfold whiteAt
  constructor
  · rintro ⟨a, b, c, d, e⟩
    refine ⟨⟨a, b, c, d⟩, fun hin => ?_⟩
    have := (h4 p.1 p.2 a b c d).1.2 hin
    rw [this] at e
    exact absurd e (by decide)
  · rintro ⟨⟨a, b, c, d⟩, hn⟩
    exact ⟨a, b, c, d, (h4 p.1 p.2 a b c d).2 hn⟩

/-- Inside the pixel rectangle of a cell only the walls of that cell are drawn. -/
theorem inClosedWall_cell (m : Maze) (W H : Int) (hw : 1 ≤ m.width_) (hh : 1 ≤ m.height_)
    (hW : 50 + (m.width_ : Int) ≤ W) (hH : 50 + (m.height_ : Int) ≤ H) (x y : Nat)
    (hx : x < m.width_) (hy : y < m.height_) (p : Int × Int) (hp : inCell m W H x y p) :
    m.inClosedWall W H p.1 p.2 ↔
      ∃ e, e < 4 ∧ (m.maze_ y x).walls e = true ∧ wallBand m W H x y e p.1 p.2 := by
  obtain ⟨e1, e2, e3, c1, c2, d1, d2, t1, t2, t3⟩ := geometry_valid m W H hw hh hW hH
  obtain ⟨b1, b2, b3, b4⟩ := hp
  rw [inClosedWall_iff]
  constructor
  · rintro ⟨x2, y2, hx2, hy2, e, he, hcl, hbe⟩
    obtain ⟨q1, q2, q3, q4⟩ := wallBand_in_cell m W H x2 y2 e p.1 p.2 he t2 t3 hbe
    have ex : x2 = x := cell_index_unique (specCellWidth m W) p.1 x2 x c1 ⟨q1, q2⟩ ⟨b1, b2⟩
    have ey : y2 = y := cell_index_unique (specCellHeight m H) p.2 y2 y c2 ⟨q3, q4⟩ ⟨b3, b4⟩
    subst ex
    subst ey
    exact ⟨e, he, hcl, hbe⟩
  · rintro ⟨e, he, hcl, hbe⟩
    exact ⟨x, y, hx, hy, e, he, hcl, hbe⟩

/-- Every drawn pixel lies in the maze rectangle. -/
theorem inClosedWall_inMazeRect (m : Maze) (W H : Int) (hw : 1 ≤ m.width_) (hh : 1 ≤ m.height_)
    (hW : 50 + (m.width_ : Int) ≤ W) (hH : 50 + (m.height_ : Int) ≤ H) (p : Int × Int)
    (hin : m.inClosedWall W H p.1 p.2) : inMazeRect m W H p := by
  obtain ⟨e1, e2, e3, c1, c2, d1, d2, t1, t2, t3⟩ := geometry_valid m W H hw hh hW hH
  obtain ⟨x, y, hx, hy, d, hd, _, hb⟩ := (inClosedWall_iff m W H p.1 p.2).1 hin
  obtain ⟨b1, b2, b3, b4⟩ := wallBand_in_cell m W H x y d p.1 p.2 hd t2 t3 hb
  obtain ⟨g1, g2, _, g4, g5, _⟩ := cell_in_canvas m W H hw hh hW hH x y hx hy
  unfold inMazeRect inRect
  refine ⟨?_, ?_, ?_, ?_⟩ <;> omega

/-- The cell rectangles lie in the maze rectangle, which lies in the canvas. -/
theorem inCell_inMazeRect (m : Maze) (W H : Int) (hw : 1 ≤ m.width_) (hh : 1 ≤ m.height_)
    (hW : 50 + (m.width_ : Int) ≤ W) (hH : 50 + (m.height_ : Int) ≤ H) (x y : Nat)
    (hx : x < m.width_) (hy : y < m.height_) (p : Int × Int) (hp : inCell m W H x y p) :
    inMazeRect m W H p ∧ (0 ≤ p.1 ∧ p.1 < W ∧ 0 ≤ p.2 ∧ p.2 < H) := by
  obtain ⟨g1, g2, g3, g4, g5, g6⟩ := cell_in_canvas m W H hw hh hW hH x y hx hy
  obtain ⟨b1, b2, b3, b4⟩ := hp
  unfold inMazeRect inRect
  refine ⟨⟨?_, ?_, ?_, ?_⟩, ?_, ?_, ?_, ?_⟩ <;> omega

/-- Every pixel of the maze rectangle lies in the pixel rectangle of a cell. -/
theorem pixel_cell (m : Maze) (W H : Int) (c1 : 1 ≤ specCellWidth m W)
    (c2 : 1 ≤ specCellHeight m H) (p : Int × Int) (hp : inMazeRect m W H p) :
    ∃ x y : Nat, x < m.width_ ∧ y < m.height_ ∧ inCell m W H x y p := by
  obtain ⟨b1, b2, b3, b4⟩ := hp
  have key : ∀ (c q : Int) (n : Nat), 1 ≤ c → 25 ≤ q → q < 25 + n * c →
      ∃ k : Nat, k < n ∧ (k : Int) * c + 25 ≤ q ∧ q < (k : Int) * c + 25 + c := by
    intro c q n hc h1 h2
    have hpos : 0 < c := by omega
    have k1 := Int.ediv_mul_le (q - 25) (ne_of_gt hpos)
    have k2 := Int.lt_ediv_add_one_mul_self (q - 25) hpos
    have k0 : 0 ≤ (q - 25) / c := Int.ediv_nonneg (by omega) (by omega)
    have e : ((q - 25) / c + 1) * c = (q - 25) / c * c + c := by ring
    refine ⟨((q - 25) / c).toNat, ?_, ?_, ?_⟩
    · by_contra hc2
      have : (n : Int) ≤ (q - 25) / c := by omega
      have := mul_le_mul_of_nonneg_right this (le_of_lt hpos)
      omega
    · rw [Int.toNat_of_nonneg k0]
      omega
    · rw [Int.toNat_of_nonneg k0]
      omega
  obtain ⟨x, hx, x1, x2⟩ := key (specCellWidth m W) p.1 m.width_ c1 b1 b2
  obtain ⟨y, hy, y1, y2⟩ := key (specCellHeight m H) p.2 m.height_ c2 b3 b4
  exact ⟨x, y, hx, hy, x1, x2, y1, y2⟩

theorem pixelAdj_symm (p q : Int × Int) (h : pixelAdj p q) : pixelAdj q p := by
  unfold pixelAdj at h ⊢
  omega

theorem pixelJoined_symm (good : Int × Int → Prop) (p q : Int × Int)
    (h : pixelJoined good p q) : pixelJoined good q p := by
  unfold pixelJoined at h ⊢
  induction h with
  | refl => exact Relation.ReflTransGen.refl
  | tail _ hbc ih =>
    exact Relation.ReflTransGen.head ⟨pixelAdj_symm _ _ hbc.1, hbc.2.2, hbc.2.1⟩ ih

theorem pixelJoined_trans (good : Int × Int → Prop) (p q r : Int × Int)
    (h1 : pixelJoined good p q) (h2 : pixelJoined good q r) : pixelJoined good p r :=
  Relation.ReflTransGen.trans h1 h2

/-- A horizontal run of good pixels is joined. -/
theorem joined_right (good : Int × Int → Prop) (px py : Int) :
    ∀ n : Nat, (∀ i : Nat, i ≤ n → good (px + i, py)) →
      pixelJoined good (px, py) (px + n, py) := by
  intro n
  induction n with
  | zero =>
    intro _
    simp only [Nat.cast_zero, add_zero]
    exact Relation.ReflTransGen.refl
  | succ n ih =>
    intro h
    refine Relation.ReflTransGen.tail (ih (fun i hi => h i (by omega)))
      ⟨?_, h n (by omega), h (n + 1) (by omega)⟩
    unfold pixelAdj
    dsimp only
    push_cast
    omega

/-- A vertical run of good pixels is joined. -/
theorem joined_down (good : Int × Int → Prop) (px py : Int) :
    ∀ n : Nat, (∀ i : Nat, i ≤ n → good (px, py + i)) →
      pixelJoined good (px, py) (px, py + n) := by
  intro n
  induction n with
  | zero =>
    intro _
    simp only [Nat.cast_zero, add_zero]
    exact Relation.ReflTransGen.refl
  | succ n ih =>
    intro h
    refine Relation.ReflTransGen.tail (ih (fun i hi => h i (by omega)))
      ⟨?_, h n (by omega), h (n + 1) (by omega)⟩
    unfold pixelAdj
    dsimp only
    push_cast
    omega

/-- Two pixels of one row are joined when the pixels between them are good. -/
theorem joined_row (good : Int × Int → Prop) (ax bx py : Int)
    (h : ∀ q : Int, min ax bx ≤ q → q ≤ max ax bx → good (q, py)) :
    pixelJoined good (ax, py) (bx, py) := by
  rcases le_total ax bx with hle | hle
  · have := joined_right good ax py (bx - ax).toNat (fun i hi => h _ (by omega) (by omega))
    rwa [Int.toNat_of_nonneg (by omega), add_sub_cancel] at this
  · have := joined_right good bx py (ax - bx).toNat (fun i hi => h _ (by omega) (by omega))
    rw [Int.toNat_of_nonneg (by omega), add_sub_cancel] at this
    exact pixelJoined_symm _ _ _ this

/-- Two pixels of one column are joined when the pixels between them are good. -/
theorem joined_col (good : Int × Int → Prop) (px ay by2 : Int)
    (h : ∀ q : Int, min ay by2 ≤ q → q ≤ max ay by2 → good (px, q)) :
    pixelJoined good (px, ay) (px, by2) := by
  rcases le_total ay by2 with hle | hle
  · have := joined_down good px ay (by2 - ay).toNat (fun i hi => h _ (by omega) (by omega))
    rwa [Int.toNat_of_nonneg (by omega), add_sub_cancel] at this
  · have := joined_down good px by2 (ay - by2).toNat (fun i hi => h _ (by omega) (by omega))
    rw [Int.toNat_of_nonneg (by omega), add_sub_cancel] at this
    exact pixelJoined_symm _ _ _ this

/-- Any two pixels of a rectangle of good pixels are joined. -/
theorem joined_rect (good : Int × Int → Prop) (x0 y0 wd ht : Int)
    (h : ∀ p : Int × Int, inRect p.1 p.2 x0 y0 wd ht → good p) (a b : Int × Int)
    (ha : inRect a.1 a.2 x0 y0 wd ht) (hb : inRect b.1 b.2 x0 y0 wd ht) :
    pixelJoined good a b := by
  obtain ⟨a1, a2, a3, a4⟩ := ha
  obtain ⟨b1, b2, b3, b4⟩ := hb
  have r1 : pixelJoined good (a.1, a.2) (b.1, a.2) :=
    joined_row good a.1 b.1 a.2 (fun q h1 h2 => h (q, a.2) ⟨by
      simp only
      omega, by
      simp only
      omega, a3, a4⟩)
  have r2 : pixelJoined good (b.1, a.2) (b.1, b.2) :=
    joined_col good b.1 a.2 b.2 (fun q h1 h2 => h (b.1, q) ⟨b1, b2, by
      simp only
      omega, by
      simp only
      omega⟩)
  exact pixelJoined_trans _ _ _ _ r1 r2

/-- A pixel of a cell rectangle that lies in no band of a closed wall of the
cell is a white pixel of the maze rectangle. -/
theorem white_of_open (m : Maze) (W H : Int) (pd : List Nat) (hw : 1 ≤ m.width_)
    (hh : 1 ≤ m.height_) (hW : 50 + (m.width_ : Int) ≤ W) (hH : 50 + (m.height_ : Int) ≤ H)
    (hr : renderPixels m W H = .ok pd) (x y : Nat) (hx : x < m.width_) (hy : y < m.height_)
    (p : Int × Int) (hp : inCell m W H x y p)
    (hopen : ∀ e, e < 4 → (m.maze_ y x).walls e = true → ¬ wallBand m W H x y e p.1 p.2) :
    whiteInside m pd W H p := by
  obtain ⟨k1, k2⟩ := inCell_inMazeRect m W H hw hh hW hH x y hx hy p hp
  refine ⟨(whiteAt_iff m W H pd hw hh hW hH hr p).2 ⟨k2, fun hin => ?_⟩, k1⟩
  obtain ⟨e, he, hcl, hb⟩ := (inClosedWall_cell m W H hw hh hW hH x y hx hy p hp).1 hin
  exact hopen e he hcl hb

/-- The interior of every cell is white. -/
theorem interior_white (m : Maze) (W H : Int) (pd : List Nat) (hw : 1 ≤ m.width_)
    (hh : 1 ≤ m.height_) (hW : 50 + (m.width_ : Int) ≤ W) (hH : 50 + (m.height_ : Int) ≤ H)
    (hr : renderPixels m W H = .ok pd) (x y : Nat) (hx : x < m.width_) (hy : y < m.height_)
    (p : Int × Int) (hp : cellInterior m W H x y p) : whiteInside m pd W H p := by
  obtain ⟨e1, e2, e3, c1, c2, d1, d2, t1, t2, t3⟩ := geometry_valid m W H hw hh hW hH
  obtain ⟨b1, b2, b3, b4⟩ := hp
  refine white_of_open m W H pd hw hh hW hH hr x y hx hy p ?_ ?_
  · unfold inCell inRect
    refine ⟨?_, ?_, ?_, ?_⟩ <;> omega
  · intro e he _ hb
    interval_cases e <;> simp only [wallBand, inRect] at hb <;> omega

/-- The corridor through an open wall between horizontally adjacent cells,
columns `[sx+th, sx+2*cw-th)` and rows `[sy+th, sy+ch-th)`, is white. -/
theorem corridor_h_white (m : Maze) (W H : Int) (pd : List Nat) (hw : 1 ≤ m.width_)
    (hh : 1 ≤ m.height_) (hW : 50 + (m.width_ : Int) ≤ W) (hH : 50 + (m.height_ : Int) ≤ H)
    (hr : renderPixels m W H = .ok pd) (x y : Nat) (hx : x + 1 < m.width_) (hy : y < m.height_)
    (h1 : (m.maze_ y x).walls 1 = false) (h3 : (m.maze_ y (x + 1)).walls 3 = false)
    (p : Int × Int)
    (hp : inRect p.1 p.2 (x * specCellWidth m W + 25 + specThickness m W H)
      (y * specCellHeight m H + 25 + specThickness m W H)
      (2 * specCellWidth m W - 2 * specThickness m W H)
      (specCellHeight m H - 2 * specThickness m W H)) : whiteInside m pd W H p := by
  obtain ⟨e1, e2, e3, c1, c2, d1, d2, t1, t2, t3⟩ := geometry_valid m W H hw hh hW hH
  obtain ⟨b1, b2, b3, b4⟩ := hp
  have ex : ((x + 1 : Nat) : Int) * specCellWidth m W
      = x * specCellWidth m W + specCellWidth m W := by push_cast; ring
  by_cases hc : p.1 < x * specCellWidth m W + 25 + specCellWidth m W
  · refine white_of_open m W H pd hw hh hW hH hr x y (by omega) hy p ?_ ?_
    · unfold inCell inRect
      refine ⟨?_, ?_, ?_, ?_⟩ <;> omega
    · intro e he hcl hb
      interval_cases e
      · simp only [wallBand, inRect] at hb
        omega
      · rw [h1] at hcl
        exact Bool.noConfusion hcl
      · simp only [wallBand, inRect] at hb
        omega
      · simp only [wallBand, inRect] at hb
        omega
  · refine white_of_open m W H pd hw hh hW hH hr (x + 1) y hx hy p ?_ ?_
    · unfold inCell inRect
      rw [ex]
      refine ⟨?_, ?_, ?_, ?_⟩ <;> omega
    · intro e he hcl hb
      interval_cases e
      · simp only [wallBand, inRect] at hb
        omega
      · simp only [wallBand, inRect, ex] at hb
        omega
      · simp only [wallBand, inRect] at hb
        omega
      · rw [h3] at hcl
        exact Bool.noConfusion hcl

/-- The corridor through an open wall between vertically adjacent cells,
columns `[sx+th, sx+cw-th)` and rows `[sy+th, sy+2*ch-th)`, is white. -/
theorem corridor_v_white (m : Maze) (W H : Int) (pd : List Nat) (hw : 1 ≤ m.width_)
    (hh : 1 ≤ m.height_) (hW : 50 + (m.width_ : Int) ≤ W) (hH : 50 + (m.height_ : Int) ≤ H)
    (hr : renderPixels m W H = .ok pd) (x y : Nat) (hx : x < m.width_) (hy : y + 1 < m.height_)
    (h2 : (m.maze_ y x).walls 2 = false) (h0 : (m.maze_ (y + 1) x).walls 0 = false)
    (p : Int × Int)
    (hp : inRect p.1 p.2 (x * specCellWidth m W + 25 + specThickness m W H)
      (y * specCellHeight m H + 25 + specThickness m W H)
      (specCellWidth m W - 2 * specThickness m W H)
      (2 * specCellHeight m H - 2 * specThickness m W H)) : whiteInside m pd W H p := by
  obtain ⟨e1, e2, e3, c1, c2, d1, d2, t1, t2, t3⟩ := geometry_valid m W H hw hh hW hH
  obtain ⟨b1, b2, b3, b4⟩ := hp
  have ey : ((y + 1 : Nat) : Int) * specCellHeight m H
      = y * specCellHeight m H + specCellHeight m H := by push_cast; ring
  by_cases hc : p.2 < y * specCellHeight m H + 25 + specCellHeight m H
  · refine white_of_open m W H pd hw hh hW hH hr x y hx (by omega) p ?_ ?_
    · unfold inCell inRect
      refine ⟨?_, ?_, ?_, ?_⟩ <;> omega
    · intro e he hcl hb
      interval_cases e
      · simp only [wallBand, inRect] at hb
        omega
      · simp only [wallBand, inRect] at hb
        omega
      · rw [h2] at hcl
        exact Bool.noConfusion hcl
      · simp only [wallBand, inRect] at hb
        omega
  · refine white_of_open m W H pd hw hh hW hH hr x (y + 1) hx hy p ?_ ?_
    · unfold inCell inRect
      rw [ey]
      refine ⟨?_, ?_, ?_, ?_⟩ <;> omega
    · intro e he hcl hb
      interval_cases e
      · rw [h0] at hcl
        exact Bool.noConfusion hcl
      · simp only [wallBand, inRect] at hb
        omega
      · simp only [wallBand, inRect, ey] at hb
        omega
      · simp only [wallBand, inRect] at hb
        omega

/-- A white pixel of a cell lies in no band of a closed wall of the cell. -/
theorem open_of_white (m : Maze) (W H : Int) (pd : List Nat) (hw : 1 ≤ m.width_)
    (hh : 1 ≤ m.height_) (hW : 50 + (m.width_ : Int) ≤ W) (hH : 50 + (m.height_ : Int) ≤ H)
    (hr : renderPixels m W H = .ok pd) (x y : Nat) (hx : x < m.width_) (hy : y < m.height_)
    (p : Int × Int) (hp : inCell m W H x y p) (hwh : whiteAt pd W H p) (e : Nat) (he : e < 4)
    (hb : wallBand m W H x y e p.1 p.2) : (m.maze_ y x).walls e = false := by
  have hn := ((whiteAt_iff m W H pd hw hh hW hH hr p).1 hwh).2
  cases hcl : (m.maze_ y x).walls e with
  | false => rfl
  | true =>
    exact absurd ((inClosedWall_cell m W H hw hh hW hH x y hx hy p hp).2 ⟨e, he, hcl, hb⟩) hn

/-- Two white pixels side by side lie in one cell or in two cells joined by a passage. -/
theorem white_step_right (m : Maze) (W H : Int) (pd : List Nat) (hw : 1 ≤ m.width_)
    (hh : 1 ≤ m.height_) (hW : 50 + (m.width_ : Int) ≤ W) (hH : 50 + (m.height_ : Int) ≤ H)
    (hr : renderPixels m W H = .ok pd) (px py : Int) (c1 c2 : Nat × Nat)
    (h1 : m.inGrid c1) (h2 : m.inGrid c2)
    (hc1 : inCell m W H c1.1 c1.2 (px, py)) (hc2 : inCell m W H c2.1 c2.2 (px + 1, py))
    (hw1 : whiteAt pd W H (px, py)) (hw2 : whiteAt pd W H (px + 1, py)) :
    c1 = c2 ∨ m.passage c1 c2 := by
  obtain ⟨e1, e2, e3, g1, g2, d1, d2, t1, t2, t3⟩ := geometry_valid m W H hw hh hW hH
  obtain ⟨x1, y1⟩ := c1
  obtain ⟨x2, y2⟩ := c2
  obtain ⟨a1, a2, a3, a4⟩ := hc1
  obtain ⟨b1, b2, b3, b4⟩ := hc2
  simp only at a1 a2 a3 a4 b1 b2 b3 b4
  have ey : y1 = y2 :=
    cell_index_unique (specCellHeight m H) py y1 y2 g2 ⟨a3, a4⟩ ⟨b3, b4⟩
  subst ey
  by_cases hx : px + 1 < x1 * specCellWidth m W + 25 + specCellWidth m W
  · left
    have ex : x1 = x2 :=
      cell_index_unique (specCellWidth m W) (px + 1) x1 x2 g1 ⟨by omega, hx⟩ ⟨b1, b2⟩
    rw [ex]
  · right
    have ec : ((x1 + 1 : Nat) : Int) * specCellWidth m W
        = x1 * specCellWidth m W + specCellWidth m W := by push_cast; ring
    have ex : x1 + 1 = x2 :=
      cell_index_unique (specCellWidth m W) (px + 1) (x1 + 1) x2 g1
        ⟨by rw [ec]; omega, by rw [ec]; omega⟩ ⟨b1, b2⟩
    subst ex
    have f1 : (m.maze_ y1 x1).walls 1 = false :=
      open_of_white m W H pd hw hh hW hH hr x1 y1 h1.1 h1.2 (px, py) ⟨a1, a2, a3, a4⟩ hw1 1
        (by omega) (by simp only [wallBand, inRect]; omega)
    have f3 : (m.maze_ y1 (x1 + 1)).walls 3 = false :=
      open_of_white m W H pd hw hh hW hH hr (x1 + 1) y1 h2.1 h2.2 (px + 1, py)
        ⟨b1, b2, b3, b4⟩ hw2 3 (by omega) (by simp only [wallBand, inRect]; omega)
    exact ⟨h1, h2, 1, by omega, h2.1, rfl, f1, f3⟩

/-- Two white pixels one above the other lie in one cell or in two cells joined
by a passage. -/
theorem white_step_down (m : Maze) (W H : Int) (pd : List Nat) (hw : 1 ≤ m.width_)
    (hh : 1 ≤ m.height_) (hW : 50 + (m.width_ : Int) ≤ W) (hH : 50 + (m.height_ : Int) ≤ H)
    (hr : renderPixels m W H = .ok pd) (px py : Int) (c1 c2 : Nat × Nat)
    (h1 : m.inGrid c1) (h2 : m.inGrid c2)
    (hc1 : inCell m W H c1.1 c1.2 (px, py)) (hc2 : inCell m W H c2.1 c2.2 (px, py + 1))
    (hw1 : whiteAt pd W H (px, py)) (hw2 : whiteAt pd W H (px, py + 1)) :
    c1 = c2 ∨ m.passage c1 c2 := by
  obtain ⟨e1, e2, e3, g1, g2, d1, d2, t1, t2, t3⟩ := geometry_valid m W H hw hh hW hH
  obtain ⟨x1, y1⟩ := c1
  obtain ⟨x2, y2⟩ := c2
  obtain ⟨a1, a2, a3, a4⟩ := hc1
  obtain ⟨b1, b2, b3, b4⟩ := hc2
  simp only at a1 a2 a3 a4 b1 b2 b3 b4
  have ex : x1 = x2 :=
    cell_index_unique (specCellWidth m W) px x1 x2 g1 ⟨a1, a2⟩ ⟨b1, b2⟩
  subst ex
  by_cases hy : py + 1 < y1 * specCellHeight m H + 25 + specCellHeight m H
  · left
    have ey : y1 = y2 :=
      cell_index_unique (specCellHeight m H) (py + 1) y1 y2 g2 ⟨by omega, hy⟩ ⟨b3, b4⟩
    rw [ey]
  · right
    have ec : ((y1 + 1 : Nat) : Int) * specCellHeight m H
        = y1 * specCellHeight m H + specCellHeight m H := by push_cast; ring
    have ey : y1 + 1 = y2 :=
      cell_index_unique (specCellHeight m H) (py + 1) (y1 + 1) y2 g2
        ⟨by rw [ec]; omega, by rw [ec]; omega⟩ ⟨b3, b4⟩
    subst ey
    have f2 : (m.maze_ y1 x1).walls 2 = false :=
      open_of_white m W H pd hw hh hW hH hr x1 y1 h1.1 h1.2 (px, py) ⟨a1, a2, a3, a4⟩ hw1 2
        (by omega) (by simp only [wallBand, inRect]; omega)
    have f0 : (m.maze_ (y1 + 1) x1).walls 0 = false :=
      open_of_white m W H pd hw hh hW hH hr x1 (y1 + 1) h2.1 h2.2 (px, py + 1)
        ⟨b1, b2, b3, b4⟩ hw2 0 (by omega) (by simp only [wallBand, inRect]; omega)
    exact ⟨h1, h2, 2, by omega, h2.2, rfl, f2, f0⟩

/-- Two white edge neighbours of the maze rectangle lie in one cell or in two
cells joined by a passage. -/
theorem white_step (m : Maze) (W H : Int) (pd : List Nat) (hw : 1 ≤ m.width_)
    (hh : 1 ≤ m.height_) (hW : 50 + (m.width_ : Int) ≤ W) (hH : 50 + (m.height_ : Int) ≤ H)
    (hr : renderPixels m W H = .ok pd) (p q : Int × Int) (c1 c2 : Nat × Nat)
    (h1 : m.inGrid c1) (h2 : m.inGrid c2)
    (hc1 : inCell m W H c1.1 c1.2 p) (hc2 : inCell m W H c2.1 c2.2 q)
    (hadj : pixelAdj p q) (hw1 : whiteAt pd W H p) (hw2 : whiteAt pd W H q) :
    c1 = c2 ∨ m.passage c1 c2 := by
  obtain ⟨px, py⟩ := p
  obtain ⟨qx, qy⟩ := q
  unfold pixelAdj at hadj
  simp only at hadj
  rcases hadj with ⟨hy, hx | hx⟩ | ⟨hx, hy | hy⟩
  · subst hy
    subst hx
    exact white_step_right m W H pd hw hh hW hH hr px py c1 c2 h1 h2 hc1 hc2 hw1 hw2
  · subst hy
    subst hx
    rcases white_step_right m W H pd hw hh hW hH hr qx py c2 c1 h2 h1 hc2 hc1 hw2 hw1 with
      h | h
    · exact Or.inl h.symm
    · exact Or.inr (m.passage_symm _ _ h)
  · subst hx
    subst hy
    exact white_step_down m W H pd hw hh hW hH hr px py c1 c2 h1 h2 hc1 hc2 hw1 hw2
  · subst hx
    subst hy
    rcases white_step_down m W H pd hw hh hW hH hr px qy c2 c1 h2 h1 hc2 hc1 hw2 hw1 with
      h | h
    · exact Or.inl h.symm
    · exact Or.inr (m.passage_symm _ _ h)

/-- The interior of a cell lies in the pixel rectangle of the cell. -/
theorem cellInterior_inCell (m : Maze) (W H : Int) (t1 : 1 ≤ specThickness m W H) (x y : Nat)
    (p : Int × Int) (hp : cellInterior m W H x y p) : inCell m W H x y p := by
  obtain ⟨b1, b2, b3, b4⟩ := hp
  unfold inCell inRect
  refine ⟨?_, ?_, ?_, ?_⟩ <;> omega

/-- With cells of at least 3 x 3 pixels the interior of a cell is not empty. -/
theorem cellInterior_nonempty (m : Maze) (W H : Int) (h1 : 3 ≤ specCellWidth m W)
    (h2 : 3 ≤ specCellHeight m H) (x y : Nat) :
    cellInterior m W H x y
      (x * specCellWidth m W + 25 + specThickness m W H,
        y * specCellHeight m H + 25 + specThickness m W H) := by
  obtain ⟨t1, t2, t3⟩ := thickness_interior m W H h1 h2
  unfold cellInterior inRect
  dsimp only
  refine ⟨?_, ?_, ?_, ?_⟩ <;> omega

/-- A white path inside the maze rectangle only moves between cells joined by passages. -/
theorem reachable_of_joined (m : Maze) (W H : Int) (pd : List Nat) (hw : 1 ≤ m.width_)
    (hh : 1 ≤ m.height_) (hW : 50 + (m.width_ : Int) ≤ W) (hH : 50 + (m.height_ : Int) ≤ H)
    (hr : renderPixels m W H = .ok pd) (a b : Int × Int)
    (hj : pixelJoined (whiteInside m pd W H) a b) (c1 : Nat × Nat)
    (hc1 : inCell m W H c1.1 c1.2 a) :
    ∀ c2 : Nat × Nat, m.inGrid c2 → inCell m W H c2.1 c2.2 b → m.reachable c1 c2 := by
  obtain ⟨e1, e2, e3, g1, g2, d1, d2, t1, t2, t3⟩ := geometry_valid m W H hw hh hW hH
  unfold pixelJoined at hj
  induction hj with
  | refl =>
    intro c2 h2 hc2
    have ex : c1.1 = c2.1 := cell_index_unique (specCellWidth m W) a.1 c1.1 c2.1 g1
      ⟨hc1.1, hc1.2.1⟩ ⟨hc2.1, hc2.2.1⟩
    have ey : c1.2 = c2.2 := cell_index_unique (specCellHeight m H) a.2 c1.2 c2.2 g2
      ⟨hc1.2.2.1, hc1.2.2.2⟩ ⟨hc2.2.2.1, hc2.2.2.2⟩
    have : c1 = c2 := Prod.ext ex ey
    rw [this]
    exact Relation.ReflTransGen.refl
  | tail _ hbc ih =>
    intro c2 h2 hc2
    obtain ⟨hadj, ⟨hwb, hmb⟩, ⟨hwc, _⟩⟩ := hbc
    obtain ⟨x, y, hx, hy, hcell⟩ := pixel_cell m W H g1 g2 _ hmb
    have hreach := ih (x, y) ⟨hx, hy⟩ hcell
    rcases white_step m W H pd hw hh hW hH hr _ _ (x, y) c2 ⟨hx, hy⟩ h2 hcell hc2 hadj hwb hwc
      with h | h
    · rw [← h]
      exact hreach
    · exact Relation.ReflTransGen.tail hreach h

/-- The interiors of two horizontally adjacent cells with an open passage are
joined by a white path inside the maze rectangle. -/
theorem joined_h (m : Maze) (W H : Int) (pd : List Nat) (hw : 1 ≤ m.width_)
    (hh : 1 ≤ m.height_) (hW : 50 + (m.width_ : Int) ≤ W) (hH : 50 + (m.height_ : Int) ≤ H)
    (hr : renderPixels m W H = .ok pd) (x y : Nat) (hx : x + 1 < m.width_) (hy : y < m.height_)
    (h1 : (m.maze_ y x).walls 1 = false) (h3 : (m.maze_ y (x + 1)).walls 3 = false)
    (a b : Int × Int) (ha : cellInterior m W H x y a) (hb : cellInterior m W H (x + 1) y b) :
    pixelJoined (whiteInside m pd W H) a b := by
  obtain ⟨e1, e2, e3, g1, g2, d1, d2, t1, t2, t3⟩ := geometry_valid m W H hw hh hW hH
  have ex : ((x + 1 : Nat) : Int) * specCellWidth m W
      = x * specCellWidth m W + specCellWidth m W := by push_cast; ring
  obtain ⟨a1, a2, a3, a4⟩ := ha
  obtain ⟨b1, b2, b3, b4⟩ := hb
  rw [ex] at b1 b2
  refine joined_rect _ _ _ _ _
    (fun p hp => corridor_h_white m W H pd hw hh hW hH hr x y hx hy h1 h3 p hp) a b ?_ ?_
  · unfold inRect
    refine ⟨?_, ?_, ?_, ?_⟩ <;> omega
  · unfold inRect
    refine ⟨?_, ?_, ?_, ?_⟩ <;> omega

/-- The interiors of two vertically adjacent cells with an open passage are
joined by a white path inside the maze rectangle. -/
theorem joined_v (m : Maze) (W H : Int) (pd : List Nat) (hw : 1 ≤ m.width_)
    (hh : 1 ≤ m.height_) (hW : 50 + (m.width_ : Int) ≤ W) (hH : 50 + (m.height_ : Int) ≤ H)
    (hr : renderPixels m W H = .ok pd) (x y : Nat) (hx : x < m.width_) (hy : y + 1 < m.height_)
    (h2 : (m.maze_ y x).walls 2 = false) (h0 : (m.maze_ (y + 1) x).walls 0 = false)
    (a b : Int × Int) (ha : cellInterior m W H x y a) (hb : cellInterior m W H x (y + 1) b) :
    pixelJoined (whiteInside m pd W H) a b := by
  obtain ⟨e1, e2, e3, g1, g2, d1, d2, t1, t2, t3⟩ := geometry_valid m W H hw hh hW hH
  have ey : ((y + 1 : Nat) : Int) * specCellHeight m H
      = y * specCellHeight m H + specCellHeight m H := by push_cast; ring
  obtain ⟨a1, a2, a3, a4⟩ := ha
  obtain ⟨b1, b2, b3, b4⟩ := hb
  rw [ey] at b3 b4
  refine joined_rect _ _ _ _ _
    (fun p hp => corridor_v_white m W H pd hw hh hW hH hr x y hx hy h2 h0 p hp) a b ?_ ?_
  · unfold inRect
    refine ⟨?_, ?_, ?_, ?_⟩ <;> omega
  · unfold inRect
    refine ⟨?_, ?_, ?_, ?_⟩ <;> omega

/-- The interiors of two cells joined by an open passage are joined by a white
path inside the maze rectangle. -/
theorem joined_of_passage (m : Maze) (W H : Int) (pd : List Nat) (hw : 1 ≤ m.width_)
    (hh : 1 ≤ m.height_) (hW : 50 + (m.width_ : Int) ≤ W) (hH : 50 + (m.height_ : Int) ≤ H)
    (hr : renderPixels m W H = .ok pd) (p q : Nat × Nat) (hpq : m.passage p q)
    (a b : Int × Int) (ha : cellInterior m W H p.1 p.2 a) (hb : cellInterior m W H q.1 q.2 b) :
    pixelJoined (whiteInside m pd W H) a b := by
  obtain ⟨x, y⟩ := p
  obtain ⟨hp, hq, d, hd, hn, rfl, f1, f2⟩ := hpq
  simp only at ha hb f1 f2 hn
  interval_cases d
  · simp only [stepX, stepY, opposite, Maze.hasNeighbor] at hb f2 hn
    obtain ⟨k, rfl⟩ : ∃ k, y = k + 1 := ⟨y - 1, by omega⟩
    simp only [Nat.add_sub_cancel] at hb f2
    exact pixelJoined_symm _ _ _
      (joined_v m W H pd hw hh hW hH hr x k hp.1 hp.2 f2 f1 b a hb ha)
  · simp only [stepX, stepY, opposite, Maze.hasNeighbor] at hb f2 hn
    exact joined_h m W H pd hw hh hW hH hr x y hn hp.2 f1 f2 a b ha hb
  · simp only [stepX, stepY, opposite, Maze.hasNeighbor] at hb f2 hn
    exact joined_v m W H pd hw hh hW hH hr x y hp.1 hn f1 f2 a b ha hb
  · simp only [stepX, stepY, opposite, Maze.hasNeighbor] at hb f2 hn
    obtain ⟨k, rfl⟩ : ∃ k, x = k + 1 := ⟨x - 1, by omega⟩
    simp only [Nat.add_sub_cancel] at hb f2
    exact pixelJoined_symm _ _ _
      (joined_h m W H pd hw hh hW hH hr k y hp.1 hp.2 f2 f1 b a hb ha)

/-- The interiors of cells joined by a chain of open passages are joined by a
white path inside the maze rectangle. -/
theorem joined_of_reachable (m : Maze) (W H : Int) (pd : List Nat) (hw : 1 ≤ m.width_)
    (hh : 1 ≤ m.height_) (hW : 50 + (m.width_ : Int) ≤ W) (hH : 50 + (m.height_ : Int) ≤ H)
    (hr : renderPixels m W H = .ok pd) (c3 : 3 ≤ specCellWidth m W)
    (c4 : 3 ≤ specCellHeight m H) (p q : Nat × Nat) (hp : m.inGrid p)
    (hpq : m.reachable p q) (a : Int × Int) (ha : cellInterior m W H p.1 p.2 a) :
    ∀ b : Int × Int, cellInterior m W H q.1 q.2 b → pixelJoined (whiteInside m pd W H) a b := by
  unfold Maze.reachable at hpq
  induction hpq with
  | refl =>
    intro b hb
    exact joined_rect _ _ _ _ _
      (fun c hc => interior_white m W H pd hw hh hW hH hr p.1 p.2 hp.1 hp.2 c hc) a b ha hb
  | tail _ hbc ih =>
    intro b hb
    exact pixelJoined_trans _ _ _ _ (ih _ (cellInterior_nonempty m W H c3 c4 _ _))
      (joined_of_passage m W H pd hw hh hW hH hr _ _ hbc _ b
        (cellInterior_nonempty m W H c3 c4 _ _) hb)

/-- The margin of a valid canvas is white. -/
theorem margin_white (m : Maze) (W H : Int) (pd : List Nat) (hw : 1 ≤ m.width_)
    (hh : 1 ≤ m.height_) (hW : 50 + (m.width_ : Int) ≤ W) (hH : 50 + (m.height_ : Int) ≤ H)
    (hr : renderPixels m W H = .ok pd) (p : Int × Int)
    (hc : 0 ≤ p.1 ∧ p.1 < W ∧ 0 ≤ p.2 ∧ p.2 < H) (hm : ¬ inMazeRect m W H p) :
    whiteAt pd W H p :=
  (whiteAt_iff m W H pd hw hh hW hH hr p).2
    ⟨hc, fun hin => hm (inClosedWall_inMazeRect m W H hw hh hW hH p hin)⟩

/-- A path of good pixels is a path of pixels with any weaker property. -/
theorem pixelJoined_mono (good good2 : Int × Int → Prop) (h : ∀ p, good p → good2 p)
    (a b : Int × Int) (hj : pixelJoined good a b) : pixelJoined good2 a b := by
  unfold pixelJoined at hj ⊢
  induction hj with
  | refl => exact Relation.ReflTransGen.refl
  | tail _ hbc ih => exact Relation.ReflTransGen.tail ih ⟨hbc.1, h _ hbc.2.1, h _ hbc.2.2⟩

/-- A cell whose four walls are closed encloses its interior: a white path of
the canvas that starts in the interior stays in it. -/
theorem closed_cell_encloses (m : Maze) (W H : Int) (pd : List Nat) (hw : 1 ≤ m.width_)
    (hh : 1 ≤ m.height_) (hW : 50 + (m.width_ : Int) ≤ W) (hH : 50 + (m.height_ : Int) ≤ H)
    (hr : renderPixels m W H = .ok pd) (x y : Nat) (hx : x < m.width_) (hy : y < m.height_)
    (hclosed : ∀ e, e < 4 → (m.maze_ y x).walls e = true) (a b : Int × Int)
    (ha : cellInterior m W H x y a) (hj : pixelJoined (whiteAt pd W H) a b) :
    cellInterior m W H x y b := by
  obtain ⟨e1, e2, e3, g1, g2, d1, d2, t1, t2, t3⟩ := geometry_valid m W H hw hh hW hH
  unfold pixelJoined at hj
  induction hj with
  | refl => exact ha
  | @tail b2 c2 _ hbc ih =>
    obtain ⟨hadj, _, hwc⟩ := hbc
    obtain ⟨i1, i2, i3, i4⟩ := ih
    unfold pixelAdj at hadj
    have hcell : inCell m W H x y c2 := ⟨by omega, by omega, by omega, by omega⟩
    have nb : ∀ e, e < 4 → ¬ wallBand m W H x y e c2.1 c2.2 := fun e he hb => by
      have := open_of_white m W H pd hw hh hW hH hr x y hx hy c2 hcell hwc e he hb
      rw [hclosed e he] at this
      exact Bool.noConfusion this
    have n0 := nb 0 (by omega)
    have n1 := nb 1 (by omega)
    have n2 := nb 2 (by omega)
    have n3 := nb 3 (by omega)
    simp only [wallBand, inRect] at n0 n1 n2 n3
    obtain ⟨k1, k2, k3, k4⟩ := hcell
    unfold cellInterior inRect
    refine ⟨?_, ?_, ?_, ?_⟩ <;> omega

/-- Wall flags that the program never produces (`generate` on the `2 x 1` grid
always opens the wall between its two cells): with only the left wall of cell
`(0, 0)` and the right wall of cell `(1, 0)` open, on the canvas 60 x 60 the
white region joins the interior pixel `(27, 29)` of cell `(0, 0)` to the
interior pixel `(32, 29)` of cell `(1, 0)` through the two open boundary walls
and around the maze through the white margin, though no passage joins the
cells. Statements on the whole white region are therefore made for the grids of
the program, and for arbitrary flags inside the maze rectangle. -/
theorem white_region_through_margin :
    ∃ pixel_data, renderPixels (entryExit (Maze.new 2 1)) 60 60 = .ok pixel_data ∧
      (entryExit (Maze.new 2 1)).width_ = 2 ∧ (entryExit (Maze.new 2 1)).height_ = 1 ∧
      (entryExit (Maze.new 2 1)).reciprocal ∧
      cell_width_px (entryExit (Maze.new 2 1)) 60 = 5 ∧
      cell_height_px (entryExit (Maze.new 2 1)) 60 = 10 ∧
      wall_thickness (entryExit (Maze.new 2 1)) 60 60 = 1 ∧
      cellInterior (entryExit (Maze.new 2 1)) 60 60 0 0 (27, 29) ∧
      cellInterior (entryExit (Maze.new 2 1)) 60 60 1 0 (32, 29) ∧
      pixelJoined (whiteAt pixel_data 60 60) (27, 29) (32, 29) ∧
      ¬ (entryExit (Maze.new 2 1)).reachable (0, 0) (1, 0) := by
  have hw : 1 ≤ (entryExit (Maze.new 2 1)).width_ := by decide
  have hh : 1 ≤ (entryExit (Maze.new 2 1)).height_ := by decide
  have hW : 50 + ((entryExit (Maze.new 2 1)).width_ : Int) ≤ 60 := by decide
  have hH : 50 + ((entryExit (Maze.new 2 1)).height_ : Int) ≤ 60 := by decide
  have cw : specCellWidth (entryExit (Maze.new 2 1)) 60 = 5 := by decide
  have ch : specCellHeight (entryExit (Maze.new 2 1)) 60 = 10 := by decide
  have th : specThickness (entryExit (Maze.new 2 1)) 60 60 = 1 := by decide
  obtain ⟨pd, hr, _⟩ :=
    renderPixels_valid (entryExit (Maze.new 2 1)) 60 60 hw hh hW hH (by decide)
  have hmargin : ∀ px py : Int, (0 ≤ px ∧ px < 60 ∧ 0 ≤ py ∧ py < 60) →
      (px < 25 ∨ 35 ≤ px ∨ py < 25 ∨ 35 ≤ py) → whiteAt pd 60 60 (px, py) := by
    intro px py hc ho
    refine margin_white _ 60 60 pd hw hh hW hH hr (px, py) hc (fun hin => ?_)
    obtain ⟨b1, b2, b3, b4⟩ := hin
    simp only at b1 b2 b3 b4
    rw [cw] at b2
    rw [ch] at b4
    have e1 : (((entryExit (Maze.new 2 1)).width_ : Nat) : Int) = 2 := by decide
    have e2 : (((entryExit (Maze.new 2 1)).height_ : Nat) : Int) = 1 := by decide
    rw [e1] at b2
    rw [e2] at b4
    omega
  have hleft : ∀ px py : Int, 25 ≤ px → px < 29 → 26 ≤ py → py < 34 →
      whiteAt pd 60 60 (px, py) := by
    intro px py a1 a2 a3 a4
    refine (white_of_open _ 60 60 pd hw hh hW hH hr 0 0 (by decide) (by decide) (px, py)
      ?_ ?_).1
    · unfold inCell inRect
      rw [cw, ch]
      simp only [Nat.cast_zero, zero_mul, zero_add]
      omega
    · intro e he hcl hb
      interval_cases e
      · simp only [wallBand, inRect, cw, ch, th, Nat.cast_zero, zero_mul, zero_add] at hb
        omega
      · simp only [wallBand, inRect, cw, ch, th, Nat.cast_zero, zero_mul, zero_add] at hb
        omega
      · simp only [wallBand, inRect, cw, ch, th, Nat.cast_zero, zero_mul, zero_add] at hb
        omega
      · exact absurd hcl (by decide)
  have hright : ∀ px py : Int, 31 ≤ px → px < 35 → 26 ≤ py → py < 34 →
      whiteAt pd 60 60 (px, py) := by
    intro px py a1 a2 a3 a4
    refine (white_of_open _ 60 60 pd hw hh hW hH hr 1 0 (by decide) (by decide) (px, py)
      ?_ ?_).1
    · unfold inCell inRect
      rw [cw, ch]
      simp only [Nat.cast_zero, Nat.cast_one, zero_mul, zero_add, one_mul]
      omega
    · intro e he hcl hb
      interval_cases e
      · simp only [wallBand, inRect, cw, ch, th, Nat.cast_zero, Nat.cast_one, zero_mul,
          zero_add, one_mul] at hb
        omega
      · exact absurd hcl (by decide)
      · simp only [wallBand, inRect, cw, ch, th, Nat.cast_zero, Nat.cast_one, zero_mul,
          zero_add, one_mul] at hb
        omega
      · simp only [wallBand, inRect, cw, ch, th, Nat.cast_zero, Nat.cast_one, zero_mul,
          zero_add, one_mul] at hb
        omega
  have s1 : pixelJoined (whiteAt pd 60 60) (27, 29) (24, 29) :=
    joined_row _ 27 24 29 (fun q h1 h2 => by
      have k1 : (24 : Int) ≤ q := by omega
      have k2 : q ≤ 27 := by omega
      by_cases hq : q < 25
      · exact hmargin q 29 ⟨by omega, by omega, by omega, by omega⟩ (Or.inl hq)
      · exact hleft q 29 (by omega) (by omega) (by omega) (by omega))
  have s2 : pixelJoined (whiteAt pd 60 60) (24, 29) (24, 24) :=
    joined_col _ 24 29 24 (fun q h1 h2 =>
      hmargin 24 q ⟨by omega, by omega, by omega, by omega⟩ (Or.inl (by omega)))
  have s3 : pixelJoined (whiteAt pd 60 60) (24, 24) (35, 24) :=
    joined_row _ 24 35 24 (fun q h1 h2 =>
      hmargin q 24 ⟨by omega, by omega, by omega, by omega⟩
        (Or.inr (Or.inr (Or.inl (by omega)))))
  have s4 : pixelJoined (whiteAt pd 60 60) (35, 24) (35, 29) :=
    joined_col _ 35 24 29 (fun q h1 h2 =>
      hmargin 35 q ⟨by omega, by omega, by omega, by omega⟩
        (Or.inr (Or.inl (by omega))))
  have s5 : pixelJoined (whiteAt pd 60 60) (35, 29) (32, 29) :=
    joined_row _ 35 32 29 (fun q h1 h2 => by
      have k1 : (32 : Int) ≤ q := by omega
      have k2 : q ≤ 35 := by omega
      by_cases hq : 35 ≤ q
      · exact hmargin q 29 ⟨by omega, by omega, by omega, by omega⟩ (Or.inr (Or.inl hq))
      · exact hright q 29 (by omega) (by omega) (by omega) (by omega))
  have hpath : pixelJoined (whiteAt pd 60 60) (27, 29) (32, 29) :=
    pixelJoined_trans _ _ _ _ s1 (pixelJoined_trans _ _ _ _ s2
      (pixelJoined_trans _ _ _ _ s3 (pixelJoined_trans _ _ _ _ s4 s5)))
  have hrec : (entryExit (Maze.new 2 1)).reciprocal := by
    constructor
    · intro x y hx hy
      have e1 : x = 0 := by
        have : (entryExit (Maze.new 2 1)).width_ = 2 := by decide
        omega
      have e2 : y = 0 := by
        have : (entryExit (Maze.new 2 1)).height_ = 1 := by decide
        omega
      subst e1
      subst e2
      decide
    · intro x y _ hy
      have : (entryExit (Maze.new 2 1)).height_ = 1 := by decide
      omega
  have hno : ¬ (entryExit (Maze.new 2 1)).reachable (0, 0) (1, 0) := by
    intro h
    rcases Relation.ReflTransGen.cases_head h with h0 | ⟨c, hpass, _⟩
    · exact absurd h0 (by decide)
    · obtain ⟨_, _, d, hd, hn, _, f1, _⟩ := hpass
      interval_cases d
      · exact absurd hn (by decide)
      · exact absurd f1 (by decide)
      · exact absurd hn (by decide)
      · exact absurd hn (by decide)
  refine ⟨pd, hr, by decide, by decide, hrec, by decide, by decide, by decide, ?_, ?_, hpath,
    hno⟩
  · unfold cellInterior inRect
    rw [cw, ch, th]
    decide
  · unfold cellInterior inRect
    rw [cw, ch, th]
    decide

/-! ## Claim on the white region of the rendered maze -/

/-- Claim C21 as stated fails: the grid returned by `generate` on the `2 x 2`
grid has reciprocal wall flags and on the canvas 46341 x 46341 its cells are
23145 x 23145 pixels (`cw ≥ 3`, `ch ≥ 3`), but the pixel count 2147488281
exceeds `INT_MAX`: the `int` product of line 105 overflows, the behaviour is
undefined, and `saveToPgm` builds no buffer in which a cell interior is white. -/
theorem saveToPgm_traversable_overflow :
    ∃ m, generate (Maze.new 2 2) (fun _ => 0) = .ok m ∧ m.width_ = 2 ∧ m.height_ = 2 ∧
      m.reciprocal ∧ cell_width_px m 46341 = 23145 ∧ cell_height_px m 46341 = 23145 ∧
      (46341 : Int) * 46341 = 2147488281 ∧ INT_MAX < (46341 : Int) * 46341 ∧
      renderPixels m 46341 46341 = .error Fault.intOverflow ∧
      saveToPgm m true 46341 46341 = .error Fault.intOverflow := by
  obtain ⟨m0, hw0, hh0, hc, hg⟩ := generate_spec 2 2 (fun _ => 0) (by decide) (by decide)
  have hwid : (entryExit m0).width_ = 2 := hw0
  have hhei : (entryExit m0).height_ = 2 := hh0
  refine ⟨entryExit m0, hg, hwid, hhei, entryExit_reciprocal m0 (wallInv_reciprocal m0 hc.walls),
    ?_, ?_, by decide, by decide, (renderPixels_overflow _ 46341 46341 (by decide)).1,
    (renderPixels_overflow _ 46341 46341 (by decide)).2⟩
  · unfold cell_width_px
    rw [hwid]
    decide
  · unfold cell_height_px
    rw [hhei]
    decide

/-- Claim C21, amended. Rendered passages are traversable: for every grid with
`w, h ≥ 1` and reciprocal wall flags and every canvas whose cell size satisfies
`cw ≥ 3` and `ch ≥ 3` (the canvas is then valid) and whose pixel count
`image_width * image_height` does not exceed `INT_MAX`, in the buffer built by
`saveToPgm` the interior `[sx+th, sx+cw-th) x [sy+th, sy+ch-th)` of every cell
is non-empty and entirely white; for every open passage between horizontally
adjacent cells `(x, y)`, `(x+1, y)` all pixels in columns `[sx+th, sx+2*cw-th)`
and rows `[sy+th, sy+ch-th)` are white, and symmetrically for vertically
adjacent cells; so the white pixels of the maze rectangle connect the interiors
of exactly the cells joined by open passages, and on every grid the program can
hold (as constructed, or as returned by `generate`) so does the whole white
region: two interior pixels are joined by a path of white edge neighbours if and
only if their cells are joined by a chain of open passages. -/
theorem saveToPgm_passages_traversable (m : Maze) (W H : Int) (hw : 1 ≤ m.width_)
    (hh : 1 ≤ m.height_) (hrec : m.reciprocal) (hcw : 3 ≤ cell_width_px m W)
    (hch : 3 ≤ cell_height_px m H) (hprod : W * H ≤ INT_MAX) :
    ∃ pixel_data, renderPixels m W H = .ok pixel_data ∧
      saveToPgm m true W H = .ok (pgmHeader W H ++ pixel_data) ∧
      cell_width_px m W = specCellWidth m W ∧ cell_height_px m H = specCellHeight m H ∧
      wall_thickness m W H = specThickness m W H ∧
      (∀ x y, x < m.width_ → y < m.height_ →
        (∃ p, cellInterior m W H x y p) ∧
        ∀ p, cellInterior m W H x y p → whiteAt pixel_data W H p) ∧
      (∀ x y, x + 1 < m.width_ → y < m.height_ → (m.maze_ y x).walls 1 = false →
        ∀ p : Int × Int,
          inRect p.1 p.2 (x * specCellWidth m W + 25 + specThickness m W H)
            (y * specCellHeight m H + 25 + specThickness m W H)
            (2 * specCellWidth m W - 2 * specThickness m W H)
            (specCellHeight m H - 2 * specThickness m W H) →
          whiteAt pixel_data W H p) ∧
      (∀ x y, x < m.width_ → y + 1 < m.height_ → (m.maze_ y x).walls 2 = false →
        ∀ p : Int × Int,
          inRect p.1 p.2 (x * specCellWidth m W + 25 + specThickness m W H)
            (y * specCellHeight m H + 25 + specThickness m W H)
            (specCellWidth m W - 2 * specThickness m W H)
            (2 * specCellHeight m H - 2 * specThickness m W H) →
          whiteAt pixel_data W H p) ∧
      (∀ p q : Nat × Nat, m.inGrid p → m.inGrid q → ∀ a b : Int × Int,
        cellInterior m W H p.1 p.2 a → cellInterior m W H q.1 q.2 b →
        (pixelJoined (whiteInside m pixel_data W H) a b ↔ m.reachable p q)) ∧
      ((m = Maze.new m.width_ m.height_ ∨
          ∃ rand, generate (Maze.new m.width_ m.height_) rand = .ok m) →
        ∀ p q : Nat × Nat, m.inGrid p → m.inGrid q → ∀ a b : Int × Int,
          cellInterior m W H p.1 p.2 a → cellInterior m W H q.1 q.2 b →
          (pixelJoined (whiteAt pixel_data W H) a b ↔ m.reachable p q)) := by
  have hW : 50 + (m.width_ : Int) ≤ W := by
    have := valid_of_cell_size (W - shrink_pixels) m.width_ hw hcw
    unfold shrink_pixels at this
    omega
  have hH : 50 + (m.height_ : Int) ≤ H := by
    have := valid_of_cell_size (H - shrink_pixels) m.height_ hh hch
    unfold shrink_pixels at this
    omega
  obtain ⟨pd, hr, hs, _⟩ := renderPixels_valid m W H hw hh hW hH hprod
  obtain ⟨e1, e2, e3, g1, g2, d1, d2, t1, t2, t3⟩ := geometry_valid m W H hw hh hW hH
  rw [e1] at hcw
  rw [e2] at hch
  refine ⟨pd, hr, hs, e1, e2, e3, ?_, ?_, ?_, ?_, ?_⟩
  · intro x y hx hy
    exact ⟨⟨_, cellInterior_nonempty m W H hcw hch x y⟩,
      fun p hp => (interior_white m W H pd hw hh hW hH hr x y hx hy p hp).1⟩
  · intro x y hx hy h1 p hp
    have h3 : (m.maze_ y (x + 1)).walls 3 = false := by
      rw [← hrec.1 x y hx hy]
      exact h1
    exact (corridor_h_white m W H pd hw hh hW hH hr x y hx hy h1 h3 p hp).1
  · intro x y hx hy h2 p hp
    have h0 : (m.maze_ (y + 1) x).walls 0 = false := by
      rw [← hrec.2 x y hx hy]
      exact h2
    exact (corridor_v_white m W H pd hw hh hW hH hr x y hx hy h2 h0 p hp).1
  · intro p q hp hq a b ha hb
    constructor
    · intro hj
      exact reachable_of_joined m W H pd hw hh hW hH hr a b hj p
        (cellInterior_inCell m W H t1 _ _ a ha) q hq (cellInterior_inCell m W H t1 _ _ b hb)
    · intro hpq
      exact joined_of_reachable m W H pd hw hh hW hH hr hcw hch p q hp hpq a ha b hb
  · intro hprog p q hp hq a b ha hb
    constructor
    · intro hj
      rcases hprog with hfresh | ⟨rand, hgen⟩
      · have hcl : ∀ e, e < 4 → (m.maze_ p.2 p.1).walls e = true := by
          intro e he
          have hcell : m.maze_ p.2 p.1 = (Maze.new m.width_ m.height_).maze_ p.2 p.1 :=
            congrArg (fun t => t.maze_ p.2 p.1) hfresh
          rw [hcell]
          interval_cases e <;> rfl
        have hb2 := closed_cell_encloses m W H pd hw hh hW hH hr p.1 p.2 hp.1 hp.2 hcl a b
          ha hj
        have c1 := cellInterior_inCell m W H t1 _ _ b hb2
        have c2 := cellInterior_inCell m W H t1 _ _ b hb
        have ex : p.1 = q.1 := cell_index_unique (specCellWidth m W) b.1 p.1 q.1 g1
          ⟨c1.1, c1.2.1⟩ ⟨c2.1, c2.2.1⟩
        have ey : p.2 = q.2 := cell_index_unique (specCellHeight m H) b.2 p.2 q.2 g2
          ⟨c1.2.2.1, c1.2.2.2⟩ ⟨c2.2.2.1, c2.2.2.2⟩
        have hpq : p = q := Prod.ext ex ey
        rw [hpq]
        exact Relation.ReflTransGen.refl
      · obtain ⟨m0, hw0, hh0, hc, hg⟩ := generate_spec m.width_ m.height_ rand hw hh
        rw [hg] at hgen
        have hm : entryExit m0 = m := by
          injection hgen
        rw [← hm] at hp hq ⊢
        rw [entryExit_reachable]
        exact hc.conn p q hp hq
    · intro hpq
      exact pixelJoined_mono _ _ (fun c hc => hc.1) a b
        (joined_of_reachable m W H pd hw hh hW hH hr hcw hch p q hp hpq a ha b hb)

theorem saveToPgm_passages_traversable_witness :
    1 ≤ (Maze.new 2 2).width_ ∧ 1 ≤ (Maze.new 2 2).height_ ∧ (Maze.new 2 2).reciprocal ∧
    3 ≤ cell_width_px (Maze.new 2 2) 60 ∧ 3 ≤ cell_height_px (Maze.new 2 2) 60 ∧
    (60 : Int) * 60 ≤ INT_MAX ∧
    ∃ pixel_data, renderPixels (Maze.new 2 2) 60 60 = .ok pixel_data ∧
      (∃ p, cellInterior (Maze.new 2 2) 60 60 0 0 p) ∧
      (∀ p, cellInterior (Maze.new 2 2) 60 60 0 0 p → whiteAt pixel_data 60 60 p) ∧
      (∀ a b : Int × Int, cellInterior (Maze.new 2 2) 60 60 0 0 a →
        cellInterior (Maze.new 2 2) 60 60 1 0 b →
        (pixelJoined (whiteInside (Maze.new 2 2) pixel_data 60 60) a b ↔
          (Maze.new 2 2).reachable (0, 0) (1, 0))) ∧
      (∀ a b : Int × Int, cellInterior (Maze.new 2 2) 60 60 0 0 a →
        cellInterior (Maze.new 2 2) 60 60 1 0 b →
        (pixelJoined (whiteAt pixel_data 60 60) a b ↔
          (Maze.new 2 2).reachable (0, 0) (1, 0))) := by
  have hrec : (Maze.new 2 2).reciprocal := ⟨fun _ _ _ _ => rfl, fun _ _ _ _ => rfl⟩
  refine ⟨by decide, by decide, hrec, by decide, by decide, by decide, ?_⟩
  obtain ⟨pd, hr, _, _, _, _, hint, _, _, hiff, hwhole⟩ :=
    saveToPgm_passages_traversable (Maze.new 2 2) 60 60 (by decide) (by decide)
      hrec (by decide) (by decide) (by decide)
  exact ⟨pd, hr, (hint 0 0 (by decide) (by decide)).1, (hint 0 0 (by decide) (by decide)).2,
    fun a b ha hb => hiff (0, 0) (1, 0) (by decide) (by decide) a b ha hb,
    fun a b ha hb => hwhole (Or.inl rfl) (0, 0) (1, 0) (by decide) (by decide) a b ha hb⟩

end MazeGen

namespace SolarFluxPlot

/-! ## The loop of `DrawDottedLine` -/

/-- Every store of `DrawBrush` passed the clipping test of line 28. -/
theorem mem_brushWrites (width height x y size : Int) (p : Int × Int)
    (hp : p ∈ brushWrites width height x y size) :
    0 ≤ p.1 ∧ p.1 < width ∧ 0 ≤ p.2 ∧ p.2 < height := by
  simp only [brushWrites, List.mem_flatMap] at hp
  obtain ⟨dy, _, dx, _, hmem⟩ := hp
  split_ifs at hmem with hg
  · rw [List.mem_singleton] at hmem
    subst hmem
    exact hg
  · exact absurd hmem (List.not_mem_nil _)

/-- Stores at clipped pixels succeed on a buffer of at least `width * height` bytes. -/
theorem foldlM_storeColor (width height : Int) (color : Nat) (ws : List (Int × Int)) :
    ∀ buf : List Nat, width * height ≤ buf.length →
      (∀ p ∈ ws, 0 ≤ p.1 ∧ p.1 < width ∧ 0 ≤ p.2 ∧ p.2 < height) →
      ∃ out, ws.foldlM (storeColor width color) buf = .ok out ∧ out.length = buf.length := by
  induction ws with
  | nil =>
    intro buf _ _
    exact ⟨buf, rfl, rfl⟩
  | cons a ws ih =>
    intro buf hlen hb
    obtain ⟨a1, a2, a3, a4⟩ := hb a (List.mem_cons_self _ _)
    have hi := MazeGen.index_bounds width height a.2 a.1 a3 a4 a1 a2
    have hlen2 : (buf.set (a.2 * width + a.1).toNat color).length = buf.length :=
      List.length_set ..
    obtain ⟨out, h1, h2⟩ := ih (buf.set (a.2 * width + a.1).toNat color)
      (by rw [hlen2]; exact hlen) (fun p hp => hb p (List.mem_cons_of_mem _ hp))
    refine ⟨out, ?_, by rw [h2, hlen2]⟩
    rw [List.foldlM_cons]
    have hc : 0 ≤ a.2 * width + a.1 ∧ a.2 * width + a.1 < (buf.length : Int) :=
      ⟨hi.1, by omega⟩
    simp only [storeColor, hc, and_self, if_true, bind, Except.bind]
    exact h1

/-- On a buffer of at least `width * height` bytes `DrawBrush` returns, and the
buffer keeps its length. -/
theorem DrawBrush_ok (buffer : List Nat) (width height x y size : Int) (color : Nat)
    (hlen : width * height ≤ buffer.length) :
    ∃ out, DrawBrush buffer width height x y size color = .ok out ∧
      out.length = buffer.length :=
  foldlM_storeColor width height color _ buffer hlen
    (fun p hp => mem_brushWrites width height x y size p hp)

/-- The stamping step of the loop returns, moves no loop variable, and with
`gap = 0` it is the call of `DrawBrush` at the current point. -/
theorem stamp_ok (width height thickness : Int) (color : Nat) (dash gap : Int)
    (hg : gap = 0 ∨ dash + gap ≠ 0) (s : LineState)
    (hlen : width * height ≤ s.buffer.length) :
    ∃ b, stamp width height thickness color dash gap s = .ok { s with buffer := b } ∧
      b.length = s.buffer.length ∧
      (gap = 0 → DrawBrush s.buffer width height s.x1 s.y1 thickness color = .ok b) := by
  obtain ⟨out, h1, h2⟩ := DrawBrush_ok s.buffer width height s.x1 s.y1 thickness color hlen
  unfold stamp
  by_cases h0 : gap = 0
  · refine ⟨out, ?_, h2, fun _ => h1⟩
    rw [if_pos h0, h1]
    rfl
  · have ht : dash + gap ≠ 0 := hg.resolve_left h0
    rw [if_neg h0, if_neg ht]
    by_cases hd : Int.tmod s.len (dash + gap) < dash
    · refine ⟨out, ?_, h2, fun h => absurd h h0⟩
      rw [if_pos hd, h1]
      rfl
    · refine ⟨s.buffer, ?_, rfl, fun h => absurd h h0⟩
      rw [if_neg hd]

/-- The four outcomes of one error step, by the two tests on `e2 = 2 * err`. -/
theorem lineAdvance_spec (dx dy sx sy : Int) (s : LineState) :
    (lineAdvance dx dy sx sy s).len = s.len + 1 ∧
    (lineAdvance dx dy sx sy s).buffer = s.buffer ∧
    (lineAdvance dx dy sx sy s).x1 = (if 2 * s.err ≥ dy then s.x1 + sx else s.x1) ∧
    (lineAdvance dx dy sx sy s).y1 = (if 2 * s.err ≤ dx then s.y1 + sy else s.y1) ∧
    (lineAdvance dx dy sx sy s).err
      = s.err + (if 2 * s.err ≥ dy then dy else 0) + (if 2 * s.err ≤ dx then dx else 0) := by
  unfold lineAdvance
  by_cases h1 : 2 * s.err ≥ dy <;> by_cases h2 : 2 * s.err ≤ dx <;>
    simp only [h1, h2, if_true, if_false, add_zero, and_self]

/-- Between rounded multiples: the minor count never passes the minor distance. -/
theorem minor_le (n d a b : Int) (hd : 0 < d) (hn : 0 ≤ n) (ha : a ≤ d)
    (h : 2 * (b * d) - d ≤ 2 * (a * n)) : b ≤ n := by
  by_contra hc
  have h1 : (n + 1) * d ≤ b * d := mul_le_mul_of_nonneg_right (by omega) (le_of_lt hd)
  have h2 : a * n ≤ d * n := mul_le_mul_of_nonneg_right ha hn
  have e1 : (n + 1) * d = d * n + d := by ring
  omega

/-- At the last major step the minor count is the minor distance. -/
theorem minor_eq (n d b : Int) (hd : 0 < d)
    (h1 : 2 * (b * d) - d ≤ 2 * (d * n)) (h2 : 2 * (d * n) < 2 * (b * d) + d) : b = n := by
  rcases lt_trichotomy b n with h | h | h
  · have k : (b + 1) * d ≤ n * d := mul_le_mul_of_nonneg_right (by omega) (le_of_lt hd)
    have e1 : (b + 1) * d = b * d + d := by ring
    have e2 : n * d = d * n := by ring
    omega
  · exact h
  · have k : (n + 1) * d ≤ b * d := mul_le_mul_of_nonneg_right (by omega) (le_of_lt hd)
    have e1 : (n + 1) * d = d * n + d := by ring
    omega

/-- The loop when `|y2 - y1| ≤ |x2 - x1|`: from a state `a` steps along `x` and
`b` steps along `y` away from the start, with `k` steps along `x` still to go,
the loop makes exactly `k` more iterations, each moving `x`, and ends at `(x2, y2)`. -/
theorem lineLoop_x_major (x0 y0 x2 y2 dx ady sx sy width height thickness : Int) (color : Nat)
    (dash gap : Int) (hg : gap = 0 ∨ dash + gap ≠ 0) (hsx : sx = 1 ∨ sx = -1)
    (hx2 : x2 = x0 + sx * dx) (hy2 : y2 = y0 + sy * ady) (hdx : 0 < dx) (hady : 0 ≤ ady)
    (hle : ady ≤ dx) :
    ∀ (k fuel : Nat) (s : LineState) (a b : Nat) (P Q : Int), k < fuel → (a : Int) + k = dx →
      P = a * ady → Q = b * dx → s.x1 = x0 + sx * a → s.y1 = y0 + sy * b →
      s.err = Q + dx - P - ady → 2 * Q - dx ≤ 2 * P → 2 * P < 2 * Q + dx →
      width * height ≤ s.buffer.length →
      ∃ sf pts, lineLoop x2 y2 dx (-ady) sx sy width height thickness color dash gap fuel s
          = .ok (sf, pts) ∧
        sf.len = s.len + k ∧ sf.x1 = x2 ∧ sf.y1 = y2 ∧ pts.length = k + 1 ∧
        pts.head? = some (s.x1, s.y1) ∧ pts.getLast? = some (x2, y2) ∧
        (∀ p ∈ pts, ∃ a2 b2 : Nat, (a2 : Int) ≤ dx ∧ (b2 : Int) ≤ ady ∧
          p = (x0 + sx * a2, y0 + sy * b2)) ∧
        (gap = 0 → pts.foldlM (fun buf p => DrawBrush buf width height p.1 p.2 thickness color)
          s.buffer = .ok sf.buffer) := by
  intro k
  induction k with
  | zero =>
    intro fuel s a b P Q hf hk hP hQ hx hy herr i1 i2 hlen
    obtain ⟨f, rfl⟩ : ∃ f, fuel = f + 1 := ⟨fuel - 1, by omega⟩
    obtain ⟨buf, hst, _, hbr⟩ := stamp_ok width height thickness color dash gap hg s hlen
    have ha : (a : Int) = dx := by omega
    have hb : (b : Int) = ady := by
      rw [hP, hQ, ha] at i1 i2
      exact minor_eq ady dx b hdx i1 i2
    have hxe : s.x1 = x2 := by rw [hx, hx2, ha]
    have hye : s.y1 = y2 := by rw [hy, hy2, hb]
    refine ⟨{ s with buffer := buf }, [(s.x1, s.y1)], ?_, by simp, hxe, hye, rfl, rfl, ?_, ?_, ?_⟩
    · unfold lineLoop
      rw [hst]
      simp only [Except.bind, hxe, hye, and_self, if_true]
    · rw [hxe, hye]
      rfl
    · intro p hp
      rw [List.mem_singleton] at hp
      exact ⟨a, b, by omega, by omega, by rw [hp, hx, hy]⟩
    · intro h0
      simp only [List.foldlM_cons, List.foldlM_nil, hbr h0, bind, Except.bind, pure, Except.pure]
  | succ k ih =>
    intro fuel s a b P Q hf hk hP hQ hx hy herr i1 i2 hlen
    obtain ⟨f, rfl⟩ : ∃ f, fuel = f + 1 := ⟨fuel - 1, by omega⟩
    obtain ⟨buf, hst, hbl, hbr⟩ := stamp_ok width height thickness color dash gap hg s hlen
    have ha : (a : Int) < dx := by omega
    have hb : (b : Int) ≤ ady := by
      rw [hP, hQ] at i1
      exact minor_le ady dx a b hdx hady (by omega) i1
    have hxne : ¬ (s.x1 = x2 ∧ s.y1 = y2) := by
      rintro ⟨h, _⟩
      rw [hx, hx2] at h
      rcases hsx with r | r <;> rw [r] at h <;> omega
    obtain ⟨e1, e2, e3, e4, e5⟩ := lineAdvance_spec dx (-ady) sx sy { s with buffer := buf }
    simp only at e1 e2 e3 e4 e5
    have hxs : 2 * s.err ≥ -ady := by omega
    rw [if_pos hxs] at e3 e5
    have hP2 : P + ady = ((a + 1 : Nat) : Int) * ady := by
      rw [hP]
      push_cast
      ring
    have hx1 : (lineAdvance dx (-ady) sx sy { s with buffer := buf }).x1
        = x0 + sx * ((a + 1 : Nat) : Int) := by
      rw [e3, hx]
      push_cast
      ring
    have hlen2 : width * height
        ≤ ((lineAdvance dx (-ady) sx sy { s with buffer := buf }).buffer.length : Int) := by
      rw [e2, hbl]
      exact hlen
    have hstep : ∃ (b2 : Nat) (Q2 : Int), Q2 = b2 * dx ∧
        (lineAdvance dx (-ady) sx sy { s with buffer := buf }).y1 = y0 + sy * b2 ∧
        (lineAdvance dx (-ady) sx sy { s with buffer := buf }).err
          = Q2 + dx - (P + ady) - ady ∧
        2 * Q2 - dx ≤ 2 * (P + ady) ∧ 2 * (P + ady) < 2 * Q2 + dx := by
      by_cases hys : 2 * s.err ≤ dx
      · rw [if_pos hys] at e4 e5
        refine ⟨b + 1, Q + dx, ?_, ?_, ?_, ?_, ?_⟩
        · rw [hQ]
          push_cast
          ring
        · rw [e4, hy]
          push_cast
          ring
        · omega
        · omega
        · omega
      · rw [if_neg hys] at e4 e5
        exact ⟨b, Q, hQ, by rw [e4, hy], by omega, by omega, by omega⟩
    obtain ⟨b2, Q2, hQ2, hy1, herr2, j1, j2⟩ := hstep
    obtain ⟨sf, pts, r1, r2, r3, r4, r5, r6, r7, r8, r9⟩ :=
      ih f (lineAdvance dx (-ady) sx sy { s with buffer := buf }) (a + 1) b2 (P + ady) Q2
        (by omega) (by push_cast; omega) hP2 hQ2 hx1 hy1 herr2 j1 j2 hlen2
    refine ⟨sf, (s.x1, s.y1) :: pts, ?_, by rw [r2, e1]; push_cast; ring, r3, r4, by simp [r5],
      rfl, ?_, ?_, ?_⟩
    · rw [lineLoop, hst]
      simp only [Except.bind, hxne, if_false, r1, Except.map]
    · cases pts with
      | nil => simp at r5
      | cons q qs =>
        rw [List.getLast?_cons_cons]
        exact r7
    · intro p hp
      rcases List.mem_cons.1 hp with h | h
      · exact ⟨a, b, by omega, hb, by rw [h, hx, hy]⟩
      · exact r8 p h
    · intro h0
      have := r9 h0
      rw [e2] at this
      simp only [List.foldlM_cons, hbr h0, bind, Except.bind]
      exact this

/-- The loop when `|x2 - x1| ≤ |y2 - y1|`: from a state `a` steps along `x` and
`b` steps along `y` away from the start, with `k` steps along `y` still to go,
the loop makes exactly `k` more iterations, each moving `y`, and ends at `(x2, y2)`. -/
theorem lineLoop_y_major (x0 y0 x2 y2 dx ady sx sy width height thickness : Int) (color : Nat)
    (dash gap : Int) (hg : gap = 0 ∨ dash + gap ≠ 0) (hsy : sy = 1 ∨ sy = -1)
    (hx2 : x2 = x0 + sx * dx) (hy2 : y2 = y0 + sy * ady) (hdx : 0 ≤ dx) (hady : 0 < ady)
    (hle : dx ≤ ady) :
    ∀ (k fuel : Nat) (s : LineState) (a b : Nat) (P Q : Int), k < fuel → (b : Int) + k = ady →
      P = a * ady → Q = b * dx → s.x1 = x0 + sx * a → s.y1 = y0 + sy * b →
      s.err = Q + dx - P - ady → 2 * P - ady ≤ 2 * Q → 2 * Q < 2 * P + ady →
      width * height ≤ s.buffer.length →
      ∃ sf pts, lineLoop x2 y2 dx (-ady) sx sy width height thickness color dash gap fuel s
          = .ok (sf, pts) ∧
        sf.len = s.len + k ∧ sf.x1 = x2 ∧ sf.y1 = y2 ∧ pts.length = k + 1 ∧
        pts.head? = some (s.x1, s.y1) ∧ pts.getLast? = some (x2, y2) ∧
        (∀ p ∈ pts, ∃ a2 b2 : Nat, (a2 : Int) ≤ dx ∧ (b2 : Int) ≤ ady ∧
          p = (x0 + sx * a2, y0 + sy * b2)) ∧
        (gap = 0 → pts.foldlM (fun buf p => DrawBrush buf width height p.1 p.2 thickness color)
          s.buffer = .ok sf.buffer) := by
  intro k
  induction k with
  | zero =>
    intro fuel s a b P Q hf hk hP hQ hx hy herr i1 i2 hlen
    obtain ⟨f, rfl⟩ : ∃ f, fuel = f + 1 := ⟨fuel - 1, by omega⟩
    obtain ⟨buf, hst, _, hbr⟩ := stamp_ok width height thickness color dash gap hg s hlen
    have hb : (b : Int) = ady := by omega
    have ha : (a : Int) = dx := by
      rw [hP, hQ, hb] at i1 i2
      exact minor_eq dx ady a hady i1 i2
    have hxe : s.x1 = x2 := by rw [hx, hx2, ha]
    have hye : s.y1 = y2 := by rw [hy, hy2, hb]
    refine ⟨{ s with buffer := buf }, [(s.x1, s.y1)], ?_, by simp, hxe, hye, rfl, rfl, ?_, ?_, ?_⟩
    · unfold lineLoop
      rw [hst]
      simp only [Except.bind, hxe, hye, and_self, if_true]
    · rw [hxe, hye]
      rfl
    · intro p hp
      rw [List.mem_singleton] at hp
      exact ⟨a, b, by omega, by omega, by rw [hp, hx, hy]⟩
    · intro h0
      simp only [List.foldlM_cons, List.foldlM_nil, hbr h0, bind, Except.bind, pure, Except.pure]
  | succ k ih =>
    intro fuel s a b P Q hf hk hP hQ hx hy herr i1 i2 hlen
    obtain ⟨f, rfl⟩ : ∃ f, fuel = f + 1 := ⟨fuel - 1, by omega⟩
    obtain ⟨buf, hst, hbl, hbr⟩ := stamp_ok width height thickness color dash gap hg s hlen
    have hb : (b : Int) < ady := by omega
    have ha : (a : Int) ≤ dx := by
      rw [hP, hQ] at i1
      exact minor_le dx ady b a hady hdx (by omega) i1
    have hxne : ¬ (s.x1 = x2 ∧ s.y1 = y2) := by
      rintro ⟨_, h⟩
      rw [hy, hy2] at h
      rcases hsy with r | r <;> rw [r] at h <;> omega
    obtain ⟨e1, e2, e3, e4, e5⟩ := lineAdvance_spec dx (-ady) sx sy { s with buffer := buf }
    simp only at e1 e2 e3 e4 e5
    have hys : 2 * s.err ≤ dx := by omega
    rw [if_pos hys] at e4 e5
    have hQ2 : Q + dx = ((b + 1 : Nat) : Int) * dx := by
      rw [hQ]
      push_cast
      ring
    have hy1 : (lineAdvance dx (-ady) sx sy { s with buffer := buf }).y1
        = y0 + sy * ((b + 1 : Nat) : Int) := by
      rw [e4, hy]
      push_cast
      ring
    have hlen2 : width * height
        ≤ ((lineAdvance dx (-ady) sx sy { s with buffer := buf }).buffer.length : Int) := by
      rw [e2, hbl]
      exact hlen
    have hstep : ∃ (a2 : Nat) (P2 : Int), P2 = a2 * ady ∧
        (lineAdvance dx (-ady) sx sy { s with buffer := buf }).x1 = x0 + sx * a2 ∧
        (lineAdvance dx (-ady) sx sy { s with buffer := buf }).err
          = (Q + dx) + dx - P2 - ady ∧
        2 * P2 - ady ≤ 2 * (Q + dx) ∧ 2 * (Q + dx) < 2 * P2 + ady := by
      by_cases hxs : 2 * s.err ≥ -ady
      · rw [if_pos hxs] at e3 e5
        refine ⟨a + 1, P + ady, ?_, ?_, ?_, ?_, ?_⟩
        · rw [hP]
          push_cast
          ring
        · rw [e3, hx]
          push_cast
          ring
        · omega
        · omega
        · omega
      · rw [if_neg hxs] at e3 e5
        exact ⟨a, P, hP, by rw [e3, hx], by omega, by omega, by omega⟩
    obtain ⟨a2, P2, hP2, hx1, herr2, j1, j2⟩ := hstep
    obtain ⟨sf, pts, r1, r2, r3, r4, r5, r6, r7, r8, r9⟩ :=
      ih f (lineAdvance dx (-ady) sx sy { s with buffer := buf }) a2 (b + 1) P2 (Q + dx)
        (by omega) (by push_cast; omega) hP2 hQ2 hx1 hy1 herr2 j1 j2 hlen2
    refine ⟨sf, (s.x1, s.y1) :: pts, ?_, by rw [r2, e1]; push_cast; ring, r3, r4, by simp [r5],
      rfl, ?_, ?_, ?_⟩
    · rw [lineLoop, hst]
      simp only [Except.bind, hxne, if_false, r1, Except.map]
    · cases pts with
      | nil => simp at r5
      | cons q qs =>
        rw [List.getLast?_cons_cons]
        exact r7
    · intro p hp
      rcases List.mem_cons.1 hp with h | h
      · exact ⟨a, b, ha, by omega, by rw [h, hx, hy]⟩
      · exact r8 p h
    · intro h0
      have := r9 h0
      rw [e2] at this
      simp only [List.foldlM_cons, hbr h0, bind, Except.bind]
      exact this

/-- The quantities of line 60 in terms of the end points. -/
theorem line_setup (x1 x2 : Int) :
    0 ≤ |x2 - x1| ∧ x2 = x1 + (if x1 < x2 then 1 else -1) * |x2 - x1| ∧
    ((if x1 < x2 then (1 : Int) else -1) = 1 ∨ (if x1 < x2 then (1 : Int) else -1) = -1) ∧
    (|x2 - x1| = 0 → x1 = x2) ∧
    ∀ a : Nat, (a : Int) ≤ |x2 - x1| →
      min x1 x2 ≤ x1 + (if x1 < x2 then 1 else -1) * (a : Int) ∧
      x1 + (if x1 < x2 then 1 else -1) * (a : Int) ≤ max x1 x2 := by
  by_cases h : x1 < x2
  · have e : |x2 - x1| = x2 - x1 := abs_of_pos (by omega)
    rw [e, if_pos h, min_eq_left (le_of_lt h), max_eq_right (le_of_lt h)]
    refine ⟨by omega, by omega, Or.inl rfl, by omega, fun a ha => by omega⟩
  · have e : |x2 - x1| = x1 - x2 := by
      rw [abs_of_nonpos (by omega)]
      omega
    rw [e, if_neg h, min_eq_right (by omega), max_eq_left (by omega)]
    refine ⟨by omega, by omega, Or.inr rfl, by omega, fun a ha => by omega⟩

/-- The run of `DrawDottedLine`: it ends after `max(|x2-x1|, |y2-y1|)`
iterations at `(x2, y2)`, inside the bounding box of the end points. -/
theorem DrawDottedLineTrace_spec (x1 y1 x2 y2 : Int) (buffer : List Nat)
    (width height thickness : Int) (color : Nat) (dash gap : Int)
    (hg : gap = 0 ∨ dash + gap ≠ 0) (hlen : width * height ≤ buffer.length) :
    ∃ sf pts,
      DrawDottedLineTrace x1 y1 x2 y2 buffer width height thickness color dash gap
        = .ok (sf, pts) ∧
      sf.len = max |x2 - x1| |y2 - y1| ∧ sf.x1 = x2 ∧ sf.y1 = y2 ∧
      (pts.length : Int) = max |x2 - x1| |y2 - y1| + 1 ∧
      pts.head? = some (x1, y1) ∧ pts.getLast? = some (x2, y2) ∧
      (∀ p ∈ pts, min x1 x2 ≤ p.1 ∧ p.1 ≤ max x1 x2 ∧ min y1 y2 ≤ p.2 ∧ p.2 ≤ max y1 y2) ∧
      (gap = 0 → pts.foldlM (fun buf p => DrawBrush buf width height p.1 p.2 thickness color)
        buffer = .ok sf.buffer) := by
  obtain ⟨dx0, hx2, hsx, hxz, hbx⟩ := line_setup x1 x2
  obtain ⟨dy0, hy2, hsy, hyz, hby⟩ := line_setup y1 y2
  unfold DrawDottedLineTrace
  generalize hdx : |x2 - x1| = dx at *
  generalize hdy : |y2 - y1| = ady at *
  generalize hsxe : (if x1 < x2 then (1 : Int) else -1) = sx at *
  generalize hsye : (if y1 < y2 then (1 : Int) else -1) = sy at *
  have hinit : lineInit x1 y1 x2 y2 buffer
      = { x1 := x1, y1 := y1, err := dx + -ady, len := 0, buffer := buffer } := by
    unfold lineInit
    rw [hdx, hdy]
  rw [hinit]
  have box : ∀ p : Int × Int, (∃ a2 b2 : Nat, (a2 : Int) ≤ dx ∧ (b2 : Int) ≤ ady ∧
      p = (x1 + sx * a2, y1 + sy * b2)) →
      min x1 x2 ≤ p.1 ∧ p.1 ≤ max x1 x2 ∧ min y1 y2 ≤ p.2 ∧ p.2 ≤ max y1 y2 := by
    rintro p ⟨a2, b2, ha, hb, rfl⟩
    exact ⟨(hbx a2 ha).1, (hbx a2 ha).2, (hby b2 hb).1, (hby b2 hb).2⟩
  by_cases hmaj : ady ≤ dx
  · by_cases hpos : 0 < dx
    · obtain ⟨sf, pts, r1, r2, r3, r4, r5, r6, r7, r8, r9⟩ :=
        lineLoop_x_major x1 y1 x2 y2 dx ady sx sy width height thickness color dash gap hg hsx
          hx2 hy2 hpos dy0 hmaj dx.toNat ((dx + ady).toNat + 1)
          { x1 := x1, y1 := y1, err := dx + -ady, len := 0, buffer := buffer } 0 0 0 0
          (by omega) (by simp only [Nat.cast_zero]; omega) (by simp) (by simp) (by simp)
          (by simp) (by simp only []; omega) (by omega) (by omega) hlen
      simp only at r2 r6 r9
      refine ⟨sf, pts, r1, ?_, r3, r4, ?_, r6, r7, fun p hp => box p (r8 p hp), r9⟩
      · rw [r2, max_eq_left hmaj]
        omega
      · rw [r5, max_eq_left hmaj]
        push_cast
        omega
    · have hdx0 : dx = 0 := by omega
      have hdy00 : ady = 0 := by omega
      have ex : x1 = x2 := hxz hdx0
      have ey : y1 = y2 := hyz hdy00
      obtain ⟨buf, hst, _, hbr⟩ := stamp_ok width height thickness color dash gap hg
        { x1 := x1, y1 := y1, err := dx + -ady, len := 0, buffer := buffer } hlen
      simp only at hst hbr
      refine ⟨{ x1 := x1, y1 := y1, err := dx + -ady, len := 0, buffer := buf }, [(x1, y1)],
        ?_, ?_, ex, ey, ?_, rfl, ?_, ?_, ?_⟩
      · rw [lineLoop, hst]
        simp only [Except.bind, ex, ey, and_self, if_true]
      · rw [hdx0, hdy00]
        rfl
      · rw [hdx0, hdy00]
        rfl
      · rw [ex, ey]
        rfl
      · intro p hp
        rw [List.mem_singleton] at hp
        exact box p ⟨0, 0, by simp only [Nat.cast_zero]; omega,
          by simp only [Nat.cast_zero]; omega, by rw [hp]; simp⟩
      · intro h0
        simp only [List.foldlM_cons, List.foldlM_nil, hbr h0, bind, Except.bind, pure,
          Except.pure]
  · obtain ⟨sf, pts, r1, r2, r3, r4, r5, r6, r7, r8, r9⟩ :=
      lineLoop_y_major x1 y1 x2 y2 dx ady sx sy width height thickness color dash gap hg hsy
        hx2 hy2 dx0 (by omega) (by omega) ady.toNat ((dx + ady).toNat + 1)
        { x1 := x1, y1 := y1, err := dx + -ady, len := 0, buffer := buffer } 0 0 0 0
        (by omega) (by simp only [Nat.cast_zero]; omega) (by simp) (by simp) (by simp)
        (by simp) (by simp only []; omega) (by omega) (by omega) hlen
    simp only at r2 r6 r9
    refine ⟨sf, pts, r1, ?_, r3, r4, ?_, r6, r7, fun p hp => box p (r8 p hp), r9⟩
    · rw [r2, max_eq_right (by omega)]
      omega
    · rw [r5, max_eq_right (by omega)]
      push_cast
      omega

/-! ## Claim on `DrawDottedLine` and `DrawLine` -/

/-- Claim C22. Line rasterization terminates: for all integer end points
`(x1, y1)`, `(x2, y2)` (integers unbounded, a buffer of at least
`width * height` bytes, and `dash + gap ≠ 0` unless `gap = 0`) the loop of
`DrawDottedLine` ends after exactly `max(|x2-x1|, |y2-y1|)` iterations (the
final value of `len`; the body is entered once more, for the `break`), every
visited point lies in the bounding box of the two end points, the first visited
point is `(x1, y1)` and the last is `(x2, y2)`; and `DrawLine` (dash 1, gap 0)
visits the points of such a run and its buffer is the result of `DrawBrush`
applied at every visited point in turn, both end points included. -/
theorem DrawDottedLine_terminates (x1 y1 x2 y2 : Int) (buffer : List Nat)
    (width height thickness : Int) (color : Nat) (dash gap : Int)
    (hg : gap = 0 ∨ dash + gap ≠ 0) (hlen : width * height ≤ buffer.length) :
    (∃ sf pts,
      DrawDottedLineTrace x1 y1 x2 y2 buffer width height thickness color dash gap
        = .ok (sf, pts) ∧
      DrawDottedLine x1 y1 x2 y2 buffer width height thickness color dash gap
        = .ok sf.buffer ∧
      sf.len = max |x2 - x1| |y2 - y1| ∧ (pts.length : Int) = max |x2 - x1| |y2 - y1| + 1 ∧
      sf.x1 = x2 ∧ sf.y1 = y2 ∧
      pts.head? = some (x1, y1) ∧ pts.getLast? = some (x2, y2) ∧
      ∀ p ∈ pts, min x1 x2 ≤ p.1 ∧ p.1 ≤ max x1 x2 ∧ min y1 y2 ≤ p.2 ∧ p.2 ≤ max y1 y2) ∧
    (∃ sf pts,
      DrawDottedLineTrace x1 y1 x2 y2 buffer width height thickness color 1 0 = .ok (sf, pts) ∧
      DrawLine x1 y1 x2 y2 buffer width height thickness color = .ok sf.buffer ∧
      sf.len = max |x2 - x1| |y2 - y1| ∧ (pts.length : Int) = max |x2 - x1| |y2 - y1| + 1 ∧
      pts.head? = some (x1, y1) ∧ pts.getLast? = some (x2, y2) ∧
      (∀ p ∈ pts, min x1 x2 ≤ p.1 ∧ p.1 ≤ max x1 x2 ∧ min y1 y2 ≤ p.2 ∧ p.2 ≤ max y1 y2) ∧
      pts.foldlM (fun buf p => DrawBrush buf width height p.1 p.2 thickness color) buffer
        = .ok sf.buffer) := by
  constructor
  · obtain ⟨sf, pts, r1, r2, r3, r4, r5, r6, r7, r8, _⟩ :=
      DrawDottedLineTrace_spec x1 y1 x2 y2 buffer width height thickness color dash gap hg hlen
    refine ⟨sf, pts, r1, ?_, r2, r5, r3, r4, r6, r7, r8⟩
    unfold DrawDottedLine
    rw [r1]
    rfl
  · obtain ⟨sf, pts, r1, r2, r3, r4, r5, r6, r7, r8, r9⟩ :=
      DrawDottedLineTrace_spec x1 y1 x2 y2 buffer width height thickness color 1 0
        (Or.inl rfl) hlen
    refine ⟨sf, pts, r1, ?_, r2, r5, r6, r7, r8, r9 rfl⟩
    unfold DrawLine DrawDottedLine
    rw [r1]
    rfl

theorem DrawDottedLine_terminates_witness :
    ((5 : Int) = 0 ∨ (5 : Int) + 5 ≠ 0) ∧
    (10 : Int) * 10 ≤ ((List.replicate 100 255).length : Int) ∧
    (∃ sf pts,
      DrawDottedLineTrace 3 7 (-2) (-9) (List.replicate 100 255) 10 10 3 0 5 5 = .ok (sf, pts) ∧
      DrawDottedLine 3 7 (-2) (-9) (List.replicate 100 255) 10 10 3 0 5 5 = .ok sf.buffer ∧
      sf.len = max |(-2 : Int) - 3| |(-9 : Int) - 7| ∧
      (pts.length : Int) = max |(-2 : Int) - 3| |(-9 : Int) - 7| + 1 ∧
      sf.x1 = -2 ∧ sf.y1 = -9 ∧
      pts.head? = some (3, 7) ∧ pts.getLast? = some (-2, -9) ∧
      ∀ p ∈ pts, min 3 (-2) ≤ p.1 ∧ p.1 ≤ max 3 (-2) ∧ min 7 (-9) ≤ p.2 ∧ p.2 ≤ max 7 (-9)) ∧
    (∃ sf pts,
      DrawDottedLineTrace 3 7 (-2) (-9) (List.replicate 100 255) 10 10 3 0 1 0 = .ok (sf, pts) ∧
      DrawLine 3 7 (-2) (-9) (List.replicate 100 255) 10 10 3 0 = .ok sf.buffer ∧
      sf.len = max |(-2 : Int) - 3| |(-9 : Int) - 7| ∧
      (pts.length : Int) = max |(-2 : Int) - 3| |(-9 : Int) - 7| + 1 ∧
      pts.head? = some (3, 7) ∧ pts.getLast? = some (-2, -9) ∧
      (∀ p ∈ pts, min 3 (-2) ≤ p.1 ∧ p.1 ≤ max 3 (-2) ∧ min 7 (-9) ≤ p.2 ∧ p.2 ≤ max 7 (-9)) ∧
      pts.foldlM (fun buf p => DrawBrush buf 10 10 p.1 p.2 3 0) (List.replicate 100 255)
        = .ok sf.buffer) :=
  ⟨by decide, by decide,
    DrawDottedLine_terminates 3 7 (-2) (-9) (List.replicate 100 255) 10 10 3 0 5 5 (by decide)
      (by decide)⟩

end SolarFluxPlot
